import Mathlib

/-! libfst (rawksd/source/fst.c): a shallow embedding

The Wii disc filesystem of `fst.c` is embedded as pure functions over explicit state.

* Machine integers are `Nat`/`Int` with explicit wrap-around (`% 2 ^ 32`, `% 2 ^ 64`).
* A memory buffer is a map from byte index (relative to the buffer start) to byte value.
* The drive (`WDVD_LowReadSectors`) and the cipher (`aes_set_key`/`aes_decrypt`) are external
  collaborators; they are parameters of the model (`Env`).
* The file-scope statics of `fst.c` are the fields of `Globals`; two ghost counters record how
  often the drive and the cipher were invoked.
* `malloc`/`realloc`/`strdup` are assumed to succeed, except in `add_child_entry_alloc` and
  `read_fst_alloc`, where the outcome of each allocation request is a parameter.
-/

namespace Fst

/-! # Definitions -/

/-! ## Constants -/

def FLAG_DIR : Nat := 1
def FLAG_RAW : Nat := 2
def DIR_SEPARATOR : Char := '/'
def SECTOR_SIZE : Nat := 0x800
def BUFFER_SIZE : Nat := 0x8000
def CLUSTER_HEADER_SIZE : Nat := 0x400
def ENCRYPTED_CLUSTER_SIZE : Nat := 0x8000
def PLAINTEXT_CLUSTER_SIZE : Nat := ENCRYPTED_CLUSTER_SIZE - CLUSTER_HEADER_SIZE

/-- Values of `errno` used by the device operations (newlib numbering). -/
def ENOENT : Nat := 2
def EIO : Nat := 5
def EBADF : Nat := 9
def ENOTDIR : Nat := 20
def EISDIR : Nat := 21
def EINVAL : Nat := 22
def EOVERFLOW : Nat := 139

/-! ## Machine integers -/

/-- Conversion to `u32`. -/
def toU32 (n : Int) : Nat := (n % 2 ^ 32).toNat

/-- Conversion to `s32` (two's complement). -/
def toS32 (n : Int) : Int := (n + 2 ^ 31) % 2 ^ 32 - 2 ^ 31

/-- The C expression `v << 2` on a `u32` operand: the result has the type of the promoted left
operand, hence 32 bits, whatever the type of the shift count (`2LL` in the source). -/
def shl2_u32 (v : Nat) : Nat := (v * 4) % 2 ^ 32

/-! ## Offset mappings (`u64` arithmetic) -/

/-- Source: `cipher_to_plaintext`, `offset / 0x8000 * 0x7c00 + offset % 0x8000 - 0x400` in `u64`. -/
def cipher_to_plaintext (offset : Nat) : Nat :=
  (offset / ENCRYPTED_CLUSTER_SIZE * PLAINTEXT_CLUSTER_SIZE + offset % ENCRYPTED_CLUSTER_SIZE
    + (2 ^ 64 - CLUSTER_HEADER_SIZE)) % 2 ^ 64

/-- Source: `plaintext_to_cipher`, `offset / 0x7c00 * 0x8000 + offset % 0x7c00 + 0x400` in `u64`. -/
def plaintext_to_cipher (offset : Nat) : Nat :=
  (offset / PLAINTEXT_CLUSTER_SIZE * ENCRYPTED_CLUSTER_SIZE + offset % PLAINTEXT_CLUSTER_SIZE
    + CLUSTER_HEADER_SIZE) % 2 ^ 64

/-! ## Memory, drive, cipher -/

/-- A buffer: byte value at each index relative to the start of the buffer. -/
abbrev Mem := Int → Nat

/-- Model of `memcpy(dst, src + srcOff, len)`. -/
def memcpy (dst src : Mem) (srcOff : Int) (len : Nat) : Mem :=
  fun i => if 0 ≤ i ∧ i < len then src (srcOff + i) else dst i

/-- The `len` bytes of `m` starting at `off`, as a buffer of their own (zero elsewhere). -/
def slice (m : Mem) (off : Int) (len : Nat) : Mem :=
  fun i => if 0 ≤ i ∧ i < len then m (off + i) else 0

/-- The first `n` bytes of a buffer. -/
def bytes (m : Mem) (n : Nat) : List Nat := (List.range n).map (fun (i : Nat) => m (i : Int))

abbrev aeskey := List Nat

/-- The external collaborators of the filesystem core. -/
structure Env where
  /-- Byte of the disc at an absolute byte offset. -/
  disc : Nat → Nat
  /-- Whether the `n`-th call of `WDVD_LowReadSectors(buf, count, sector)` reports failure. -/
  readFails : Nat → Nat → Nat → Bool
  /-- The cipher `aes_set_key(key); aes_decrypt(iv, inbuf, outbuf, len)`: the plaintext it
  writes, from the key, the 16 bytes of `iv` and the `len` bytes of `inbuf`. -/
  aes_decrypt : aeskey → Mem → Mem → Nat → Mem
  /-- Value returned by `gettime()` after the given number of drive reads. -/
  gettime : Nat → Nat
  /-- Value returned by `RemoveDevice`. -/
  removeDevice : Int

/-! ## Directory entries -/

/-- Source: `DIR_ENTRY`. `fileCount` is the length of `children`. -/
inductive DIR_ENTRY where
  | mk (name : List Char) (partition offset size flags : Nat) (children : List DIR_ENTRY)

namespace DIR_ENTRY

def name : DIR_ENTRY → List Char
  | mk n _ _ _ _ _ => n

def partition : DIR_ENTRY → Nat
  | mk _ p _ _ _ _ => p

def offset : DIR_ENTRY → Nat
  | mk _ _ o _ _ _ => o

def size : DIR_ENTRY → Nat
  | mk _ _ _ s _ _ => s

def flags : DIR_ENTRY → Nat
  | mk _ _ _ _ f _ => f

def children : DIR_ENTRY → List DIR_ENTRY
  | mk _ _ _ _ _ c => c

def fileCount (e : DIR_ENTRY) : Nat := e.children.length

end DIR_ENTRY

instance : Inhabited DIR_ENTRY := ⟨DIR_ENTRY.mk [] 0 0 0 0 []⟩

/-- Source: `is_dir`, `entry->flags & FLAG_DIR`. -/
def is_dir (entry : DIR_ENTRY) : Bool := entry.flags % 2 = 1

/-- A `DIR_ENTRY *` into the mounted tree: the child indices leading from the root to it. -/
abbrev Ptr := List Nat

/-- Dereference a pointer into the tree. -/
def entryAt : DIR_ENTRY → Ptr → Option DIR_ENTRY
  | e, [] => some e
  | e, i :: rest =>
    match e.children[i]? with
    | none => none
    | some c => entryAt c rest

/-! ## Partitions and file-scope state -/

structure FST_INFO where
  dol_offset : Nat
  fst_offset : Nat
  fst_size : Nat
  fst_size2 : Nat

structure PARTITION_INFO where
  tmd_size : Nat
  tmd_offset : Nat
  cert_chain_size : Nat
  cert_chain_offset : Nat
  h3_offset : Nat
  data_offset : Nat
  data_size : Nat

structure PARTITION where
  offset : Nat
  key : aeskey
  fst_info : FST_INFO
  partition_info : PARTITION_INFO

instance : Inhabited PARTITION := ⟨⟨0, [], ⟨0, 0, 0, 0⟩, ⟨0, 0, 0, 0, 0, 0, 0⟩⟩⟩

/-- The file-scope statics of `fst.c`, and two ghost counters. -/
structure Globals where
  read_buffer : Mem
  cluster_buffer : Mem
  root : Option DIR_ENTRY
  current : Option Ptr
  partitions : List PARTITION
  last_access : Nat
  dotab_device : Int
  aescache : Mem
  aescache_start : Nat
  aescache_end : Nat
  /-- Ghost: number of `WDVD_LowReadSectors` calls so far. -/
  reads : Nat
  /-- Ghost: number of `aes_decrypt` calls so far. -/
  decrypts : Nat

/-- The state before the first mount: every static zero-initialised. -/
def Globals.initial : Globals :=
  { read_buffer := fun _ => 0, cluster_buffer := fun _ => 0, root := none, current := none,
    partitions := [], last_access := 0, dotab_device := -1, aescache := fun _ => 0,
    aescache_start := 0, aescache_end := 0, reads := 0, decrypts := 0 }

/-! ## Block reads and the cluster cache -/

/-- Source: `_read`. Returns the `int` result, the destination buffer and the new state.
`offset` is a `u64`, `len` a `u32`. -/
def _read (env : Env) (g : Globals) (ptr : Mem) (offset len : Nat) : Int × Mem × Globals :=
  let sector := (offset / SECTOR_SIZE) % 2 ^ 32
  let sector_offset := offset % SECTOR_SIZE
  let len := min (BUFFER_SIZE - sector_offset) len
  if env.readFails g.reads (BUFFER_SIZE / SECTOR_SIZE) sector then
    (-1, ptr, { g with last_access := env.gettime (g.reads + 1), reads := g.reads + 1 })
  else
    let read_buffer : Mem :=
      fun i => if 0 ≤ i ∧ i < (BUFFER_SIZE : Int) then env.disc (sector * SECTOR_SIZE + i.toNat)
               else g.read_buffer i
    (len, memcpy ptr read_buffer sector_offset len,
      { g with read_buffer := read_buffer, last_access := env.gettime (g.reads + 1),
               reads := g.reads + 1 })

/-- Source: `read_and_decrypt_cluster`. Returns the `bool` result, the buffer `buf` and the new
state. `offset` is a `u64`; `offset_from_cluster` and `len` are `u32`. -/
def read_and_decrypt_cluster (env : Env) (g : Globals) (title_key : aeskey) (buf : Mem)
    (offset offset_from_cluster len : Nat) : Bool × Mem × Globals :=
  let cache_start := cipher_to_plaintext ((offset + offset_from_cluster) % 2 ^ 64)
  let cache_end := cipher_to_plaintext ((offset + offset_from_cluster + len) % 2 ^ 64)
  if g.aescache_end ≠ 0 ∧ cache_start ≥ g.aescache_start ∧ cache_end ≤ g.aescache_end then
    (true, memcpy buf g.aescache (cache_start - g.aescache_start : Nat) len, g)
  else
    let r := _read env g buf offset ENCRYPTED_CLUSTER_SIZE
    let bytes_read := toU32 r.1
    let buf := r.2.1
    let g := r.2.2
    if bytes_read ≠ ENCRYPTED_CLUSTER_SIZE then (false, buf, g)
    else
      let iv := slice buf 0x3d0 16
      let inbuf := slice buf CLUSTER_HEADER_SIZE PLAINTEXT_CLUSTER_SIZE
      let plain := env.aes_decrypt title_key iv inbuf PLAINTEXT_CLUSTER_SIZE
      let aescache := memcpy g.aescache plain 0 PLAINTEXT_CLUSTER_SIZE
      let aescache_start := cipher_to_plaintext ((offset + CLUSTER_HEADER_SIZE) % 2 ^ 64)
      let aescache_end := (aescache_start + PLAINTEXT_CLUSTER_SIZE) % 2 ^ 64
      let g := { g with aescache := aescache, aescache_start := aescache_start,
                        aescache_end := aescache_end, decrypts := g.decrypts + 1 }
      (true, memcpy buf aescache ((offset_from_cluster : Int) - CLUSTER_HEADER_SIZE) len, g)

/-- Source: `FST_Unmount`. Returns the `bool` result and the new state. -/
def FST_Unmount (env : Env) (g : Globals) : Bool × Globals :=
  let g := { g with root := none, partitions := [], current := none, aescache_end := 0,
                    last_access := 0 }
  if g.dotab_device ≥ 0 then
    (env.removeDevice = 0, { g with dotab_device := -1 })
  else (true, g)

/-- One call that touches the cluster cache. -/
inductive CacheCall where
  | decrypt (title_key : aeskey) (buf : Mem) (offset offset_from_cluster len : Nat)
  | unmount

/-- The calls considered: `read_and_decrypt_cluster` on a cluster-aligned `u64` offset with
`u32` arguments, and `FST_Unmount`. -/
def CacheCall.admissible : CacheCall → Prop
  | .decrypt _ _ offset ofc len =>
    offset < 2 ^ 64 ∧ offset % ENCRYPTED_CLUSTER_SIZE = 0 ∧ ofc < 2 ^ 32 ∧ len < 2 ^ 32
  | .unmount => True

/-- The state after a call. -/
def CacheCall.run (env : Env) (g : Globals) : CacheCall → Globals
  | .decrypt key buf offset ofc len => (read_and_decrypt_cluster env g key buf offset ofc len).2.2
  | .unmount => (FST_Unmount env g).2

/-- States reachable from the initial state by cluster-aligned `read_and_decrypt_cluster`
calls and `FST_Unmount` calls. -/
inductive Reachable (env : Env) : Globals → Prop where
  | initial : Reachable env Globals.initial
  | step (g : Globals) (c : CacheCall) : Reachable env g → c.admissible →
      Reachable env (c.run env g)

/-! ## Auxiliary definitions for the cluster cache -/

/-- Whether the drive read issued by `_read` at `offset` fails in state `g`. -/
def readFailsAt (env : Env) (g : Globals) (offset : Nat) : Bool :=
  env.readFails g.reads (BUFFER_SIZE / SECTOR_SIZE) ((offset / SECTOR_SIZE) % 2 ^ 32)

/-- The state after a drive read, apart from the contents of `read_buffer`. -/
def afterRead (env : Env) (g : Globals) : Globals :=
  { g with last_access := env.gettime (g.reads + 1), reads := g.reads + 1 }

/-- Contents of `read_buffer` after a successful drive read at `offset`. -/
def readBufferAt (env : Env) (g : Globals) (offset : Nat) : Mem :=
  fun i => if 0 ≤ i ∧ i < (BUFFER_SIZE : Int)
    then env.disc ((offset / SECTOR_SIZE) % 2 ^ 32 * SECTOR_SIZE + i.toNat) else g.read_buffer i

/-- The test of `read_and_decrypt_cluster` for serving a request from the cache. -/
def cacheHit (g : Globals) (offset ofc len : Nat) : Prop :=
  g.aescache_end ≠ 0 ∧
  cipher_to_plaintext ((offset + ofc) % 2 ^ 64) ≥ g.aescache_start ∧
  cipher_to_plaintext ((offset + ofc + len) % 2 ^ 64) ≤ g.aescache_end

/-- The cache contents after the cluster at disc offset `offset` has been decrypted. -/
def decryptedCache (env : Env) (g : Globals) (key : aeskey) (buf : Mem) (offset : Nat) : Mem :=
  memcpy g.aescache
    (env.aes_decrypt key
      (slice (memcpy buf (readBufferAt env g offset) 0 ENCRYPTED_CLUSTER_SIZE) 0x3d0 16)
      (slice (memcpy buf (readBufferAt env g offset) 0 ENCRYPTED_CLUSTER_SIZE)
        CLUSTER_HEADER_SIZE PLAINTEXT_CLUSTER_SIZE)
      PLAINTEXT_CLUSTER_SIZE) 0 PLAINTEXT_CLUSTER_SIZE

/-- Cache boundaries: empty, or exactly the plaintext range of one cluster. -/
def CacheInv (g : Globals) : Prop :=
  g.aescache_end = 0 ∨
  ∃ k, k < 2 ^ 49 ∧ g.aescache_start = k * 0x7c00 ∧ g.aescache_end = (k + 1) * 0x7c00

/-- A drive that never fails over an all-zero disc, with a cipher that copies its input. -/
def envZero : Env :=
  { disc := fun _ => 0, readFails := fun _ _ _ => false, aes_decrypt := fun _ _ inbuf _ => inbuf,
    gettime := fun n => n, removeDevice := 0 }

/-- A drive on which every read fails. -/
def envBroken : Env := { envZero with readFails := fun _ _ _ => true }

/-- The second cluster is decrypted, then the filesystem is unmounted. -/
def staleCache : Globals :=
  CacheCall.unmount.run envZero
    ((CacheCall.decrypt [] (fun _ => 0) 0x8000 0x400 1).run envZero Globals.initial)

/-! ## Path resolution and handles

`FST_MAXPATHLEN` is defined in the header `fst.h`; its value is left open here: it is the
parameter `M` of the functions below (a positive constant in the program). C strings are
lists of characters, the end of the list standing for the terminating NUL. -/

def DEVICE_NAME : List Char := ['f', 's', 't']

/-- Source: `tolower` of the C locale, used by `strncasecmp`. -/
def tolower (c : Char) : Char :=
  if 65 ≤ c.toNat ∧ c.toNat ≤ 90 then Char.ofNat (c.toNat + 32) else c

/-- Source: `strchr(s, c)` for `c` other than NUL: the suffix at the first occurrence. -/
def strchr : List Char → Char → Option (List Char)
  | [], _ => none
  | x :: xs, c => if x = c then some (x :: xs) else strchr xs c

/-- Source: `strnlen`. -/
def strnlen (s : List Char) (n : Nat) : Nat := min s.length n

/-- Source: `!strncasecmp(s1, s2, n)`. -/
def strncasecmp_eq (s1 s2 : List Char) (n : Nat) : Bool :=
  (s1.take n).map tolower = (s2.take n).map tolower

/-- Source: `while (pathPosition[0] == DIR_SEPARATOR) pathPosition++;`. -/
def skipSeparators : List Char → List Char
  | [] => []
  | x :: xs => if x = DIR_SEPARATOR then skipSeparators xs else x :: xs

/-- Source: `invalid_drive_specifier`. -/
def invalid_drive_specifier (path : List Char) : Bool :=
  if strchr path ':' = none then false
  else if DEVICE_NAME = path.take DEVICE_NAME.length ∧ path[DEVICE_NAME.length]? = some ':'
  then false
  else true

/-- The name test of the inner loop of `entry_from_path` (line 154). -/
def nameMatches (M : Nat) (pathPosition : List Char) (dirnameLength : Nat)
    (entry : DIR_ENTRY) : Bool :=
  dirnameLength = strnlen entry.name (M - 1) ∧
    strncasecmp_eq pathPosition entry.name dirnameLength

/-- The value of `found` after the inner loop of `entry_from_path` has examined one child
(lines 154-155); `hasNext` stands for `nextPathPosition != NULL`. -/
def childMatches (M : Nat) (pathPosition : List Char) (dirnameLength : Nat) (hasNext : Bool)
    (entry : DIR_ENTRY) : Bool :=
  let found := nameMatches M pathPosition dirnameLength entry
  if found ∧ ¬ is_dir entry ∧ hasNext then false else found

/-- The inner loop of `entry_from_path` over `dir->children`, from index `fileIndex`: the
index and entry at which it stops with `found`, or `none` when it runs off the end. -/
def findChild (M : Nat) (pathPosition : List Char) (dirnameLength : Nat) (hasNext : Bool) :
    List DIR_ENTRY → Nat → Option (Nat × DIR_ENTRY)
  | [], _ => none
  | entry :: rest, fileIndex =>
    if childMatches M pathPosition dirnameLength hasNext entry then some (fileIndex, entry)
    else findChild M pathPosition dirnameLength hasNext rest (fileIndex + 1)

/-- The outer loop of `entry_from_path` (lines 144-171), entered with `found` and `notFound`
false. The result is `none` when the fuel runs out, `some none` for a `NULL` return and
`some (some (p, e))` when entry `e`, at pointer `p`, is returned. -/
def walk (M : Nat) : Nat → Ptr → DIR_ENTRY → List Char → Option (Option (Ptr × DIR_ENTRY))
  | 0, _, _, _ => none
  | fuel + 1, dirPtr, dir, pathPosition =>
    let nextPathPosition := strchr pathPosition DIR_SEPARATOR
    let dirnameLength := match nextPathPosition with
      | some next => pathPosition.length - next.length
      | none => pathPosition.length
    if dirnameLength ≥ M then some none
    else
      match findChild M pathPosition dirnameLength nextPathPosition.isSome dir.children 0 with
      | none => some none
      | some (fileIndex, entry) =>
        match nextPathPosition with
        | none => some (some (dirPtr ++ [fileIndex], entry))
        | some next =>
          if is_dir entry then
            let pathPosition := skipSeparators next
            if pathPosition = [] then some (some (dirPtr ++ [fileIndex], entry))
            else walk M fuel (dirPtr ++ [fileIndex]) entry pathPosition
          else some (some (dirPtr ++ [fileIndex], entry))

/-- The path after `if (strchr(path, ':') != NULL) path = strchr(path, ':') + 1;`. -/
def afterDrive (path : List Char) : List Char :=
  match strchr path ':' with
  | some s => s.drop 1
  | none => path

/-- Source: `entry_from_path`, with explicit fuel for its outer loop. `root` is the mounted
tree and `current` the pointer held in the static `current`. -/
def entry_from_path_fuel (M fuel : Nat) (root : DIR_ENTRY) (current : Ptr) (path : List Char) :
    Option (Option (Ptr × DIR_ENTRY)) :=
  if invalid_drive_specifier path then some none
  else
    let path := afterDrive path
    if path.head? = some DIR_SEPARATOR then
      let pathPosition := skipSeparators path
      if pathPosition = [] then some (some ([], root))
      else if pathPosition = ['.'] then some (some ([], root))
      else walk M fuel [] root pathPosition
    else
      match entryAt root current with
      | none => some none
      | some entry =>
        if current = [] ∧ path = ['.'] then some (some (current, entry))
        else walk M fuel current entry path

/-- Source: `entry_from_path`; the fuel given always suffices (`entry_from_path_fuel_eq`). -/
def entry_from_path (M : Nat) (root : DIR_ENTRY) (current : Ptr) (path : List Char) :
    Option (Ptr × DIR_ENTRY) :=
  (entry_from_path_fuel M (path.length + 1) root current path).join

/-- Source: `FILE_STRUCT`; `entry` is the entry the handle points to. -/
structure FILE_STRUCT where
  entry : DIR_ENTRY
  offset : Nat
  inUse : Bool

/-- Source: `DIR_STATE_STRUCT`. -/
structure DIR_STATE_STRUCT where
  entry : DIR_ENTRY
  index : Nat
  inUse : Bool

/-- Result of `_FST_open_r`: return value, the value stored to `r->_errno` (if any), and
the handle. -/
structure OpenResult where
  ret : Int
  errno : Option Nat
  file : FILE_STRUCT

/-- Source: `_FST_open_r`. `fd` is the address of the handle, returned on success. -/
def _FST_open_r (M : Nat) (root : DIR_ENTRY) (current : Ptr) (fd : Int) (file : FILE_STRUCT)
    (path : List Char) : OpenResult :=
  match entry_from_path M root current path with
  | none => { ret := -1, errno := some ENOENT, file := file }
  | some (_, entry) =>
    if is_dir entry then { ret := -1, errno := some EISDIR, file := file }
    else { ret := fd, errno := none, file := { entry := entry, offset := 0, inUse := true } }

/-- The fields of `struct stat` written by `stat_entry`. -/
structure Stat where
  st_dev : Nat
  st_ino : Nat
  st_mode : Nat
  st_nlink : Nat
  st_uid : Nat
  st_gid : Nat
  st_rdev : Nat
  st_size : Nat
  st_atime : Nat
  st_mtime : Nat
  st_ctime : Nat
  st_blksize : Nat
  st_blocks : Nat
deriving DecidableEq

def S_IFDIR : Nat := 0o040000
def S_IFREG : Nat := 0o100000
def S_IRUSR : Nat := 0o400
def S_IRGRP : Nat := 0o040
def S_IROTH : Nat := 0o004

/-- Source: `stat_entry`. -/
def stat_entry (entry : DIR_ENTRY) : Stat :=
  { st_dev := 0x4657, st_ino := 0,
    st_mode := (if is_dir entry then S_IFDIR else S_IFREG) ||| (S_IRUSR ||| S_IRGRP ||| S_IROTH),
    st_nlink := 1, st_uid := 1, st_gid := 2, st_rdev := 0x4657, st_size := entry.size,
    st_atime := 0, st_mtime := 0, st_ctime := 0, st_blksize := SECTOR_SIZE,
    st_blocks := ((entry.size + SECTOR_SIZE - 1) % 2 ^ 32) / SECTOR_SIZE }

/-- Source: `strncpy(dst, src, n)` into a caller's character buffer, given as the character
at each index with `none` standing for NUL: the first `n` characters of `dst` become those of
the string `src`, padded with NUL when `src` is shorter. When `src` has `n` or more
characters no NUL is written, and from index `n` on `dst` keeps what it held. -/
def strncpy (dst : Nat → Option Char) (src : List Char) (n : Nat) : Nat → Option Char :=
  fun i => if i < n then src[i]? else dst i

/-- The C string found in a buffer from index `i`, as far as its first `n` characters: the
characters before the first NUL. -/
def bufferString (buf : Nat → Option Char) : Nat → Nat → List Char
  | 0, _ => []
  | n + 1, i =>
    match buf i with
    | none => []
    | some c => c :: bufferString buf n (i + 1)

/-- A buffer that holds NUL everywhere. -/
def zeroBuffer : Nat → Option Char := fun _ => none

/-- Result of `_FST_dirnext_r`: return value, the value stored to `r->_errno` (if any), the
directory handle, and the contents of the caller's `filename` and `st` buffers. -/
structure DirNextResult where
  ret : Int
  errno : Option Nat
  state : DIR_STATE_STRUCT
  filename : Nat → Option Char
  st : Stat

/-- Source: `_FST_dirnext_r`; `filename` is the caller's buffer as the call finds it. -/
def _FST_dirnext_r (M : Nat) (state : DIR_STATE_STRUCT) (filename : Nat → Option Char)
    (st : Stat) : DirNextResult :=
  if ¬ state.inUse then
    { ret := -1, errno := some EBADF, state := state, filename := filename, st := st }
  else
    match state.entry.children[state.index]? with
    | none => { ret := -1, errno := some ENOENT, state := state, filename := filename, st := st }
    | some entry =>
      { ret := 0, errno := none, state := { state with index := state.index + 1 },
        filename := strncpy filename entry.name (M - 1), st := stat_entry entry }

/-- The name a caller reads from its `filename` buffer after `_FST_dirnext_r`, as far as its
first `n` characters. -/
def DirNextResult.name (r : DirNextResult) (n : Nat) : List Char := bufferString r.filename n 0

/-- The directory "sys", holding "main.dol". -/
def sysDir : DIR_ENTRY := .mk "sys".toList 0 2 0 1 [ .mk "main.dol".toList 0 0x20 50 0 [] ]

/-- The partition directory "0", holding the file "A.TXT" and the directory "sys". -/
def partitionDir : DIR_ENTRY := .mk ['0'] 0 0 0 1 [ .mk "A.TXT".toList 0 0x10 100 0 [], sysDir ]

/-- A small tree: the root holds the partition directory "0" and two files "a" and "A" of
sizes 1 and 2. -/
def sampleTree : DIR_ENTRY :=
  .mk [] 0 0 0 1 [ partitionDir, .mk ['a'] 0 0 1 0 [], .mk ['A'] 0 0 2 0 [] ]

/-- Two strings that differ only in the case of ASCII letters. -/
def CaseEq (s t : List Char) : Prop := s.map tolower = t.map tolower

/-- Two `strchr` results that are both `NULL` or differ only in the case of ASCII letters. -/
def OptCaseEq : Option (List Char) → Option (List Char) → Prop
  | none, none => True
  | some a, some b => CaseEq a b
  | _, _ => False

/-- What a caller observes of a resolved entry: its pointer, size and type. -/
def resolved (M : Nat) (root : DIR_ENTRY) (current : Ptr) (path : List Char) :
    Option (Ptr × Nat × Bool) :=
  (entry_from_path M root current path).map (fun x => (x.1, x.2.size, is_dir x.2))

/-- A tree whose root holds files with the odd names "a:b", "c/d", "." and "". -/
def oddTree : DIR_ENTRY :=
  .mk [] 0 0 0 1
    [ .mk "a:b".toList 0 0 1 0 [], .mk "c/d".toList 0 0 2 0 [], .mk ['.'] 0 0 3 0 [],
      .mk [] 0 0 4 0 [] ]

/-- A tree whose root holds a directory with the empty name, holding the file "x". -/
def emptyNameTree : DIR_ENTRY :=
  .mk [] 0 0 0 1 [ .mk [] 0 0 0 1 [ .mk ['x'] 0 0 5 0 [] ] ]

/-- An unused `struct stat`. -/
def Stat.zero : Stat := ⟨0, 0, 0, 0, 0, 0, 0, 0, 0, 0, 0, 0, 0⟩


/-- The directory `entry_from_path` starts from: the root (the empty pointer) for a path
that begins with a separator after its drive prefix, the current directory otherwise. -/
def startDir (current : Ptr) (path : List Char) : Ptr :=
  if (afterDrive path).head? = some DIR_SEPARATOR then [] else current
/-! ## The file-system-table parser -/

/-- Source: `FST_ENTRY`; `name_offset` is the value of its three bytes, most significant
first. -/
structure FST_ENTRY where
  filetype : Nat
  name_offset : Nat
  fileoffset : Nat
  filelen : Nat

namespace DIR_ENTRY

def withOffset : DIR_ENTRY → Nat → DIR_ENTRY
  | mk n p _ s f c, o => mk n p o s f c

def withSize : DIR_ENTRY → Nat → DIR_ENTRY
  | mk n p o _ f c, s => mk n p o s f c

def withFlags : DIR_ENTRY → Nat → DIR_ENTRY
  | mk n p o s _ c, f => mk n p o s f c

def withChildren : DIR_ENTRY → List DIR_ENTRY → DIR_ENTRY
  | mk n p o s f _, c => mk n p o s f c

/-- The directory after its slot `children[fileCount++]` has been filled with `child`. -/
def appendChild (dir child : DIR_ENTRY) : DIR_ENTRY := dir.withChildren (dir.children ++ [child])

end DIR_ENTRY

/-- Source: `add_child_entry`, the new slot of `dir->children`: zeroed, then given the
partition of `dir` and the name, when `realloc` and `strdup` succeed
(`add_child_entry_alloc` below lets them fail). -/
def add_child_entry (dir : DIR_ENTRY) (name : List Char) : DIR_ENTRY :=
  .mk name dir.partition 0 0 0 []

/-- The `for` loop of `read_fst` (lines 513-517) over the children of a directory whose
length field is `filelen`; `rec` is the recursive call and the first argument bounds the
number of iterations. -/
def read_fst_loop (rec : DIR_ENTRY → Int → Option (Int × DIR_ENTRY)) (filelen : Nat) :
    Nat → DIR_ENTRY → Int → Option (Int × DIR_ENTRY)
  | n, entry, next =>
    if toU32 next < filelen then
      match n with
      | 0 => none
      | n + 1 =>
        match rec entry next with
        | none => none
        | some (r, entry) =>
          if r = -1 then some (-1, entry) else read_fst_loop rec filelen n entry r
    else some (toS32 filelen, entry)

/-- Source: `read_fst`, with fuel bounding the recursion depth and the iterations of each
loop. `fst` is the memory at the table (entry at each index) and `name_table` the string
found at each offset of the name table. Returns the `s32` result and the updated `entry`;
`none` when the fuel runs out. -/
def read_fst (M : Nat) (fst : Int → FST_ENTRY) (name_table : Nat → List Char) :
    Nat → DIR_ENTRY → Int → Option (Int × DIR_ENTRY)
  | 0, _, _ => none
  | fuel + 1, entry, index =>
    let fst_entry := fst index
    let body (entry : DIR_ENTRY) : Option (Int × DIR_ENTRY) :=
      if fst_entry.filetype % 2 = 1 then
        read_fst_loop (fun e i => read_fst M fst name_table fuel e i) fst_entry.filelen fuel
          (entry.withOffset (toU32 index)) (toS32 (index + 1))
      else
        some (toS32 (index + 1),
          (entry.withOffset fst_entry.fileoffset).withSize fst_entry.filelen)
    if index > 0 then
      let name_offset := (fst_entry.filetype * 2 ^ 24 + fst_entry.name_offset) % 2 ^ 24
      let name := name_table name_offset
      if name.length ≥ M then some (-1, entry)
      else
        match body ((add_child_entry entry name).withFlags fst_entry.filetype) with
        | none => none
        | some (r, child) => some (r, entry.appendChild child)
    else body entry

/-! ### The parser on a heap that can run out -/

/-- Source: `add_child_entry`, with the outcome of its two allocations given by `alloc`:
request number `k`, counted over the whole parse, succeeds when `alloc k` is true. Returns
the new child (`none` for `NULL`), the directory as the call leaves it and the number of
requests made so far. When `realloc` fails the directory is unchanged; when `strdup` fails
the directory has its new slot, zeroed but for the partition, and the child has no name. -/
def add_child_entry_alloc (alloc : Nat → Bool) (k : Nat) (dir : DIR_ENTRY) (name : List Char) :
    Option DIR_ENTRY × DIR_ENTRY × Nat :=
  if ¬ alloc k then (none, dir, k + 1)
  else if ¬ alloc (k + 1) then
    (none, dir.appendChild (.mk [] dir.partition 0 0 0 []), k + 2)
  else (some (.mk name dir.partition 0 0 0 []), dir, k + 2)

/-- The `for` loop of `read_fst` (lines 513-517), as `read_fst_loop`, with the number of
allocation requests made so far passed along. -/
def read_fst_loop_alloc (rec : Nat → DIR_ENTRY → Int → Option (Int × DIR_ENTRY × Nat))
    (filelen : Nat) : Nat → Nat → DIR_ENTRY → Int → Option (Int × DIR_ENTRY × Nat)
  | n, k, entry, next =>
    if toU32 next < filelen then
      match n with
      | 0 => none
      | n + 1 =>
        match rec k entry next with
        | none => none
        | some (r, entry, k) =>
          if r = -1 then some (-1, entry, k) else read_fst_loop_alloc rec filelen n k entry r
    else some (toS32 filelen, entry, k)

/-- Source: `read_fst`, as `read_fst` above but with allocations that may fail: `alloc` gives
the outcome of each request and `k` is the number of requests made so far. Returns the `s32`
result, the updated `entry` and the number of requests made; `none` when the fuel runs
out. -/
def read_fst_alloc (M : Nat) (fst : Int → FST_ENTRY) (name_table : Nat → List Char)
    (alloc : Nat → Bool) : Nat → Nat → DIR_ENTRY → Int → Option (Int × DIR_ENTRY × Nat)
  | 0, _, _, _ => none
  | fuel + 1, k, entry, index =>
    let fst_entry := fst index
    let body (k : Nat) (entry : DIR_ENTRY) : Option (Int × DIR_ENTRY × Nat) :=
      if fst_entry.filetype % 2 = 1 then
        read_fst_loop_alloc (fun k e i => read_fst_alloc M fst name_table alloc fuel k e i)
          fst_entry.filelen fuel k (entry.withOffset (toU32 index)) (toS32 (index + 1))
      else
        some (toS32 (index + 1),
          (entry.withOffset fst_entry.fileoffset).withSize fst_entry.filelen, k)
    if index > 0 then
      let name_offset := (fst_entry.filetype * 2 ^ 24 + fst_entry.name_offset) % 2 ^ 24
      let name := name_table name_offset
      if name.length ≥ M then some (-1, entry, k)
      else
        match add_child_entry_alloc alloc k entry name with
        | (none, entry, k) => some (-1, entry, k)
        | (some child, entry, k) =>
          match body k (child.withFlags fst_entry.filetype) with
          | none => none
          | some (r, child, k) => some (r, entry.appendChild child, k)
    else body k entry

/-! ### The tree a well-formed table describes -/

/-- Whether table entry `i` is a directory. -/
def fstDir (fst : Int → FST_ENTRY) (i : Nat) : Bool := (fst i).filetype % 2 = 1

/-- The end index stored by table entry `i`. -/
def fstEnd (fst : Int → FST_ENTRY) (i : Nat) : Nat := (fst i).filelen

/-- The name of table entry `i`: the string at its 24-bit name-table offset. -/
def fstName (fst : Int → FST_ENTRY) (name_table : Nat → List Char) (i : Nat) : List Char :=
  name_table ((fst i).name_offset % 2 ^ 24)

/-- A well-formed table of `N` entries: entry 0 is a directory whose length field is `N`,
every directory entry lying inside a directory ends after itself and within it, and every
name is shorter than `FST_MAXPATHLEN`. (A table held in 32-bit memory has fewer than
`2 ^ 31` entries.) -/
structure WellFormed (M : Nat) (fst : Int → FST_ENTRY) (name_table : Nat → List Char)
    (N : Nat) : Prop where
  root_dir : fstDir fst 0 = true
  root_len : fstEnd fst 0 = N
  pos : 0 < N
  small : N < 2 ^ 31
  names : ∀ i, 0 < i → i < N → (fstName fst name_table i).length < M
  nested : ∀ k i, k < N → fstDir fst k = true → k < i → i < fstEnd fst k → fstDir fst i = true →
    i < fstEnd fst i ∧ fstEnd fst i ≤ fstEnd fst k

/-- The index following table entry `i` and all that is nested in it. -/
def fstNext (fst : Int → FST_ENTRY) (i : Nat) : Nat :=
  if fstDir fst i then fstEnd fst i else i + 1

/-- Entry `j` of the index range from `lo` is not nested in a directory that starts in the
range before it. -/
def isTopLevel (fst : Int → FST_ENTRY) (lo j : Nat) : Bool :=
  (List.range' lo (j - lo)).all (fun k => !fstDir fst k || decide (fstEnd fst k ≤ j))

/-- The entries of the index range `[lo, hi)` that are not nested in a deeper directory, in
index order. -/
def topLevel (fst : Int → FST_ENTRY) (lo hi : Nat) : List Nat :=
  (List.range' lo (hi - lo)).filter (isTopLevel fst lo)

/-- The tree entry described by table entry `i`: a file records `fileoffset` and `filelen`,
a directory records its own index and has as children the entries of `(i, e)` not nested in
a deeper directory. The first argument bounds the depth. -/
def specEntry (fst : Int → FST_ENTRY) (name_table : Nat → List Char) (partition : Nat) :
    Nat → Nat → DIR_ENTRY
  | 0, i => .mk (fstName fst name_table i) partition 0 0 (fst i).filetype []
  | d + 1, i =>
    if fstDir fst i then
      .mk (fstName fst name_table i) partition i 0 (fst i).filetype
        ((topLevel fst (i + 1) (fstEnd fst i)).map (specEntry fst name_table partition d))
    else
      .mk (fstName fst name_table i) partition (fst i).fileoffset (fst i).filelen
        (fst i).filetype []

/-- What the tree records for table entry `i`: name, flags, offset and size. -/
def fstInfo (fst : Int → FST_ENTRY) (name_table : Nat → List Char) (i : Nat) :
    List Char × Nat × Nat × Nat :=
  (fstName fst name_table i, (fst i).filetype,
    if fstDir fst i then i else (fst i).fileoffset,
    if fstDir fst i then 0 else (fst i).filelen)

mutual
/-- Pre-order traversal of a tree: name, flags, offset and size of each entry. -/
def preorder : DIR_ENTRY → List (List Char × Nat × Nat × Nat)
  | .mk n _ o s f c => (n, f, o, s) :: preorderList c
/-- Pre-order traversal of a list of trees. -/
def preorderList : List DIR_ENTRY → List (List Char × Nat × Nat × Nat)
  | [] => []
  | e :: es => preorder e ++ preorderList es
end

/-- The hypotheses under which a non-advancing end index at `i` is met by the parse: entry 0
is a directory of `N` entries, names are short, directories end within the table, and the
directory at `0 < i < N` stores an end index that does not advance past `i`. -/
structure Malformed (M : Nat) (fst : Int → FST_ENTRY) (name_table : Nat → List Char)
    (N i : Nat) : Prop where
  root_dir : fstDir fst 0 = true
  root_len : fstEnd fst 0 = N
  small : N < 2 ^ 31
  names : ∀ j, 0 < j → j < N → (fstName fst name_table j).length < M
  ends : ∀ j, j < N → fstDir fst j = true → fstEnd fst j ≤ N
  pos : 0 < i
  inside : i < N
  is_dir : fstDir fst i = true
  stuck : fstEnd fst i ≤ i

/-- A sample table: root (5 entries), "a.txt", directory "d" holding "b" and "c". -/
def sampleFst : Int → FST_ENTRY := fun i =>
  if i = 0 then ⟨1, 0, 0, 5⟩
  else if i = 1 then ⟨0, 1, 0x100, 7⟩
  else if i = 2 then ⟨1, 7, 0, 5⟩
  else if i = 3 then ⟨0, 9, 0x200, 8⟩
  else if i = 4 then ⟨0, 11, 0x300, 9⟩
  else ⟨0, 0, 0, 0⟩

/-- The name table of `sampleFst`. -/
def sampleNames : Nat → List Char := fun o =>
  if o = 1 then "a.txt".toList else if o = 7 then ['d'] else if o = 9 then ['b']
  else if o = 11 then ['c'] else []

/-- A table with a malformed index progression: the directory at index 1 stores the end
index 1. -/
def malformedFst : Int → FST_ENTRY := fun i =>
  if i = 0 then ⟨1, 0, 0, 3⟩
  else if i = 1 then ⟨1, 1, 0, 1⟩
  else if i = 2 then ⟨0, 3, 0x100, 7⟩
  else ⟨0, 0, 0, 0⟩

/-- An empty partition directory. -/
def emptyRoot : DIR_ENTRY := .mk ['0'] 0 0 0 1 []

/-! ## Reading through a file handle -/

/-- Result of `_FST_read_r`: return value, the value last stored to `r->_errno` (if any), the
handle, the caller's buffer and the file-scope state. -/
structure ReadResult where
  ret : Int
  errno : Option Nat
  file : FILE_STRUCT
  ptr : Mem
  g : Globals

/-- Source: `_FST_read_r`. `len` is a `size_t` (32 bits); the sums and shifts of `u32`
operands wrap at 32 bits. -/
def _FST_read_r (env : Env) (g : Globals) (file : FILE_STRUCT) (ptr : Mem) (len : Nat) :
    ReadResult :=
  if ¬ file.inUse then ⟨-1, some EBADF, file, ptr, g⟩
  else if file.offset ≥ file.entry.size then ⟨0, some EOVERFLOW, file, ptr, g⟩
  else
    let overflow : Bool := (len + file.offset) % 2 ^ 32 > file.entry.size
    let errno := if overflow then some EOVERFLOW else none
    let len := if overflow then file.entry.size - file.offset else len
    if len = 0 then ⟨0, errno, file, ptr, g⟩
    else
      let partition := g.partitions.getD file.entry.partition default
      if file.entry.flags / FLAG_RAW % 2 = 1 then
        let offset :=
          (shl2_u32 partition.offset + shl2_u32 file.entry.offset + file.offset) % 2 ^ 32
        let r := _read env g ptr offset len
        -- `len = _read(...)` stores the `int` result in a `size_t`; `len < 0` is never true
        let len := toU32 r.1
        ⟨toS32 len, errno, { file with offset := (file.offset + len) % 2 ^ 32 }, r.2.1, r.2.2⟩
      else
        let offset_from_data :=
          plaintext_to_cipher ((shl2_u32 file.entry.offset + file.offset) % 2 ^ 32)
        let cluster_offset_from_data :=
          offset_from_data / ENCRYPTED_CLUSTER_SIZE * ENCRYPTED_CLUSTER_SIZE
        let offset_from_cluster := offset_from_data % ENCRYPTED_CLUSTER_SIZE
        let len := min (ENCRYPTED_CLUSTER_SIZE - offset_from_cluster) len
        let data_offset :=
          (shl2_u32 partition.offset + shl2_u32 partition.partition_info.data_offset) % 2 ^ 32
        let r := read_and_decrypt_cluster env g partition.key g.cluster_buffer
          ((data_offset + cluster_offset_from_data) % 2 ^ 64) offset_from_cluster len
        let g := { r.2.2 with cluster_buffer := r.2.1 }
        if ¬ r.1 then ⟨-1, some EIO, file, ptr, g⟩
        else
          ⟨toS32 len, errno, { file with offset := (file.offset + len) % 2 ^ 32 },
            memcpy ptr g.cluster_buffer 0 len, g⟩

/-- An encrypted file of 0x10000 bytes at the start of the partition data. -/
def bigFile : DIR_ENTRY := .mk "big".toList 0 0 0x10000 0 []

/-- A raw file of 0x10000 bytes at the start of the partition. -/
def rawFile : DIR_ENTRY := .mk "raw".toList 0 0 0x10000 FLAG_RAW []

/-- One partition at disc offset 0x40000 whose data starts 0x20000 bytes further. -/
def onePartition : Globals :=
  { Globals.initial with
    partitions := [⟨0x10000, [], ⟨0, 0, 0, 0⟩, ⟨0, 0, 0, 0, 0, 0x8000, 0⟩⟩] }

/-- Whether an entry is raw (`flags & FLAG_RAW`). -/
def is_raw (entry : DIR_ENTRY) : Bool := entry.flags / FLAG_RAW % 2 = 1

/-- The number of bytes from the position of the handle to the boundary at which a read is
cut: the end of the current cluster for a decrypted entry, the end of the read buffer for a
raw entry. -/
def bytesToBoundary (g : Globals) (file : FILE_STRUCT) : Nat :=
  if is_raw file.entry then
    0x8000 - (4 * (g.partitions.getD file.entry.partition default).offset
      + 4 * file.entry.offset + file.offset) % 0x800
  else 0x7c00 - (4 * file.entry.offset + file.offset) % 0x7c00

/-- The byte count of a successful read of `len` bytes. -/
def readCount (g : Globals) (file : FILE_STRUCT) (len : Nat) : Nat :=
  min (min len (file.entry.size - file.offset)) (bytesToBoundary g file)

/-! ### The plaintext of a partition

The plaintext space of a partition is the concatenation of the decrypted payloads of its
clusters: plaintext byte `p` is byte `p mod 0x7c00` of the payload of cluster `p div 0x7c00`,
decrypted with the IV stored at `0x3d0` in the header of that cluster. -/

/-- The disc from absolute byte offset `base` on, as a buffer. -/
def discMem (env : Env) (base : Nat) : Mem := fun i => env.disc (base + i.toNat)

/-- The decrypted payload of the cluster at absolute disc offset `base`. -/
def trueCluster (env : Env) (key : aeskey) (base : Nat) : Mem :=
  env.aes_decrypt key (slice (discMem env base) 0x3d0 16)
    (slice (discMem env base) CLUSTER_HEADER_SIZE PLAINTEXT_CLUSTER_SIZE) PLAINTEXT_CLUSTER_SIZE

/-- Plaintext byte `p` of the partition whose data region starts at disc offset
`dataOffset`. -/
def partitionPlaintext (env : Env) (key : aeskey) (dataOffset p : Nat) : Nat :=
  trueCluster env key (dataOffset + p / 0x7c00 * 0x8000) ((p % 0x7c00 : Nat) : Int)

/-- A drive that never fails, over a disc each byte of which holds the number of its cluster
(modulo 256), with a cipher that copies its input. -/
def envMarked : Env := { envZero with disc := fun i => i / 0x8000 % 256 }

/-- An encrypted file of 16 bytes that starts 4 GiB into the partition data. -/
def farFile : DIR_ENTRY := .mk "far".toList 0 0x40000000 16 0 []

/-- The cache is empty or holds the decryption, under `key`, of the cluster its boundaries
name. -/
def CacheTrue (env : Env) (key : aeskey) (g : Globals) : Prop :=
  g.aescache_end = 0 ∨
  ∃ k, k < 2 ^ 49 ∧ g.aescache_start = k * 0x7c00 ∧ g.aescache_end = (k + 1) * 0x7c00 ∧
    ∀ j : Nat, j < 0x7c00 → g.aescache (j : Int) = trueCluster env key (k * 0x8000) (j : Int)

/-- Successive `_FST_read_r` calls with the requested lengths `lens`: the concatenation of
the bytes returned, the handle and the state afterwards; `none` if a call fails. -/
def readSeq (env : Env) : Globals → FILE_STRUCT → List Nat →
    Option (List Nat × FILE_STRUCT × Globals)
  | g, file, [] => some ([], file, g)
  | g, file, len :: rest =>
    if (_FST_read_r env g file (fun _ => 0) len).ret < 0 then none
    else
      match readSeq env (_FST_read_r env g file (fun _ => 0) len).g
          (_FST_read_r env g file (fun _ => 0) len).file rest with
      | none => none
      | some (bs, f, g2) =>
        some (bytes (_FST_read_r env g file (fun _ => 0) len).ptr
          (_FST_read_r env g file (fun _ => 0) len).ret.toNat ++ bs, f, g2)

/-- The partition of the entry a handle points to. -/
def partitionOf (g : Globals) (file : FILE_STRUCT) : PARTITION :=
  g.partitions.getD file.entry.partition default

/-- The disc offset of the data region of a partition, as an exact integer. -/
def dataOffset (p : PARTITION) : Nat := 4 * p.offset + 4 * p.partition_info.data_offset

/-- The setting in which reads of a decrypted file are free of 32-bit wrap-around: the data
region starts cluster-aligned below 4 GiB and the file ends within the first 4 GiB of the
partition plaintext. -/
structure NoWrap (g : Globals) (file : FILE_STRUCT) : Prop where
  in_use : file.inUse = true
  not_raw : is_raw file.entry = false
  data_small : dataOffset (partitionOf g file) < 2 ^ 32
  data_aligned : dataOffset (partitionOf g file) % 0x8000 = 0
  file_small : 4 * file.entry.offset + file.entry.size ≤ 2 ^ 32
  offset_le : file.offset ≤ file.entry.size


/-! ## Closing, seeking and inspecting handles -/

def SEEK_SET : Int := 0
def SEEK_CUR : Int := 1
def SEEK_END : Int := 2

/-- Result of `_FST_close_r` and `_FST_seek_r`: return value, the value stored to
`r->_errno` (if any), and the handle. -/
structure FileResult where
  ret : Int
  errno : Option Nat
  file : FILE_STRUCT

/-- Source: `_FST_close_r`. -/
def _FST_close_r (file : FILE_STRUCT) : FileResult :=
  if ¬ file.inUse then ⟨-1, some EBADF, file⟩
  else ⟨0, none, { file with inUse := false }⟩

/-- Source: `_FST_seek_r`. `pos` is the `off_t` argument. `position` is an `int`: each of the
three values assigned to it is reduced to 32 bits (`toS32`), whether `off_t` is a 32-bit
`long` (the sum with a `u32` is then computed in unsigned 32-bit arithmetic) or wider. In
`position > file->entry->size` the `int` is converted to `u32`. -/
def _FST_seek_r (file : FILE_STRUCT) (pos : Int) (dir : Int) : FileResult :=
  if ¬ file.inUse then ⟨-1, some EBADF, file⟩
  else
    let position : Option Int :=
      if dir = SEEK_SET then some (toS32 pos)
      else if dir = SEEK_CUR then some (toS32 (file.offset + pos))
      else if dir = SEEK_END then some (toS32 (file.entry.size + pos))
      else none
    match position with
    | none => ⟨-1, some EINVAL, file⟩
    | some position =>
      if pos > 0 ∧ position < 0 then ⟨-1, some EOVERFLOW, file⟩
      else if position < 0 ∨ toU32 position > file.entry.size then ⟨-1, some EINVAL, file⟩
      else ⟨position, none, { file with offset := toU32 position }⟩

/-- Result of `_FST_fstat_r`: return value, the value stored to `r->_errno` (if any), the
handle (which is only read) and the caller's `st` buffer. -/
structure FstatResult where
  ret : Int
  errno : Option Nat
  file : FILE_STRUCT
  st : Stat

/-- Source: `_FST_fstat_r`. -/
def _FST_fstat_r (file : FILE_STRUCT) (st : Stat) : FstatResult :=
  if ¬ file.inUse then ⟨-1, some EBADF, file, st⟩
  else ⟨0, none, file, stat_entry file.entry⟩

/-- Result of `_FST_diropen_r`: whether `dirState` was returned (`false` for `NULL`), the
value stored to `r->_errno` (if any), and the three fields of the directory handle, `entry`
being `none` for `NULL`. -/
structure DirOpenResult where
  ok : Bool
  errno : Option Nat
  entry : Option DIR_ENTRY
  index : Nat
  inUse : Bool

/-- Source: `_FST_diropen_r`. `state->entry` is assigned before it is checked. -/
def _FST_diropen_r (M : Nat) (root : DIR_ENTRY) (current : Ptr) (state : DIR_STATE_STRUCT)
    (path : List Char) : DirOpenResult :=
  match entry_from_path M root current path with
  | none => ⟨false, some ENOENT, none, state.index, state.inUse⟩
  | some (_, entry) =>
    if ¬ is_dir entry then ⟨false, some ENOTDIR, some entry, state.index, state.inUse⟩
    else ⟨true, none, some entry, 0, true⟩

/-- The directory handle left by `_FST_diropen_r`, when its `entry` is not `NULL`. -/
def DirOpenResult.state (r : DirOpenResult) : Option DIR_STATE_STRUCT :=
  r.entry.map fun entry => ⟨entry, r.index, r.inUse⟩

/-- Result of `_FST_dirreset_r` and `_FST_dirclose_r`: return value, the value stored to
`r->_errno` (if any), and the directory handle. -/
structure DirResult where
  ret : Int
  errno : Option Nat
  state : DIR_STATE_STRUCT

/-- Source: `_FST_dirreset_r`. -/
def _FST_dirreset_r (state : DIR_STATE_STRUCT) : DirResult :=
  if ¬ state.inUse then ⟨-1, some EBADF, state⟩
  else ⟨0, none, { state with index := 0 }⟩

/-- Source: `_FST_dirclose_r`. -/
def _FST_dirclose_r (state : DIR_STATE_STRUCT) : DirResult :=
  if ¬ state.inUse then ⟨-1, some EBADF, state⟩
  else ⟨0, none, { state with inUse := false }⟩

/-- The handle after `n` successful calls of `_FST_dirnext_r` (each call starts from the
handle the previous one left). -/
def dirnextIter (M : Nat) (state : DIR_STATE_STRUCT) : Nat → DIR_STATE_STRUCT
  | 0 => state
  | n + 1 => (_FST_dirnext_r M (dirnextIter M state n) zeroBuffer Stat.zero).state

/-- A file of 3 GiB. -/
def hugeFile : DIR_ENTRY := .mk "huge".toList 0 0 0xC0000000 0 []

/-- A file of 16 bytes. -/
def smallFile : DIR_ENTRY := .mk "small".toList 0 0 16 0 []

/-- A file one byte short of 4 GiB. -/
def maxFile : DIR_ENTRY := .mk "max".toList 0 0 0xFFFFFFFF 0 []

/-- The exact target of a seek: the origin's base plus the displacement. -/
def seekTarget (file : FILE_STRUCT) (pos : Int) (dir : Int) : Option Int :=
  if dir = SEEK_SET then some pos
  else if dir = SEEK_CUR then some (file.offset + pos)
  else if dir = SEEK_END then some (file.entry.size + pos)
  else none

/-! ## Sizes of the synthetic entries -/

/-- A byte of a buffer. -/
def load_u8 (m : Mem) (i : Int) : Nat := m i % 256

/-- Source: `*(u32 *)(buf + i)`. The target is a big-endian PowerPC (`read_fst` takes the low
three bytes of the first word of an `FST_ENTRY` as its `name_offset[3]`). -/
def load_u32 (m : Mem) (i : Int) : Nat :=
  load_u8 m i * 2 ^ 24 + load_u8 m (i + 1) * 2 ^ 16 + load_u8 m (i + 2) * 2 ^ 8
    + load_u8 m (i + 3)

/-- Source: `read_and_decrypt_cluster(key, read_buffer, offset, offset_from_cluster, len)`,
whose destination is the drive buffer itself: the bytes it leaves in `buf` are the contents
of `read_buffer` afterwards. (On a short read, from an offset that is not sector-aligned,
the call fails after an overlapping `memcpy`; the bytes beyond those copied are then
unspecified and kept as they were.) -/
def decrypt_to_read_buffer (env : Env) (g : Globals) (key : aeskey)
    (offset offset_from_cluster len : Nat) : Bool × Globals :=
  let r := read_and_decrypt_cluster env g key g.read_buffer offset offset_from_cluster len
  (r.1, { r.2.2 with read_buffer := r.2.1 })

/-- The size computed by `read_appldr_size` from the two words at the start of
`read_buffer`: `u32 size = ints[0] + ints[1]; if (size) size += 32;`. -/
def appldr_size (read_buffer : Mem) : Nat :=
  let size := (load_u32 read_buffer 0 + load_u32 read_buffer 4) % 2 ^ 32
  if size ≠ 0 then (size + 32) % 2 ^ 32 else size

/-- Source: `read_appldr_size`. Returns the `bool` result, the entry and the new state. -/
def read_appldr_size (env : Env) (g : Globals) (appldr : DIR_ENTRY) (data_offset : Nat)
    (key : aeskey) : Bool × DIR_ENTRY × Globals :=
  let r := decrypt_to_read_buffer env g key data_offset
    (plaintext_to_cipher (0x2440 + 0x14) % 2 ^ 32) 8
  if ¬ r.1 then (false, appldr, r.2)
  else (true, appldr.withSize (appldr_size r.2.read_buffer), r.2)

/-- One round of the loops of `read_dol_size`: the words at `offsetAt` and `sizeAt`, and the
running maximum. -/
def dol_step (read_buffer : Mem) (offsetAt sizeAt : Int) (max : Nat) : Nat :=
  let offset := load_u32 read_buffer offsetAt
  let size := load_u32 read_buffer sizeAt
  if (offset + size) % 2 ^ 32 > max then (offset + size) % 2 ^ 32 else max

/-- The two loops of `read_dol_size` over the header in `read_buffer`: 7 text segments, then
11 data segments. -/
def dol_max (read_buffer : Mem) : Nat :=
  let max := (List.range 7).foldl
    (fun max (i : Nat) => dol_step read_buffer ((i : Int) * 4) ((i : Int) * 4 + 0x90) max) 0
  (List.range 11).foldl
    (fun max (i : Nat) =>
      dol_step read_buffer ((i : Int) * 4 + 0x1c) ((i : Int) * 4 + 0xac) max) max

/-- Source: `read_dol_size`. Returns the `bool` result, the entry and the new state;
`data_offset` is a `u64`. -/
def read_dol_size (env : Env) (g : Globals) (dol : DIR_ENTRY) (data_offset : Nat)
    (key : aeskey) : Bool × DIR_ENTRY × Globals :=
  let data_offset := (data_offset + plaintext_to_cipher (shl2_u32 dol.offset)) % 2 ^ 64
  let r := decrypt_to_read_buffer env g key (data_offset / 0x8000 * 0x8000)
    (data_offset % 0x8000) 0x100
  if ¬ r.1 then (false, dol, r.2)
  else (true, dol.withSize (dol_max r.2.read_buffer), r.2)

/-- The sum `offset_i + size_i` of segment `i` of an executable header in 32-bit arithmetic:
the offsets are the consecutive words from byte 0, the sizes those from byte 0x90. -/
def segmentEnd (header : Mem) (i : Nat) : Nat :=
  (load_u32 header (4 * (i : Int)) + load_u32 header (0x90 + 4 * (i : Int))) % 2 ^ 32

/-- The executable size as the specification words it: the maximum of `offset_i + size_i`
over all 18 segments (0 being the maximum of nothing). -/
def dolSizeSpec (header : Mem) : Nat :=
  ((List.range 18).map (segmentEnd header)).foldl max 0

/-- A disc whose clusters all carry, at plaintext offset 0x2454, the words 1 and 2. -/
def envAppldr : Env :=
  { envZero with
    disc := fun i => if i % 0x8000 = 0x2857 then 1 else if i % 0x8000 = 0x285b then 2 else 0 }

/-- A disc whose clusters all carry an executable header with text segment 0 at offset
0x100 of size 0x20 and data segment 10 at offset 0x300 of size 0x40. -/
def envDol : Env :=
  { envZero with
    disc := fun i =>
      if i % 0x8000 = 0x402 then 1 else if i % 0x8000 = 0x493 then 0x20
      else if i % 0x8000 = 0x446 then 3 else if i % 0x8000 = 0x4d7 then 0x40 else 0 }

/-- An entry "main.dol" whose header is at the start of the partition data. -/
def dolEntry : DIR_ENTRY := .mk "main.dol".toList 0 0 0 0 []

/-! ## Sequences of calls on a file handle -/

/-- A call of `_FST_read_r` (with a 32-bit length) or of `_FST_seek_r` on a handle. -/
inductive HandleCall where
  | read (len : Nat)
  | seek (pos dir : Int)

/-- The state and the handle after one call. -/
def HandleCall.run (env : Env) (s : Globals × FILE_STRUCT) : HandleCall → Globals × FILE_STRUCT
  | .read len =>
    ((_FST_read_r env s.1 s.2 (fun _ => 0) len).g, (_FST_read_r env s.1 s.2 (fun _ => 0) len).file)
  | .seek pos dir => (s.1, (_FST_seek_r s.2 pos dir).file)

/-- The state and the handle after a sequence of calls. -/
def runCalls (env : Env) (s : Globals × FILE_STRUCT) (calls : List HandleCall) :
    Globals × FILE_STRUCT :=
  calls.foldl (HandleCall.run env) s

/-- A tree with a metadata directory "m" holding the raw file "raw". -/
def metaTree : DIR_ENTRY := .mk [] 0 0 0 1 [ .mk ['m'] 0 0 0 1 [rawFile] ]

/-- An encrypted file of 0x10000 bytes that starts 4 GiB into the partition data. -/
def farBigFile : DIR_ENTRY := .mk "farbig".toList 0 0x40000000 0x10000 0 []

/-- One partition that starts 4 GiB into the disc. -/
def farPartition : Globals :=
  { Globals.initial with
    partitions := [⟨0x40000000, [], ⟨0, 0, 0, 0⟩, ⟨0, 0, 0, 0, 0, 0x8000, 0⟩⟩] }

/-- A drive that never fails, over a disc each byte of which holds the number of the 4 GiB
block it lies in, with a cipher that copies its input. -/
def envBlocks : Env := { envZero with disc := fun i => i / 2 ^ 32 % 256 }

/-- A table whose entry 1 has the type byte 2. -/
def rawTypeFst : Int → FST_ENTRY := fun i =>
  if i = 0 then ⟨1, 0, 0, 2⟩
  else if i = 1 then ⟨2, 1, 0x100, 7⟩
  else ⟨0, 0, 0, 0⟩

/-- Source: `_FST_chdir_r`, with the value of the static `current` afterwards. -/
def _FST_chdir_r (M : Nat) (root : DIR_ENTRY) (current : Ptr) (path : List Char) :
    Int × Option Nat × Ptr :=
  match entry_from_path M root current path with
  | none => (-1, some ENOENT, current)
  | some (_, entry) =>
    if ¬ is_dir entry then (-1, some ENOTDIR, current)
    else (0, none, current)

/-! ## Unmounting a mounted filesystem -/

/-- A mounted state: `sampleTree` as the tree, the root as the current directory, one
partition, a last-access time, a loaded cluster cache and the device number 3. -/
def mountedState : Globals :=
  { Globals.initial with
    root := some sampleTree, current := some [],
    partitions := [⟨0x18000, [], ⟨0, 0, 0, 0⟩, ⟨0, 0, 0, 0, 0, 0x8000, 0⟩⟩],
    last_access := 7, dotab_device := 3, aescache_start := 0x7c00, aescache_end := 0xf800 }

/-- A library whose `RemoveDevice` reports failure (-1). -/
def envRemoveFails : Env := { envZero with removeDevice := -1 }

/-! ## Reading the disc and mounting

The sizes and field positions that `fst.c` takes from the header `<ogc/es.h>` (signature,
ticket and title metadata) are left open: they are the fields of `EsLayout`. The results of
the calls into the system (`SYS_GetArena2Hi`, `WDVD_Init`, `AddDevice`, ...) are the fields
of `MountEnv`. -/

/-- What `fst.c` uses of `<ogc/es.h>`: `sizeof(sig_rsa2048)`, `sizeof(tik)`,
`STD_SIGNED_TIK_SIZE`, `sizeof(tmd)`, the macro `TMD_SIZE` applied to a title metadata
record, and the positions in a `tik` of `titleid` (with its size), `reserved` and
`cipher_title_key`. -/
structure EsLayout where
  sig_size : Nat
  tik_size : Nat
  std_signed_tik_size : Nat
  tmd_size : Nat
  tmd_total : Mem → Nat
  titleid_at : Nat
  titleid_size : Nat
  reserved_at : Nat
  cipher_title_key_at : Nat

def COMMON_AES_KEY : aeskey :=
  [0xeb, 0xe4, 0x2a, 0x22, 0x5e, 0x85, 0x93, 0xe4, 0x48, 0xd9, 0xc5, 0x45, 0x73, 0x81, 0xaa, 0xf7]

def KOREAN_AES_KEY : aeskey :=
  [0x63, 0xb8, 0x2b, 0xb4, 0xf4, 0x61, 0x4e, 0x2e, 0x13, 0xf2, 0xfe, 0xfb, 0xba, 0x4c, 0x9b, 0x7e]

def KOREAN_KEY_FLAG : Nat := 11

namespace DIR_ENTRY

def withPartition : DIR_ENTRY → Nat → DIR_ENTRY
  | mk n _ o s f c, p => mk n p o s f c

end DIR_ENTRY

/-- Model of `memcpy(dst + dstOff, src, len)`. -/
def memcpy_at (dst : Mem) (dstOff : Int) (src : Mem) (len : Nat) : Mem :=
  fun i => if dstOff ≤ i ∧ i < dstOff + len then src (i - dstOff) else dst i

/-- A direct call `WDVD_LowReadSectors(read_buffer, count, sector)`, as `_read` issues it;
the `bool` is its non-zero (failure) result. -/
def WDVD_LowReadSectors (env : Env) (g : Globals) (count sector : Nat) : Bool × Globals :=
  if env.readFails g.reads count sector then (true, { g with reads := g.reads + 1 })
  else
    (false,
      { g with
        read_buffer := fun i =>
          if 0 ≤ i ∧ i < ((count * SECTOR_SIZE : Nat) : Int)
          then env.disc (sector * SECTOR_SIZE + i.toNat) else g.read_buffer i,
        reads := g.reads + 1 })

/-- Source: `read_title_key`. Returns the `bool` result, the partition record and the new
state. The ticket is read into a local that a successful read fills entirely. -/
def read_title_key (env : Env) (L : EsLayout) (g : Globals) (partition : PARTITION) :
    Bool × PARTITION × Globals :=
  let r := _read env g (fun _ => 0) ((shl2_u32 partition.offset + L.sig_size) % 2 ^ 32)
    L.tik_size
  if toU32 r.1 ≠ L.tik_size then (false, partition, r.2.2)
  else
    let ticket := r.2.1
    let iv := memcpy (fun _ => 0) ticket L.titleid_at L.titleid_size
    let key :=
      if load_u8 ticket ((L.reserved_at + KOREAN_KEY_FLAG : Nat) : Int) ≠ 0 then KOREAN_AES_KEY
      else COMMON_AES_KEY
    let out := env.aes_decrypt key iv (slice ticket L.cipher_title_key_at 16) 16
    (true, { partition with key := bytes out 16 },
      { r.2.2 with decrypts := r.2.2.decrypts + 1 })

/-- Source: `read_partition_info`. The destination is the `partition_info` of a partition
record that `read_disc` has just zeroed; its 7 words are 28 bytes. -/
def read_partition_info (env : Env) (L : EsLayout) (g : Globals) (partition : PARTITION) :
    Bool × PARTITION × Globals :=
  let r := _read env g (fun _ => 0)
    ((shl2_u32 partition.offset + L.sig_size + L.tik_size) % 2 ^ 32) 28
  let info : PARTITION_INFO :=
    ⟨load_u32 r.2.1 0, load_u32 r.2.1 4, load_u32 r.2.1 8, load_u32 r.2.1 12,
      load_u32 r.2.1 16, load_u32 r.2.1 20, load_u32 r.2.1 24⟩
  (decide (toU32 r.1 = 28), { partition with partition_info := info }, r.2.2)

/-- Source: `add_ticket_entry`; the parent afterwards (allocation succeeds). -/
def add_ticket_entry (L : EsLayout) (parent : DIR_ENTRY) : DIR_ENTRY :=
  parent.appendChild
    (((add_child_entry parent "ticket".toList).withSize L.std_signed_tik_size).withFlags FLAG_RAW)

/-- Source: `add_tmd_entry`. Returns the `bool` result, the parent and the new state. -/
def add_tmd_entry (env : Env) (L : EsLayout) (g : Globals) (parent : DIR_ENTRY) :
    Bool × DIR_ENTRY × Globals :=
  let partition := g.partitions.getD parent.partition default
  let r := _read env g (fun _ => 0)
    ((shl2_u32 partition.offset + shl2_u32 partition.partition_info.tmd_offset + L.sig_size)
      % 2 ^ 32) L.tmd_size
  if toU32 r.1 ≠ L.tmd_size then (false, parent, r.2.2)
  else
    (true,
      parent.appendChild
        ((((add_child_entry parent "TMD".toList).withSize
            ((L.sig_size + L.tmd_total r.2.1) % 2 ^ 32)).withOffset
          partition.partition_info.tmd_offset).withFlags FLAG_RAW),
      r.2.2)

/-- Source: `add_header_entry`; the parent afterwards. -/
def add_header_entry (parent : DIR_ENTRY) : DIR_ENTRY :=
  parent.appendChild ((add_child_entry parent "header".toList).withSize 0x400)

/-- Source: `add_appldr_entry`. The child is added before its size is read. -/
def add_appldr_entry (env : Env) (g : Globals) (parent : DIR_ENTRY) (data_offset : Nat)
    (key : aeskey) : Bool × DIR_ENTRY × Globals :=
  let r := read_appldr_size env g
    ((add_child_entry parent "appldr.bin".toList).withOffset (0x2440 / 4)) data_offset key
  (r.1, parent.appendChild r.2.1, r.2.2)

/-- Source: `add_dol_entry`. -/
def add_dol_entry (env : Env) (g : Globals) (parent : DIR_ENTRY) (data_offset : Nat)
    (key : aeskey) : Bool × DIR_ENTRY × Globals :=
  let r := read_dol_size env g
    ((add_child_entry parent "main.dol".toList).withOffset
      (g.partitions.getD parent.partition default).fst_info.dol_offset) data_offset key
  (r.1, parent.appendChild r.2.1, r.2.2)

/-- Source: `add_fst_entry`; the parent afterwards. -/
def add_fst_entry (g : Globals) (parent : DIR_ENTRY) : DIR_ENTRY :=
  parent.appendChild
    (((add_child_entry parent "fst.bin".toList).withOffset
        (g.partitions.getD parent.partition default).fst_info.fst_offset).withSize
      (shl2_u32 (g.partitions.getD parent.partition default).fst_info.fst_size))

/-- The child created by `add_partition_entry`, named by `sprintf(name, "%u", n)`. -/
def partition_child (root : DIR_ENTRY) (partition_number : Nat) : DIR_ENTRY :=
  ((add_child_entry root (Nat.toDigits 10 partition_number)).withFlags FLAG_DIR).withPartition
    partition_number

/-- The child created by `add_metadata_entry`, named by `sprintf(name, "%u_metadata", n)`. -/
def metadata_child (root : DIR_ENTRY) (partition_number : Nat) : DIR_ENTRY :=
  ((add_child_entry root (Nat.toDigits 10 partition_number ++ "_metadata".toList)).withFlags
    FLAG_DIR).withPartition partition_number

/-- The entry of a table held in `fst_buffer` (12 bytes each). -/
def fst_entry_at (fst_buffer : Mem) (index : Int) : FST_ENTRY :=
  ⟨load_u8 fst_buffer (index * 12),
    load_u8 fst_buffer (index * 12 + 1) * 2 ^ 16 + load_u8 fst_buffer (index * 12 + 2) * 2 ^ 8
      + load_u8 fst_buffer (index * 12 + 3),
    load_u32 fst_buffer (index * 12 + 4), load_u32 fst_buffer (index * 12 + 8)⟩

/-- The C string at `off`, as far as its first `n` characters. -/
def cstring (m : Mem) : Nat → Int → List Char
  | 0, _ => []
  | n + 1, off =>
    if load_u8 m off = 0 then [] else Char.ofNat (load_u8 m off) :: cstring m n (off + 1)

/-- The `while (offset < fst_size)` loop of `read_partition`; the first argument bounds the
number of rounds. Returns whether every cluster was read, `fst_buffer` and the new state. -/
def read_partition_loop (env : Env) (key : aeskey) (fst_size : Nat) :
    Nat → Globals → Mem → Nat → Nat → Option (Bool × Mem × Globals)
  | fuel, g, fst_buffer, offset, fst_offset =>
    if offset < fst_size then
      match fuel with
      | 0 => none
      | fuel + 1 =>
        let r := decrypt_to_read_buffer env g key fst_offset CLUSTER_HEADER_SIZE
          PLAINTEXT_CLUSTER_SIZE
        if ¬ r.1 then some (false, fst_buffer, r.2)
        else
          read_partition_loop env key fst_size fuel r.2
            (memcpy_at fst_buffer offset r.2.read_buffer
              (min PLAINTEXT_CLUSTER_SIZE (fst_size - offset)))
            ((offset + PLAINTEXT_CLUSTER_SIZE) % 2 ^ 32)
            ((fst_offset + ENCRYPTED_CLUSTER_SIZE) % 2 ^ 32)
    else some (true, fst_buffer, g)

/-- The location of the file-system table as `read_partition` computes it, in a `u32`. -/
def fst_location (data_offset : Nat) (info : FST_INFO) : Nat :=
  (data_offset + plaintext_to_cipher (shl2_u32 info.fst_offset)) % 2 ^ 32

/-- Source: `read_partition`, with fuel for its loop and for `read_fst`. `partition` is the
partition directory; returns the `bool` result, the directory and the new state, or `none`
when the fuel runs out. A name is read as far as `FST_MAXPATHLEN` characters, which decides
`strlen(name) >= FST_MAXPATHLEN`. -/
def read_partition (env : Env) (M fuel : Nat) (g : Globals) (partition : DIR_ENTRY)
    (data_offset : Nat) (key : aeskey) : Option (Bool × DIR_ENTRY × Globals) :=
  let info := (g.partitions.getD partition.partition default).fst_info
  let fst_size := shl2_u32 info.fst_size
  let fst_offset := fst_location data_offset info
  let bytes_to_read :=
    (PLAINTEXT_CLUSTER_SIZE + (2 ^ 64 - cipher_to_plaintext (fst_offset % ENCRYPTED_CLUSTER_SIZE)))
      % 2 ^ 64 % 2 ^ 32
  let r := decrypt_to_read_buffer env g key (fst_offset / 0x8000 * 0x8000)
    ((ENCRYPTED_CLUSTER_SIZE + 2 ^ 32 - bytes_to_read) % 2 ^ 32) bytes_to_read
  if ¬ r.1 then some (false, partition, r.2)
  else
    let fst_buffer : Mem := memcpy (fun _ => 0) r.2.read_buffer 0 (min bytes_to_read fst_size)
    match read_partition_loop env key fst_size fuel r.2 fst_buffer bytes_to_read
        ((fst_offset + ENCRYPTED_CLUSTER_SIZE) % 2 ^ 32 / 0x8000 * 0x8000) with
    | none => none
    | some (false, _, g) => some (false, partition, g)
    | some (true, fst_buffer, g) =>
      let name_table_offset := ((fst_entry_at fst_buffer 0).filelen * 12) % 2 ^ 32
      match read_fst M (fst_entry_at fst_buffer)
          (fun o => cstring fst_buffer M ((name_table_offset + o : Nat) : Int)) fuel partition 0 with
      | none => none
      | some (next, partition) => some (decide (next ≠ -1), partition, g)

/-- The static `partitions` after `partitions[partition_count]` has been given the value
`p` (the array holds `partition_count + 1` records). -/
def store_partition (g : Globals) (partition_count : Nat) (p : PARTITION) : Globals :=
  { g with partitions := g.partitions.take partition_count ++ [p] }

/-- The root with its last two children, the partition directory and the metadata
directory (`meta_entry - 1` and `meta_entry`), holding the given values. -/
def with_partition_dirs (root partition_entry meta_entry : DIR_ENTRY) : DIR_ENTRY :=
  root.withChildren (root.children ++ [partition_entry, meta_entry])

/-- Lines 733-736 of `read_disc`: "main.dol" is added when `dol_offset` is not 0. -/
def add_dol_entry_if (env : Env) (g : Globals) (parent : DIR_ENTRY) (data_offset : Nat)
    (partition : PARTITION) : Bool × DIR_ENTRY × Globals :=
  if partition.fst_info.dol_offset ≠ 0 then
    add_dol_entry env g parent data_offset partition.key
  else (true, parent, g)

/-- The end of the body of the inner loop of `read_disc` (lines 731-742), once `fst_info` is
known: the entries "header", "appldr.bin", "main.dol" and "fst.bin" of the metadata
directory, and the parse of the file-system table into the partition directory. -/
def read_disc_partition_files (env : Env) (M fuel : Nat) (root partition_entry meta_entry :
    DIR_ENTRY) (g : Globals) (partition : PARTITION) (data_offset : Nat) :
    Option (Bool × DIR_ENTRY × Globals) :=
  let a := add_appldr_entry env g (add_header_entry meta_entry) data_offset partition.key
  if ¬ a.1 then some (false, with_partition_dirs root partition_entry a.2.1, a.2.2)
  else
    let x := add_dol_entry_if env a.2.2 a.2.1 data_offset partition
    if ¬ x.1 then some (false, with_partition_dirs root partition_entry x.2.1, x.2.2)
    else if partition.fst_info.fst_offset ≠ 0 ∧ partition.fst_info.fst_size ≠ 0 then
      match read_partition env M fuel x.2.2 partition_entry data_offset partition.key with
      | none => none
      | some (ok, partition_entry, g) =>
        some (ok, with_partition_dirs root partition_entry (add_fst_entry x.2.2 x.2.1), g)
    else some (true, with_partition_dirs root partition_entry x.2.1, x.2.2)

/-- The middle of the body of the inner loop of `read_disc` (lines 720-730), once the title
key and the partition info are known: the entries "ticket" and "TMD", the data offset and
`fst_info`. -/
def read_disc_partition_meta (env : Env) (L : EsLayout) (M fuel : Nat)
    (root partition_entry meta_entry : DIR_ENTRY) (g : Globals) (partition_count : Nat)
    (partition : PARTITION) : Option (Bool × DIR_ENTRY × Globals) :=
  let t := add_tmd_entry env L g (add_ticket_entry L meta_entry)
  if ¬ t.1 then some (false, with_partition_dirs root partition_entry t.2.1, t.2.2)
  else
    let data_offset :=
      (shl2_u32 partition.offset + shl2_u32 partition.partition_info.data_offset) % 2 ^ 32
    let d := decrypt_to_read_buffer env t.2.2 partition.key data_offset
      (plaintext_to_cipher 0x420 % 2 ^ 32) 16
    if ¬ d.1 then some (false, with_partition_dirs root partition_entry t.2.1, d.2)
    else
      let partition : PARTITION :=
        { partition with
          fst_info := ⟨load_u32 d.2.read_buffer 0, load_u32 d.2.read_buffer 4,
            load_u32 d.2.read_buffer 8, load_u32 d.2.read_buffer 12⟩ }
      read_disc_partition_files env M fuel root partition_entry t.2.1
        (store_partition d.2 partition_count partition) partition data_offset

/-- The body of the inner loop of `read_disc` (lines 706-744) for the partition at
`partition_index` of the table read into `entries`: whether it reached `partition_count++`,
the root and the new state. `root` is the tree before the two directories of the partition
are added. -/
def read_disc_partition (env : Env) (L : EsLayout) (M fuel : Nat) (root : DIR_ENTRY)
    (g : Globals) (partition_count : Nat) (entries : Mem) (partition_index : Nat) :
    Option (Bool × DIR_ENTRY × Globals) :=
  let partition : PARTITION :=
    { (default : PARTITION) with offset := load_u32 entries (8 * (partition_index : Int)) }
  let partition_entry := partition_child root partition_count
  let meta_entry := metadata_child (root.appendChild partition_entry) partition_count
  let k := read_title_key env L (store_partition g partition_count partition) partition
  if ¬ k.1 then
    some (false, with_partition_dirs root partition_entry meta_entry,
      store_partition k.2.2 partition_count k.2.1)
  else
    let i := read_partition_info env L (store_partition k.2.2 partition_count k.2.1) k.2.1
    if ¬ i.1 then
      some (false, with_partition_dirs root partition_entry meta_entry,
        store_partition i.2.2 partition_count i.2.1)
    else
      read_disc_partition_meta env L M fuel root partition_entry meta_entry
        (store_partition i.2.2 partition_count i.2.1) partition_count i.2.1

/-- The inner loop of `read_disc` over the `count` partitions of one table, from
`partition_index`; the first argument is the number of rounds left. Returns whether every
partition was read, the root, the state and `partition_count`. -/
def read_disc_partitions (env : Env) (L : EsLayout) (M fuel : Nat) (entries : Mem) :
    Nat → Nat → DIR_ENTRY → Globals → Nat → Option (Bool × DIR_ENTRY × Globals × Nat)
  | 0, _, root, g, partition_count => some (true, root, g, partition_count)
  | n + 1, partition_index, root, g, partition_count =>
    match read_disc_partition env L M fuel root g partition_count entries partition_index with
    | none => none
    | some (false, root, g) => some (false, root, g, partition_count)
    | some (true, root, g) =>
      read_disc_partitions env L M fuel entries n (partition_index + 1) root g
        (partition_count + 1)

/-- The outer loop of `read_disc` over the 4 partition tables, from `table_index`; the first
argument is the number of rounds left. -/
def read_disc_tables (env : Env) (L : EsLayout) (M fuel : Nat) (tables : Mem) :
    Nat → Nat → DIR_ENTRY → Globals → Nat → Option (Bool × DIR_ENTRY × Globals)
  | 0, _, root, g, _ => some (true, root, g)
  | n + 1, table_index, root, g, partition_count =>
    let count := load_u32 tables (8 * (table_index : Int))
    if count > 0 then
      let table_size := (8 * count) % 2 ^ 32
      let r := _read env g (fun _ => 0) (load_u32 tables (8 * (table_index : Int) + 4) * 4)
        table_size
      if toU32 r.1 ≠ table_size then some (false, root, r.2.2)
      else
        match read_disc_partitions env L M fuel r.2.1 count 0 root r.2.2 partition_count with
        | none => none
        | some (false, root, g, _) => some (false, root, g)
        | some (true, root, g, partition_count) =>
          read_disc_tables env L M fuel tables n (table_index + 1) root g partition_count
    else read_disc_tables env L M fuel tables n (table_index + 1) root g partition_count

/-- The test `!memcmp(header->magic, "\x5d\x1c\x9e\xa3", 4)`; `magic` is at byte 0x18 of the
disc header. -/
def magic_ok (read_buffer : Mem) : Bool :=
  load_u8 read_buffer 0x18 = 0x5d ∧ load_u8 read_buffer 0x19 = 0x1c ∧
    load_u8 read_buffer 0x1a = 0x9e ∧ load_u8 read_buffer 0x1b = 0xa3

/-- Source: `read_disc`, with fuel for the parse of the file-system tables. The tree is
built in a value of its own and is the static `root` when the function returns (nothing in
between reads the static). Returns the `bool` result and the new state, or `none` when the
fuel runs out. -/
def read_disc (env : Env) (L : EsLayout) (M fuel : Nat) (g : Globals) :
    Option (Bool × Globals) :=
  let r0 := WDVD_LowReadSectors env g 1 0
  if r0.1 then some (false, r0.2)
  else if ¬ magic_ok r0.2.read_buffer then some (false, r0.2)
  else
    let r1 := WDVD_LowReadSectors env r0.2 1 128
    if r1.1 then some (false, r1.2)
    else
      let tables := slice r1.2.read_buffer 0 32
      let root : DIR_ENTRY := .mk [] 0 0 0 FLAG_DIR []
      let g := { r1.2 with root := some root, current := some [] }
      match read_disc_tables env L M fuel tables 4 0 root g 0 with
      | none => none
      | some (ok, root, g) => some (ok, { g with root := some root })

/-- The results of the calls into the system made by `FST_Mount`: `SYS_GetArena2Hi()`,
`SYS_GetArena2Lo()`, `WDVD_Init()`, `WDVD_LowReadDiskId()`, the 8 bytes at `0x80000000`
afterwards, and `AddDevice(&dotab_fst)`. -/
structure MountEnv where
  arena2Hi : Nat
  arena2Lo : Nat
  wdvdInit : Int
  lowReadDiskId : Int
  diskId : Nat
  addDevice : Int

/-- Source: the macro `ROUNDDOWN32`, `(((u32)(v)-0x1f)&~0x1f)`. -/
def ROUNDDOWN32 (v : Nat) : Nat := (v % 2 ^ 32 + 2 ^ 32 - 0x1f) % 2 ^ 32 / 32 * 32

/-- Source: `FST_Mount`. `read_buffer_ptr` is the address held in the static `read_buffer`
(0 for `NULL`). Returns the identifier, that address and the new state, or `none` when the
fuel runs out. -/
def FST_Mount (env : Env) (m : MountEnv) (L : EsLayout) (M fuel : Nat) (read_buffer_ptr : Nat)
    (g : Globals) : Option (Nat × Nat × Globals) :=
  let ptr :=
    if read_buffer_ptr = 0 then ROUNDDOWN32 ((m.arena2Hi + 2 ^ 32 - BUFFER_SIZE) % 2 ^ 32)
    else read_buffer_ptr
  if read_buffer_ptr = 0 ∧ ptr < m.arena2Lo then some (0, ptr, g)
  else
    let g := (FST_Unmount env g).2
    if m.wdvdInit < 0 ∨ m.lowReadDiskId < 0 then some (0, ptr, g)
    else
      match read_disc env L M fuel g with
      | none => none
      | some (false, g) => some (0, ptr, (FST_Unmount env g).2)
      | some (true, g) =>
        let g := { g with dotab_device := m.addDevice }
        if m.addDevice ≥ 0 then some (m.diskId, ptr, { g with last_access := env.gettime g.reads })
        else some (0, ptr, (FST_Unmount env g).2)

/-- What a call leaves alone of the file-scope state: the device number and the current
directory. -/
def Frame (g g' : Globals) : Prop :=
  g'.dotab_device = g.dotab_device ∧ g'.current = g.current

/-- Sizes of the structures of `<ogc/es.h>` in libogc, for the examples. -/
def sampleLayout : EsLayout :=
  { sig_size := 0x140, tik_size := 0x164, std_signed_tik_size := 0x2a4, tmd_size := 0xa4,
    tmd_total := fun m => load_u8 m 0x9e * 256 * 36 + load_u8 m 0x9f * 36 + 0xa4,
    titleid_at := 0x9c, titleid_size := 8, reserved_at := 0xa6, cipher_title_key_at := 0x7f }

/-- A system in which every call made by `FST_Mount` succeeds. -/
def sampleMountEnv : MountEnv :=
  { arena2Hi := 0x93400000, arena2Lo := 0x90000000, wdvdInit := 0, lowReadDiskId := 0,
    diskId := 0x52534250, addDevice := 3 }

/-- A disc that holds the magic word and no partition. -/
def envEmptyDisc : Env :=
  { envZero with
    disc := fun i =>
      if i = 0x18 then 0x5d else if i = 0x19 then 0x1c else if i = 0x1a then 0x9e
      else if i = 0x1b then 0xa3 else 0 }
/-! # Theorems -/

/-! ## Offset mappings -/

theorem cipher_of_plaintext_exact (p : Nat)
    (h : p / 0x7c00 * 0x8000 + p % 0x7c00 + 0x400 < 2 ^ 64) :
    plaintext_to_cipher p = p / 0x7c00 * 0x8000 + p % 0x7c00 + 0x400 := by
  unfold plaintext_to_cipher PLAINTEXT_CLUSTER_SIZE ENCRYPTED_CLUSTER_SIZE CLUSTER_HEADER_SIZE
  norm_num
  omega

/-- C5: the two offset mappings are inverse on plaintext space, and `plaintext_to_cipher`
lands in the payload of the cluster numbered `p / 0x7c00`, whenever the ciphertext offset
fits in 64 bits. -/
theorem C5_offset_maps_inverse (p : Nat)
    (h : p / 0x7c00 * 0x8000 + p % 0x7c00 + 0x400 < 2 ^ 64) :
    cipher_to_plaintext (plaintext_to_cipher p) = p ∧
    0x400 ≤ plaintext_to_cipher p % 0x8000 ∧ plaintext_to_cipher p % 0x8000 < 0x8000 ∧
    plaintext_to_cipher p / 0x8000 = p / 0x7c00 := by
  rw [cipher_of_plaintext_exact p h]
  unfold cipher_to_plaintext PLAINTEXT_CLUSTER_SIZE ENCRYPTED_CLUSTER_SIZE CLUSTER_HEADER_SIZE
  norm_num
  omega

theorem C5_offset_maps_inverse_witness :
    cipher_to_plaintext (plaintext_to_cipher 0x7c05) = 0x7c05 ∧
    0x400 ≤ plaintext_to_cipher 0x7c05 % 0x8000 ∧ plaintext_to_cipher 0x7c05 % 0x8000 < 0x8000 ∧
    plaintext_to_cipher 0x7c05 / 0x8000 = 0x7c05 / 0x7c00 :=
  C5_offset_maps_inverse 0x7c05 (by decide)

/-! ## The cluster cache -/

theorem toU32_natCast (n : Nat) (h : n < 2 ^ 32) : toU32 (n : Int) = n := by
  unfold toU32
  omega

theorem toU32_neg_one : toU32 (-1) = 4294967295 := by decide

theorem _read_fail (env : Env) (g : Globals) (ptr : Mem) (offset len : Nat)
    (hf : readFailsAt env g offset = true) :
    _read env g ptr offset len = (-1, ptr, afterRead env g) := by
  unfold readFailsAt at hf
  unfold _read afterRead
  simp only [hf, if_true]

theorem _read_ok (env : Env) (g : Globals) (ptr : Mem) (offset len : Nat)
    (hf : readFailsAt env g offset = false) :
    _read env g ptr offset len =
      (((min (BUFFER_SIZE - offset % SECTOR_SIZE) len : Nat) : Int),
        memcpy ptr (readBufferAt env g offset) ((offset % SECTOR_SIZE : Nat) : Int)
          (min (BUFFER_SIZE - offset % SECTOR_SIZE) len),
        { afterRead env g with read_buffer := readBufferAt env g offset }) := by
  unfold readFailsAt at hf
  unfold _read afterRead readBufferAt
  simp only [hf]
  rfl

theorem rdc_hit (env : Env) (g : Globals) (key : aeskey) (buf : Mem) (offset ofc len : Nat)
    (h : cacheHit g offset ofc len) :
    read_and_decrypt_cluster env g key buf offset ofc len =
      (true, memcpy buf g.aescache
        ((cipher_to_plaintext ((offset + ofc) % 2 ^ 64) - g.aescache_start : Nat) : Int) len, g) := by
  unfold cacheHit at h
  unfold read_and_decrypt_cluster
  simp only [h, ne_eq, not_false_eq_true, and_self, if_true, ge_iff_le]

theorem rdc_miss_fail (env : Env) (g : Globals) (key : aeskey) (buf : Mem) (offset ofc len : Nat)
    (h : ¬ cacheHit g offset ofc len) (hf : readFailsAt env g offset = true) :
    read_and_decrypt_cluster env g key buf offset ofc len = (false, buf, afterRead env g) := by
  unfold cacheHit at h
  unfold read_and_decrypt_cluster
  rw [if_neg h, _read_fail env g buf offset _ hf]
  simp [toU32_neg_one, ENCRYPTED_CLUSTER_SIZE]

theorem rdc_miss_ok (env : Env) (g : Globals) (key : aeskey) (buf : Mem) (offset ofc len : Nat)
    (hal : offset % ENCRYPTED_CLUSTER_SIZE = 0)
    (h : ¬ cacheHit g offset ofc len) (hf : readFailsAt env g offset = false) :
    read_and_decrypt_cluster env g key buf offset ofc len =
      (true,
        memcpy (memcpy buf (readBufferAt env g offset) 0 ENCRYPTED_CLUSTER_SIZE)
          (decryptedCache env g key buf offset) ((ofc : Int) - CLUSTER_HEADER_SIZE) len,
        { afterRead env g with
          read_buffer := readBufferAt env g offset
          aescache := decryptedCache env g key buf offset
          aescache_start := cipher_to_plaintext ((offset + CLUSTER_HEADER_SIZE) % 2 ^ 64)
          aescache_end := (cipher_to_plaintext ((offset + CLUSTER_HEADER_SIZE) % 2 ^ 64)
            + PLAINTEXT_CLUSTER_SIZE) % 2 ^ 64
          decrypts := g.decrypts + 1 }) := by
  unfold cacheHit at h
  have hs : offset % SECTOR_SIZE = 0 := by
    unfold ENCRYPTED_CLUSTER_SIZE at hal
    unfold SECTOR_SIZE
    omega
  unfold read_and_decrypt_cluster
  rw [if_neg h, _read_ok env g buf offset _ hf, hs]
  have : toU32 ((min (BUFFER_SIZE - 0) ENCRYPTED_CLUSTER_SIZE : Nat) : Int)
      = ENCRYPTED_CLUSTER_SIZE := by
    rw [toU32_natCast]
    · simp [BUFFER_SIZE, ENCRYPTED_CLUSTER_SIZE]
    · simp [BUFFER_SIZE, ENCRYPTED_CLUSTER_SIZE]
  simp only [this, ne_eq, not_true_eq_false, if_false]
  simp [BUFFER_SIZE, ENCRYPTED_CLUSTER_SIZE, decryptedCache, afterRead]

theorem cluster_start (offset : Nat) (hlt : offset < 2 ^ 64)
    (hal : offset % ENCRYPTED_CLUSTER_SIZE = 0) :
    cipher_to_plaintext ((offset + CLUSTER_HEADER_SIZE) % 2 ^ 64) = offset / 0x8000 * 0x7c00 := by
  have hal2 : offset % 0x8000 = 0 := hal
  have e : cipher_to_plaintext ((offset + CLUSTER_HEADER_SIZE) % 2 ^ 64)
      = ((offset + 0x400) % 2 ^ 64 / 0x8000 * 0x7c00 + (offset + 0x400) % 2 ^ 64 % 0x8000
          + (2 ^ 64 - 0x400)) % 2 ^ 64 := rfl
  have h1 : (offset + 0x400) % 2 ^ 64 = offset + 0x400 := by
    apply Nat.mod_eq_of_lt
    omega
  have h2 : (offset + 0x400) / 0x8000 = offset / 0x8000 := by omega
  have h3 : (offset + 0x400) % 0x8000 = 0x400 := by omega
  have h4 : offset / 0x8000 * 0x7c00 < 2 ^ 64 := by omega
  rw [e, h1, h2, h3]
  omega

theorem rdc_miss_ok_bounds (env : Env) (g : Globals) (key : aeskey) (buf : Mem)
    (offset ofc len : Nat) (hlt : offset < 2 ^ 64) (hal : offset % ENCRYPTED_CLUSTER_SIZE = 0)
    (h : ¬ cacheHit g offset ofc len) (hf : readFailsAt env g offset = false) :
    (read_and_decrypt_cluster env g key buf offset ofc len).2.2.aescache_start
      = offset / 0x8000 * 0x7c00 ∧
    (read_and_decrypt_cluster env g key buf offset ofc len).2.2.aescache_end
      = (offset / 0x8000 + 1) * 0x7c00 := by
  rw [rdc_miss_ok env g key buf offset ofc len hal h hf]
  simp only [cluster_start offset hlt hal]
  refine ⟨trivial, ?_⟩
  show (offset / 0x8000 * 0x7c00 + 0x7c00) % 2 ^ 64 = (offset / 0x8000 + 1) * 0x7c00
  omega

theorem cacheInv_rdc (env : Env) (g : Globals) (key : aeskey) (buf : Mem)
    (offset ofc len : Nat) (hlt : offset < 2 ^ 64) (hal : offset % ENCRYPTED_CLUSTER_SIZE = 0)
    (hi : CacheInv g) :
    CacheInv (read_and_decrypt_cluster env g key buf offset ofc len).2.2 := by
  by_cases h : cacheHit g offset ofc len
  · rw [rdc_hit env g key buf offset ofc len h]
    exact hi
  · cases hf : readFailsAt env g offset
    · obtain ⟨h1, h2⟩ := rdc_miss_ok_bounds env g key buf offset ofc len hlt hal h hf
      right
      refine ⟨offset / 0x8000, ?_, h1, h2⟩
      omega
    · rw [rdc_miss_fail env g key buf offset ofc len h hf]
      exact hi

theorem cacheInv_unmount (env : Env) (g : Globals) : CacheInv (FST_Unmount env g).2 := by
  left
  unfold FST_Unmount
  simp only []
  split <;> rfl

theorem cacheInv_reachable (env : Env) (g : Globals) (h : Reachable env g) : CacheInv g := by
  induction h with
  | initial => left; rfl
  | step g c _ hadm ih =>
    cases c with
    | decrypt key buf offset ofc len =>
      exact cacheInv_rdc env g key buf offset ofc len hadm.1 hadm.2.1 ih
    | unmount => exact cacheInv_unmount env g

theorem staleCache_reachable : Reachable envZero staleCache :=
  Reachable.step _ _
    (Reachable.step _ _ Reachable.initial ⟨by decide, by decide, by decide, by decide⟩) trivial

/-- C7 (as stated) fails: after decrypting the second cluster and unmounting, the cache start
is still 0x7c00 while the cache end is zero. -/
theorem C7_counterexample :
    Reachable envZero staleCache ∧
    ¬ ((staleCache.aescache_start = 0 ∧ staleCache.aescache_end = 0) ∨
       (staleCache.aescache_end + 2 ^ 64 - staleCache.aescache_start) % 2 ^ 64 = 0x7c00) := by
  refine ⟨staleCache_reachable, ?_⟩
  decide

/-- C7 (amended): in every reachable state the cache is empty (`aescache_end = 0`, the only
field `FST_Unmount` clears and the only one the validity test reads) or its boundaries span
exactly one cluster of plaintext. -/
theorem C7_cache_boundaries (env : Env) (g : Globals) (h : Reachable env g) :
    g.aescache_end = 0 ∨ g.aescache_end = g.aescache_start + 0x7c00 := by
  rcases cacheInv_reachable env g h with h0 | ⟨k, _, hs, he⟩
  · exact Or.inl h0
  · right
    omega

theorem C7_cache_boundaries_witness :
    Reachable envZero staleCache ∧
    (staleCache.aescache_end = 0 ∨ staleCache.aescache_end = staleCache.aescache_start + 0x7c00) :=
  ⟨staleCache_reachable, C7_cache_boundaries envZero staleCache staleCache_reachable⟩

theorem ctp_in_cluster (offset x : Nat) (hal : offset % ENCRYPTED_CLUSTER_SIZE = 0)
    (hov : offset + 0x8000 < 2 ^ 64) (hx : 0x400 ≤ x) (hx2 : x < 0x8000) :
    cipher_to_plaintext ((offset + x) % 2 ^ 64) = offset / 0x8000 * 0x7c00 + (x - 0x400) := by
  have hal2 : offset % 0x8000 = 0 := hal
  have e : cipher_to_plaintext ((offset + x) % 2 ^ 64)
      = ((offset + x) % 2 ^ 64 / 0x8000 * 0x7c00 + (offset + x) % 2 ^ 64 % 0x8000
          + (2 ^ 64 - 0x400)) % 2 ^ 64 := rfl
  have h1 : (offset + x) % 2 ^ 64 = offset + x := by
    apply Nat.mod_eq_of_lt
    omega
  have h2 : (offset + x) / 0x8000 = offset / 0x8000 := by omega
  have h3 : (offset + x) % 0x8000 = x := by omega
  have h4 : offset / 0x8000 * 0x7c00 < 2 ^ 64 - 0x8000 := by omega
  rw [e, h1, h2, h3]
  omega

theorem ctp_cluster_end (offset : Nat) (hal : offset % ENCRYPTED_CLUSTER_SIZE = 0)
    (hov : offset + 0x8000 < 2 ^ 64) :
    cipher_to_plaintext ((offset + 0x8000) % 2 ^ 64) = offset / 0x8000 * 0x7c00 + 0x7800 := by
  have hal2 : offset % 0x8000 = 0 := hal
  have e : cipher_to_plaintext ((offset + 0x8000) % 2 ^ 64)
      = ((offset + 0x8000) % 2 ^ 64 / 0x8000 * 0x7c00 + (offset + 0x8000) % 2 ^ 64 % 0x8000
          + (2 ^ 64 - 0x400)) % 2 ^ 64 := rfl
  have h1 : (offset + 0x8000) % 2 ^ 64 = offset + 0x8000 := by
    apply Nat.mod_eq_of_lt
    omega
  have h2 : (offset + 0x8000) / 0x8000 = offset / 0x8000 + 1 := by omega
  have h3 : (offset + 0x8000) % 0x8000 = 0 := by omega
  have h4 : offset / 0x8000 * 0x7c00 < 2 ^ 64 - 0x10000 := by omega
  rw [e, h1, h2, h3]
  omega

/-- For a request inside the payload of the cluster at `offset`, the cache test succeeds
exactly when the cache holds that cluster. -/
theorem cacheHit_iff (g : Globals) (offset ofc len : Nat) (hi : CacheInv g)
    (hal : offset % ENCRYPTED_CLUSTER_SIZE = 0) (hov : offset + 0x8000 < 2 ^ 64)
    (h1 : 0x400 ≤ ofc) (h2 : ofc + len ≤ 0x8000) (h3 : 0 < len) :
    cacheHit g offset ofc len ↔
      (g.aescache_end ≠ 0 ∧ g.aescache_start = offset / 0x8000 * 0x7c00) := by
  unfold cacheHit
  rw [ctp_in_cluster offset ofc hal hov h1 (by omega)]
  have hend : cipher_to_plaintext ((offset + ofc + len) % 2 ^ 64)
      = offset / 0x8000 * 0x7c00 + (if ofc + len = 0x8000 then 0x7800 else ofc + len - 0x400) := by
    by_cases hc : ofc + len = 0x8000
    · rw [Nat.add_assoc, hc, if_pos rfl]
      exact ctp_cluster_end offset hal hov
    · rw [Nat.add_assoc, if_neg hc]
      exact ctp_in_cluster offset (ofc + len) hal hov (by omega) (by omega)
  rw [hend]
  rcases hi with h0 | ⟨k, _, hs, he⟩
  · simp [h0]
  · rw [hs, he]
    constructor
    · rintro ⟨hne, ha, hb⟩
      refine ⟨by omega, ?_⟩
      split at hb <;> omega
    · rintro ⟨_, hk⟩
      refine ⟨by omega, by omega, ?_⟩
      split <;> omega

/-- C6 (as stated) fails twice over: when the drive read fails, two consecutive calls on one
cluster issue two block reads; and on the last cluster of the 64-bit offset space a request
ending at the cluster end is never recognised as cached, so the cluster is decrypted twice
although the first call succeeded. -/
theorem C6_counterexample :
    ((read_and_decrypt_cluster envBroken
        (read_and_decrypt_cluster envBroken Globals.initial [] (fun _ => 0) 0 0x400 1).2.2
        [] (fun _ => 0) 0 0x400 1).2.2.reads = 2) ∧
    ((read_and_decrypt_cluster envZero Globals.initial [] (fun _ => 0)
        (2 ^ 64 - 0x8000) 0x7fff 1).1 = true ∧
     (read_and_decrypt_cluster envZero
        (read_and_decrypt_cluster envZero Globals.initial [] (fun _ => 0)
          (2 ^ 64 - 0x8000) 0x7fff 1).2.2
        [] (fun _ => 0) (2 ^ 64 - 0x8000) 0x7fff 1).2.2.decrypts = 2) := by
  decide

/-- C6 (amended): from a reachable cache state, two consecutive `read_and_decrypt_cluster`
calls on in-payload ranges of one cluster-aligned cluster (whose end offset fits in 64 bits)
run `aes_decrypt` at most once in total; if the first call succeeded, the second succeeds
without block read, decryption or any other state change; if the first call failed, no
decryption took place in it and each of the two calls issued one block read. -/
theorem C6_decrypt_at_most_once (env : Env) (g : Globals) (hr : Reachable env g)
    (key1 key2 : aeskey) (buf1 buf2 : Mem) (offset ofc1 len1 ofc2 len2 : Nat)
    (hal : offset % ENCRYPTED_CLUSTER_SIZE = 0) (hov : offset + 0x8000 < 2 ^ 64)
    (h1 : 0x400 ≤ ofc1) (h1e : ofc1 + len1 ≤ 0x8000) (h1l : 0 < len1)
    (h2 : 0x400 ≤ ofc2) (h2e : ofc2 + len2 ≤ 0x8000) (h2l : 0 < len2) :
    (read_and_decrypt_cluster env
        (read_and_decrypt_cluster env g key1 buf1 offset ofc1 len1).2.2
        key2 buf2 offset ofc2 len2).2.2.decrypts ≤ g.decrypts + 1 ∧
    ((read_and_decrypt_cluster env g key1 buf1 offset ofc1 len1).1 = true →
      (read_and_decrypt_cluster env
        (read_and_decrypt_cluster env g key1 buf1 offset ofc1 len1).2.2
        key2 buf2 offset ofc2 len2).1 = true ∧
      (read_and_decrypt_cluster env
        (read_and_decrypt_cluster env g key1 buf1 offset ofc1 len1).2.2
        key2 buf2 offset ofc2 len2).2.2
        = (read_and_decrypt_cluster env g key1 buf1 offset ofc1 len1).2.2) ∧
    ((read_and_decrypt_cluster env g key1 buf1 offset ofc1 len1).1 = false →
      (read_and_decrypt_cluster env g key1 buf1 offset ofc1 len1).2.2.decrypts = g.decrypts ∧
      (read_and_decrypt_cluster env g key1 buf1 offset ofc1 len1).2.2.reads = g.reads + 1 ∧
      (read_and_decrypt_cluster env
        (read_and_decrypt_cluster env g key1 buf1 offset ofc1 len1).2.2
        key2 buf2 offset ofc2 len2).2.2.reads = g.reads + 2) := by
  have hlt : offset < 2 ^ 64 := by omega
  have hi := cacheInv_reachable env g hr
  have hiff1 := cacheHit_iff g offset ofc1 len1 hi hal hov h1 h1e h1l
  have hiff2 := cacheHit_iff g offset ofc2 len2 hi hal hov h2 h2e h2l
  by_cases hh : cacheHit g offset ofc1 len1
  · -- the first call is served from the cache, and so is the second
    have hh2 : cacheHit g offset ofc2 len2 := hiff2.mpr (hiff1.mp hh)
    rw [rdc_hit env g key1 buf1 offset ofc1 len1 hh]
    simp only [rdc_hit env g key2 buf2 offset ofc2 len2 hh2]
    simp
  · cases hf : readFailsAt env g offset
    · -- the first call reads and decrypts; the second is served from the cache
      obtain ⟨hs, he⟩ := rdc_miss_ok_bounds env g key1 buf1 offset ofc1 len1 hlt hal hh hf
      have hi1 := cacheInv_rdc env g key1 buf1 offset ofc1 len1 hlt hal hi
      have hd : (read_and_decrypt_cluster env g key1 buf1 offset ofc1 len1).2.2.decrypts
          = g.decrypts + 1 := by
        rw [rdc_miss_ok env g key1 buf1 offset ofc1 len1 hal hh hf]
      have hok : (read_and_decrypt_cluster env g key1 buf1 offset ofc1 len1).1 = true := by
        rw [rdc_miss_ok env g key1 buf1 offset ofc1 len1 hal hh hf]
      have hh2 : cacheHit (read_and_decrypt_cluster env g key1 buf1 offset ofc1 len1).2.2
          offset ofc2 len2 := by
        rw [cacheHit_iff _ offset ofc2 len2 hi1 hal hov h2 h2e h2l]
        refine ⟨?_, hs⟩
        rw [he]
        omega
      rw [rdc_hit env _ key2 buf2 offset ofc2 len2 hh2]
      simp only [hd, hok]
      simp
    · -- the first call fails on the drive; the cache is untouched and the second reads again
      have hh2 : ¬ cacheHit (afterRead env g) offset ofc2 len2 := fun hc =>
        hh (hiff1.mpr (hiff2.mp hc))
      rw [rdc_miss_fail env g key1 buf1 offset ofc1 len1 hh hf]
      simp only []
      cases hf2 : readFailsAt env (afterRead env g) offset
      · rw [rdc_miss_ok env _ key2 buf2 offset ofc2 len2 hal hh2 hf2]
        simp [afterRead]
      · rw [rdc_miss_fail env _ key2 buf2 offset ofc2 len2 hh2 hf2]
        simp [afterRead]

theorem C6_decrypt_at_most_once_witness :
    (read_and_decrypt_cluster envZero
        (read_and_decrypt_cluster envZero Globals.initial [] (fun _ => 0) 0 0x400 1).2.2
        [] (fun _ => 0) 0 0x500 2).2.2.decrypts ≤ Globals.initial.decrypts + 1 :=
  (C6_decrypt_at_most_once envZero Globals.initial Reachable.initial [] [] (fun _ => 0)
    (fun _ => 0) 0 0x400 1 0x500 2 (by decide) (by decide) (by decide) (by decide) (by decide)
    (by decide) (by decide) (by decide)).1

/-! ## Path resolution -/

theorem strchr_length_le (c : Char) : ∀ (s t : List Char), strchr s c = some t →
    t.length ≤ s.length ∧ t.head? = some c := by
  intro s
  induction s with
  | nil => intro t h; simp [strchr] at h
  | cons x xs ih =>
    intro t h
    unfold strchr at h
    split at h
    · rename_i hx
      cases h
      simp [hx]
    · obtain ⟨h1, h2⟩ := ih t h
      exact ⟨by simp; omega, h2⟩

theorem skipSeparators_length_le : ∀ s : List Char, (skipSeparators s).length ≤ s.length := by
  intro s
  induction s with
  | nil => simp [skipSeparators]
  | cons x xs ih =>
    unfold skipSeparators
    split
    · simp; omega
    · simp

theorem skipSeparators_length_lt (s : List Char) (h : s.head? = some DIR_SEPARATOR) :
    (skipSeparators s).length < s.length := by
  cases s with
  | nil => simp at h
  | cons x xs =>
    simp at h
    unfold skipSeparators
    simp [h]
    have := skipSeparators_length_le xs
    omega

theorem walk_fuel_eq (M : Nat) : ∀ (f1 f2 : Nat) (ptr : Ptr) (dir : DIR_ENTRY) (pos : List Char),
    pos.length < f1 → pos.length < f2 → walk M f1 ptr dir pos = walk M f2 ptr dir pos := by
  intro f1
  induction f1 with
  | zero => intro f2 ptr dir pos h1; omega
  | succ f1 ih =>
    intro f2 ptr dir pos h1 h2
    cases f2 with
    | zero => omega
    | succ f2 =>
      simp only [walk]
      cases hs : strchr pos DIR_SEPARATOR with
      | none => rfl
      | some next =>
        obtain ⟨hl, hh⟩ := strchr_length_le DIR_SEPARATOR pos next hs
        have hlt := skipSeparators_length_lt next hh
        simp only []
        split
        · rfl
        · split
          · rfl
          · split
            · split
              · rfl
              · exact ih f2 _ _ _ (by omega) (by omega)
            · rfl

theorem walk_ne_none (M : Nat) : ∀ (fuel : Nat) (ptr : Ptr) (dir : DIR_ENTRY) (pos : List Char),
    pos.length < fuel → walk M fuel ptr dir pos ≠ none := by
  intro fuel
  induction fuel with
  | zero => intro ptr dir pos h1; omega
  | succ fuel ih =>
    intro ptr dir pos h1
    simp only [walk]
    cases hs : strchr pos DIR_SEPARATOR with
    | none =>
      simp only []
      split
      · simp
      · split <;> simp
    | some next =>
      obtain ⟨hl, hh⟩ := strchr_length_le DIR_SEPARATOR pos next hs
      have hlt := skipSeparators_length_lt next hh
      simp only []
      split
      · simp
      · split
        · simp
        · split
          · split
            · simp
            · exact ih _ _ _ (by omega)
          · simp


theorem entry_from_path_fuel_eq (M fuel : Nat) (root : DIR_ENTRY) (current : Ptr)
    (path : List Char) (h : path.length < fuel) :
    entry_from_path_fuel M fuel root current path = some (entry_from_path M root current path) := by
  have key : ∀ f, path.length < f → ∃ r, entry_from_path_fuel M f root current path = some r ∧
      entry_from_path_fuel M (path.length + 1) root current path = some r := by
    intro f hf
    have had : (afterDrive path).length ≤ path.length := by
      unfold afterDrive
      cases hs : strchr path ':' with
      | none => simp
      | some s =>
        have := (strchr_length_le ':' path s hs).1
        simp
        omega
    have hsk := skipSeparators_length_le (afterDrive path)
    unfold entry_from_path_fuel
    split
    · exact ⟨_, rfl, rfl⟩
    · simp only []
      split
      · split
        · exact ⟨_, rfl, rfl⟩
        · split
          · exact ⟨_, rfl, rfl⟩
          · rw [walk_fuel_eq M f (path.length + 1) _ _ _ (by omega) (by omega)]
            cases hw : walk M (path.length + 1) [] root (skipSeparators (afterDrive path)) with
            | none => exact absurd hw (walk_ne_none M _ _ _ _ (by omega))
            | some r => exact ⟨r, rfl, rfl⟩
      · split
        · exact ⟨_, rfl, rfl⟩
        · rename_i entry _
          split
          · exact ⟨_, rfl, rfl⟩
          · rw [walk_fuel_eq M f (path.length + 1) _ _ _ (by omega) (by omega)]
            cases hw : walk M (path.length + 1) current entry (afterDrive path) with
            | none => exact absurd hw (walk_ne_none M _ _ _ _ (by omega))
            | some r => exact ⟨r, rfl, rfl⟩
  obtain ⟨r, h1, h2⟩ := key fuel h
  unfold entry_from_path
  rw [h1, h2]
  rfl

/-- C8: `_FST_open_r` is decided by path resolution (which terminates for every tree and
path): it fails with ENOENT exactly when the path does not resolve, with EISDIR exactly when
it resolves to a directory, and otherwise returns the handle, in use, bound to the resolved
entry, at offset 0; a failing open leaves the handle unchanged. -/
theorem C8_open_by_resolution (M : Nat) (root : DIR_ENTRY) (current : Ptr) (fd : Int)
    (file : FILE_STRUCT) (path : List Char) :
    (∀ fuel, path.length < fuel →
      entry_from_path_fuel M fuel root current path = some (entry_from_path M root current path)) ∧
    (((_FST_open_r M root current fd file path).ret = -1 ∧
      (_FST_open_r M root current fd file path).errno = some ENOENT) ↔
        entry_from_path M root current path = none) ∧
    (((_FST_open_r M root current fd file path).ret = -1 ∧
      (_FST_open_r M root current fd file path).errno = some EISDIR) ↔
        ∃ p e, entry_from_path M root current path = some (p, e) ∧ is_dir e = true) ∧
    (∀ p e, entry_from_path M root current path = some (p, e) → is_dir e = false →
      (_FST_open_r M root current fd file path).ret = fd ∧
      (_FST_open_r M root current fd file path).errno = none ∧
      (_FST_open_r M root current fd file path).file = { entry := e, offset := 0, inUse := true }) ∧
    ((_FST_open_r M root current fd file path).errno ≠ none →
      (_FST_open_r M root current fd file path).ret = -1 ∧
      (_FST_open_r M root current fd file path).file = file) := by
  refine ⟨fun fuel h => entry_from_path_fuel_eq M fuel root current path h, ?_⟩
  unfold _FST_open_r
  cases hr : entry_from_path M root current path with
  | none => simp [ENOENT, EISDIR]
  | some pe =>
    obtain ⟨p, e⟩ := pe
    cases hd : is_dir e
    · simp [hd, ENOENT, EISDIR]
    · simp only [hd, if_true]
      refine ⟨by simp [ENOENT, EISDIR], ?_, ?_, by simp⟩
      · simp only [true_and]
        exact ⟨fun _ => ⟨p, e, rfl, hd⟩, fun _ => trivial⟩
      · intro p2 e2 h2 hd2
        cases h2
        rw [hd] at hd2
        exact absurd hd2 (by simp)

theorem toNat_ofNat_small (n : Nat) (h : n < 0xd800) : (Char.ofNat n).toNat = n := by
  have hv : n.isValidChar := Or.inl h
  unfold Char.ofNat
  rw [dif_pos hv]
  unfold Char.ofNatAux Char.toNat
  simp [UInt32.toNat]

theorem tolower_fix (c : Char) (h : c.toNat < 65) : tolower c = c := by
  unfold tolower
  rw [if_neg]
  omega

theorem tolower_eq_low (x c : Char) (h : c.toNat < 65) (hx : tolower x = c) : x = c := by
  unfold tolower at hx
  split at hx
  · exfalso
    have := congrArg Char.toNat hx
    rw [toNat_ofNat_small _ (by omega)] at this
    omega
  · exact hx

theorem caseEq_char_iff (a b c : Char) (hc : c.toNat < 65) (h : tolower a = tolower b) :
    a = c ↔ b = c := by
  constructor
  · intro ha
    subst ha
    exact tolower_eq_low b a hc (by rw [← h, tolower_fix a hc])
  · intro hb
    subst hb
    exact tolower_eq_low a b hc (by rw [h, tolower_fix b hc])

theorem caseEq_length {s t : List Char} (h : CaseEq s t) : s.length = t.length := by
  have := congrArg List.length h
  simpa using this

theorem caseEq_nil_iff {s t : List Char} (h : CaseEq s t) : s = [] ↔ t = [] := by
  have := caseEq_length h
  constructor <;> intro h' <;> subst h' <;> simp at this
  · exact List.length_eq_zero.mp (by simpa using this.symm)
  · exact List.length_eq_zero.mp (by simpa using this)

theorem caseEq_cons {a b : Char} {s t : List Char} (h : CaseEq (a :: s) (b :: t)) :
    tolower a = tolower b ∧ CaseEq s t := by
  unfold CaseEq at h
  simp at h
  exact h

theorem strchr_caseEq (c : Char) (hc : c.toNat < 65) : ∀ (s t : List Char), CaseEq s t →
    OptCaseEq (strchr s c) (strchr t c) := by
  intro s
  induction s with
  | nil =>
    intro t h
    have := (caseEq_nil_iff h).mp rfl
    subst this
    simp [strchr, OptCaseEq]
  | cons a s ih =>
    intro t h
    cases t with
    | nil => exact absurd ((caseEq_nil_iff h).mpr rfl) (by simp)
    | cons b t =>
      obtain ⟨hab, hst⟩ := caseEq_cons h
      have hiff := caseEq_char_iff a b c hc hab
      unfold strchr
      by_cases ha : a = c
      · rw [if_pos ha, if_pos (hiff.mp ha)]
        exact h
      · rw [if_neg ha, if_neg (fun hb => ha (hiff.mpr hb))]
        exact ih t hst

theorem skipSeparators_caseEq : ∀ (s t : List Char), CaseEq s t →
    CaseEq (skipSeparators s) (skipSeparators t) := by
  intro s
  induction s with
  | nil =>
    intro t h
    have := (caseEq_nil_iff h).mp rfl
    subst this
    exact h
  | cons a s ih =>
    intro t h
    cases t with
    | nil => exact absurd ((caseEq_nil_iff h).mpr rfl) (by simp)
    | cons b t =>
      obtain ⟨hab, hst⟩ := caseEq_cons h
      have hiff := caseEq_char_iff a b DIR_SEPARATOR (by decide) hab
      unfold skipSeparators
      by_cases ha : a = DIR_SEPARATOR
      · rw [if_pos ha, if_pos (hiff.mp ha)]
        exact ih t hst
      · rw [if_neg ha, if_neg (fun hb => ha (hiff.mpr hb))]
        exact h

theorem caseEq_head_iff {s t : List Char} (c : Char) (hc : c.toNat < 65) (h : CaseEq s t) :
    s.head? = some c ↔ t.head? = some c := by
  cases s with
  | nil =>
    have := (caseEq_nil_iff h).mp rfl
    subst this
    simp
  | cons a s =>
    cases t with
    | nil => exact absurd ((caseEq_nil_iff h).mpr rfl) (by simp)
    | cons b t =>
      simp
      exact caseEq_char_iff a b c hc (caseEq_cons h).1

theorem caseEq_dot_iff {s t : List Char} (h : CaseEq s t) : s = ['.'] ↔ t = ['.'] := by
  cases s with
  | nil =>
    have := (caseEq_nil_iff h).mp rfl
    subst this
    simp
  | cons a s =>
    cases t with
    | nil => exact absurd ((caseEq_nil_iff h).mpr rfl) (by simp)
    | cons b t =>
      obtain ⟨hab, hst⟩ := caseEq_cons h
      simp
      rw [caseEq_char_iff a b '.' (by decide) hab, caseEq_nil_iff hst]

theorem strncasecmp_caseEq {s t : List Char} (h : CaseEq s t) (name : List Char) (n : Nat) :
    strncasecmp_eq s name n = strncasecmp_eq t name n := by
  unfold strncasecmp_eq
  unfold CaseEq at h
  simp only [List.map_take, h]

theorem findChild_caseEq (M : Nat) {s t : List Char} (h : CaseEq s t) (len : Nat) (hasNext : Bool) :
    ∀ (children : List DIR_ENTRY) (i : Nat),
      findChild M s len hasNext children i = findChild M t len hasNext children i := by
  intro children
  induction children with
  | nil => intro i; rfl
  | cons e rest ih =>
    intro i
    unfold findChild childMatches nameMatches
    rw [strncasecmp_caseEq h, ih]

theorem walk_caseEq (M : Nat) : ∀ (fuel : Nat) (ptr : Ptr) (dir : DIR_ENTRY) (s t : List Char),
    CaseEq s t → walk M fuel ptr dir s = walk M fuel ptr dir t := by
  intro fuel
  induction fuel with
  | zero => intros; rfl
  | succ fuel ih =>
    intro ptr dir s t h
    have hlen := caseEq_length h
    have hch := strchr_caseEq DIR_SEPARATOR (by decide) s t h
    simp only [walk]
    cases hs : strchr s DIR_SEPARATOR with
    | none =>
      cases ht : strchr t DIR_SEPARATOR with
      | none =>
        simp only [hlen, findChild_caseEq M h]
      | some b => rw [hs, ht] at hch; exact absurd hch (by simp [OptCaseEq])
    | some a =>
      cases ht : strchr t DIR_SEPARATOR with
      | none => rw [hs, ht] at hch; exact absurd hch (by simp [OptCaseEq])
      | some b =>
        rw [hs, ht] at hch
        have hab : CaseEq a b := hch
        have hsk := skipSeparators_caseEq a b hab
        simp only [hlen, caseEq_length hab, findChild_caseEq M h, caseEq_nil_iff hsk,
          Option.isSome_some]
        split
        · rfl
        · split
          · rfl
          · split
            · split
              · rfl
              · exact ih _ _ _ _ hsk
            · rfl

theorem strchr_none_of_not_mem (c : Char) : ∀ s : List Char, c ∉ s → strchr s c = none := by
  intro s
  induction s with
  | nil => intro _; rfl
  | cons x xs ih =>
    intro h
    simp at h
    unfold strchr
    rw [if_neg (fun hx => h.1 hx.symm)]
    exact ih h.2

/-- C10: path components are matched case-insensitively: two paths without ':' that differ
only in the case of ASCII letters resolve to the same entry, or both fail. -/
theorem C10_case_insensitive (M : Nat) (root : DIR_ENTRY) (current : Ptr) (p q : List Char)
    (hp : ':' ∉ p) (hq : ':' ∉ q) (h : p.map tolower = q.map tolower) :
    entry_from_path M root current p = entry_from_path M root current q := by
  have hc : CaseEq p q := h
  have hsp := strchr_none_of_not_mem ':' p hp
  have hsq := strchr_none_of_not_mem ':' q hq
  have hsk := skipSeparators_caseEq p q hc
  unfold entry_from_path entry_from_path_fuel invalid_drive_specifier afterDrive
  simp only [hsp, hsq, if_true, caseEq_length hc, caseEq_head_iff DIR_SEPARATOR (by decide) hc,
    caseEq_nil_iff hsk, caseEq_dot_iff hsk, caseEq_dot_iff hc, walk_caseEq M _ _ _ _ _ hsk,
    walk_caseEq M _ _ _ _ _ hc]

theorem C10_case_insensitive_witness :
    entry_from_path 128 sampleTree [] "/0/Sys/MAIN.dol".toList
      = entry_from_path 128 sampleTree [] "/0/sYS/main.DOL".toList :=
  C10_case_insensitive 128 sampleTree [] "/0/Sys/MAIN.dol".toList "/0/sYS/main.DOL".toList
    (by decide) (by decide) (by decide)

/-! ## The caller's name buffer -/

theorem bufferString_succ (buf : Nat → Option Char) (n i : Nat) :
    bufferString buf (n + 1) i
      = match buf i with
        | none => []
        | some c => c :: bufferString buf n (i + 1) := rfl

theorem bufferString_none (buf : Nat → Option Char) (i : Nat) (h : buf i = none) :
    ∀ n, bufferString buf n i = [] := by
  intro n
  cases n with
  | zero => rfl
  | succ n => rw [bufferString_succ, h]

/-- A buffer that holds the characters of `l` from index `i` reads as `l` followed by the
string found after them. -/
theorem bufferString_append (buf : Nat → Option Char) :
    ∀ (l : List Char) (i n : Nat), (∀ j, j < l.length → buf (i + j) = l[j]?) →
      bufferString buf (l.length + n) i = l ++ bufferString buf n (i + l.length) := by
  intro l
  induction l with
  | nil =>
    intro i n _
    simp
  | cons a l ih =>
    intro i n h
    have h0 : buf i = some a := by
      have := h 0 (by simp)
      simpa using this
    have hlen : (a :: l).length + n = (l.length + n) + 1 := by
      simp only [List.length_cons]
      omega
    rw [hlen, bufferString_succ, h0]
    simp only []
    rw [ih (i + 1) n (fun j hj => by
      have := h (j + 1) (by simp only [List.length_cons]; omega)
      rw [show i + 1 + j = i + (j + 1) by omega, this]
      simp)]
    simp only [List.length_cons, List.cons_append]
    rw [show i + 1 + l.length = i + (l.length + 1) by omega]

theorem strncpy_take (dst : Nat → Option Char) (src : List Char) (k j : Nat)
    (hj : j < (src.take k).length) : strncpy dst src k (0 + j) = (src.take k)[j]? := by
  have hjk : j < k := by
    rw [List.length_take] at hj
    omega
  unfold strncpy
  rw [Nat.zero_add, if_pos hjk, List.getElem?_take, if_pos hjk]

/-- After `strncpy(dst, src, k)` the buffer reads as the first `k` characters of `src`,
provided `src` is shorter than `k` (NUL is padded) or `dst` held NUL at index `k`. -/
theorem bufferString_strncpy (dst : Nat → Option Char) (src : List Char) (k n : Nat)
    (h : src.length < k ∨ dst k = none) (hn : k ≤ n) :
    bufferString (strncpy dst src k) n 0 = src.take k := by
  have hlen : (src.take k).length ≤ n := by
    rw [List.length_take]
    omega
  have hsplit : n = (src.take k).length + (n - (src.take k).length) := by omega
  rw [hsplit, bufferString_append _ _ 0 _ (fun j hj => strncpy_take dst src k j hj)]
  rw [bufferString_none, List.append_nil]
  rw [Nat.zero_add, List.length_take]
  unfold strncpy
  by_cases hk : src.length < k
  · rw [min_eq_right (by omega), if_pos hk, List.getElem?_eq_none (le_refl _)]
  · rcases h with h | h
    · exact absurd h hk
    · rw [min_eq_left (by omega), if_neg (by omega), h]

/-- After `strncpy(dst, src, k)` with `src` of `k` or more characters, the buffer reads as
the first `k` characters of `src` followed by what `dst` held from index `k` on. -/
theorem bufferString_strncpy_long (dst : Nat → Option Char) (src : List Char) (k m : Nat)
    (x : Char) (hlen : k ≤ src.length) (hx : dst k = some x) :
    bufferString (strncpy dst src k) (k + (m + 1)) 0
      = src.take k ++ x :: bufferString (strncpy dst src k) m (k + 1) := by
  have hl : (src.take k).length = k := by
    rw [List.length_take]
    omega
  have h1 := bufferString_append (strncpy dst src k) (src.take k) 0 (m + 1)
    (fun j hj => strncpy_take dst src k j hj)
  rw [hl] at h1
  rw [h1, Nat.zero_add]
  congr 1
  have hk : strncpy dst src k k = some x := by
    unfold strncpy
    rw [if_neg (by omega), hx]
  rw [bufferString_succ, hk]

theorem dirnext_at (M : Nat) (d c : DIR_ENTRY) (i : Nat) (filename : Nat → Option Char)
    (st : Stat) (hc : d.children[i]? = some c) :
    _FST_dirnext_r M ⟨d, i, true⟩ filename st =
      ⟨0, none, ⟨d, i + 1, true⟩, strncpy filename c.name (M - 1), stat_entry c⟩ := by
  unfold _FST_dirnext_r
  simp only [not_true_eq_false, if_false, hc]

/-- The name read from the buffer after a successful `_FST_dirnext_r` is the first
`FST_MAXPATHLEN - 1` characters of the name of the child, provided the name is shorter than
that or the buffer held NUL at index `FST_MAXPATHLEN - 1`. -/
theorem dirnext_name (M : Nat) (d c : DIR_ENTRY) (i : Nat) (filename : Nat → Option Char)
    (st : Stat) (n : Nat) (hc : d.children[i]? = some c)
    (hbuf : c.name.length < M - 1 ∨ filename (M - 1) = none) (hn : M - 1 ≤ n) :
    (_FST_dirnext_r M ⟨d, i, true⟩ filename st).name n = c.name.take (M - 1) := by
  rw [dirnext_at M d c i filename st hc]
  exact bufferString_strncpy filename c.name (M - 1) n hbuf hn

/-! ## Directory iteration round trip -/

theorem strchr_append_some (c : Char) (x : List Char) : ∀ (s next : List Char),
    strchr s c = some next → strchr (s ++ x) c = some (next ++ x) := by
  intro s
  induction s with
  | nil => intro next h; simp [strchr] at h
  | cons a s ih =>
    intro next h
    simp only [List.cons_append]
    unfold strchr at h ⊢
    split at h
    · rename_i ha
      cases h
      rw [if_pos ha]
      rfl
    · rename_i ha
      rw [if_neg ha]
      exact ih next h

theorem strchr_append_none (c : Char) (r : List Char) : ∀ (s : List Char),
    strchr s c = none → strchr (s ++ c :: r) c = some (c :: r) := by
  intro s
  induction s with
  | nil => intro _; simp [strchr]
  | cons a s ih =>
    intro h
    simp only [List.cons_append]
    unfold strchr at h ⊢
    split at h
    · cases h
    · rename_i ha
      rw [if_neg ha]
      exact ih h

theorem skipSeparators_cons_sep (xs : List Char) :
    skipSeparators (DIR_SEPARATOR :: xs) = skipSeparators xs := by
  rw [skipSeparators, if_pos rfl]

theorem skipSeparators_cons_ne (x : Char) (xs : List Char) (h : x ≠ DIR_SEPARATOR) :
    skipSeparators (x :: xs) = x :: xs := by
  rw [skipSeparators, if_neg h]

theorem skipSeparators_append (b : List Char) : ∀ a : List Char,
    skipSeparators (a ++ b) =
      if skipSeparators a = [] then skipSeparators b else skipSeparators a ++ b := by
  intro a
  induction a with
  | nil => simp [skipSeparators]
  | cons x xs ih =>
    simp only [List.cons_append]
    by_cases hx : x = DIR_SEPARATOR
    · subst hx
      rw [skipSeparators_cons_sep, skipSeparators_cons_sep]
      exact ih
    · rw [skipSeparators_cons_ne _ _ hx, skipSeparators_cons_ne _ _ hx]
      simp

theorem skipSeparators_of_head (n : List Char) (h : DIR_SEPARATOR ∉ n) : skipSeparators n = n := by
  cases n with
  | nil => rfl
  | cons x xs =>
    simp at h
    unfold skipSeparators
    rw [if_neg (fun hx => h.1 hx.symm)]

theorem findChild_append (M : Nat) (pos x : List Char) (len : Nat) (hasNext : Bool)
    (hlen : len ≤ pos.length) : ∀ (cs : List DIR_ENTRY) (i : Nat),
    findChild M (pos ++ x) len hasNext cs i = findChild M pos len hasNext cs i := by
  intro cs
  induction cs with
  | nil => intro i; rfl
  | cons e rest ih =>
    intro i
    unfold findChild childMatches nameMatches strncasecmp_eq
    rw [List.take_append_of_le_length hlen, ih]

theorem childMatches_false (M : Nat) (pos : List Char) (len : Nat) (e : DIR_ENTRY) :
    childMatches M pos len false e = nameMatches M pos len e := by
  unfold childMatches
  simp

theorem childMatches_true (M : Nat) (pos : List Char) (len : Nat) (e : DIR_ENTRY) :
    childMatches M pos len true e = (nameMatches M pos len e && is_dir e) := by
  unfold childMatches
  cases nameMatches M pos len e <;> cases is_dir e <;> simp

/-- A match found without a following separator that is a directory is also the match found
with a following separator. -/
theorem findChild_hasNext (M : Nat) (pos : List Char) (len : Nat) :
    ∀ (cs : List DIR_ENTRY) (i idx : Nat) (e : DIR_ENTRY),
    findChild M pos len false cs i = some (idx, e) → is_dir e = true →
    findChild M pos len true cs i = some (idx, e) := by
  intro cs
  induction cs with
  | nil => intro i idx e h; simp [findChild] at h
  | cons a rest ih =>
    intro i idx e h hd
    unfold findChild at h ⊢
    rw [childMatches_false] at h
    rw [childMatches_true]
    by_cases hm : nameMatches M pos len a = true
    · rw [if_pos hm] at h
      simp only [Option.some.injEq, Prod.mk.injEq] at h
      obtain ⟨h1, h2⟩ := h
      rw [h2, if_pos (by rw [← h2] at hd ⊢; simp [hm, hd]), h1]
    · rw [if_neg hm] at h
      rw [if_neg (by simp [hm])]
      exact ih _ _ _ h hd

theorem findChild_is_dir (M : Nat) (pos : List Char) (len : Nat) :
    ∀ (cs : List DIR_ENTRY) (i idx : Nat) (e : DIR_ENTRY),
    findChild M pos len true cs i = some (idx, e) → is_dir e = true := by
  intro cs
  induction cs with
  | nil => intro i idx e h; simp [findChild] at h
  | cons a rest ih =>
    intro i idx e h
    unfold findChild at h
    rw [childMatches_true] at h
    split at h
    · rename_i hm
      simp only [Option.some.injEq, Prod.mk.injEq] at h
      rw [← h.2]
      simp at hm
      exact hm.2
    · exact ih _ _ _ h

theorem walk_single (M : Nat) (f : Nat) (ptr : Ptr) (d : DIR_ENTRY) (n : List Char)
    (hn : DIR_SEPARATOR ∉ n) : walk M (f + 1) ptr d n = walk M 1 ptr d n := by
  have hs := strchr_none_of_not_mem DIR_SEPARATOR n hn
  simp only [walk, hs]

/-- Resolving `pos/n` first resolves `pos`, then looks `n` up in the directory found. -/
theorem walk_extend (M : Nat) (n : List Char) (hn0 : n ≠ []) (hn : DIR_SEPARATOR ∉ n)
    (dptr : Ptr) (d : DIR_ENTRY) (hd : is_dir d = true) :
    ∀ (f : Nat) (ptr : Ptr) (dir : DIR_ENTRY) (pos : List Char),
    walk M f ptr dir pos = some (some (dptr, d)) →
    walk M (f + 1) ptr dir (pos ++ DIR_SEPARATOR :: n) = walk M 1 dptr d n := by
  have hskn : skipSeparators n = n := skipSeparators_of_head n hn
  intro f
  induction f with
  | zero => intro ptr dir pos h; simp [walk] at h
  | succ f ih =>
    intro ptr dir pos h
    rw [walk] at h
    rw [walk]
    cases hs : strchr pos DIR_SEPARATOR with
    | none =>
      rw [hs] at h
      rw [strchr_append_none DIR_SEPARATOR n pos hs]
      simp only [Option.isSome_none, Option.isSome_some] at h ⊢
      have hl : (pos ++ DIR_SEPARATOR :: n).length - (DIR_SEPARATOR :: n).length = pos.length := by
        simp
      rw [hl, findChild_append M pos _ _ true (le_refl _)]
      split at h
      · cases h
      · rename_i hM
        rw [if_neg hM]
        cases hf : findChild M pos pos.length false dir.children 0 with
        | none => rw [hf] at h; cases h
        | some ie =>
          obtain ⟨idx, e⟩ := ie
          rw [hf] at h
          simp only [Option.some.injEq, Prod.mk.injEq] at h
          obtain ⟨hp, he⟩ := h
          subst he
          rw [findChild_hasNext M pos _ _ _ _ _ hf hd]
          simp only [hd, if_true]
          have : skipSeparators (DIR_SEPARATOR :: n) = n := by
            unfold skipSeparators
            rw [if_pos rfl, hskn]
          rw [this, if_neg hn0, hp]
          exact walk_single M f dptr e n hn
    | some next =>
      rw [hs] at h
      rw [strchr_append_some DIR_SEPARATOR _ pos next hs]
      simp only [Option.isSome_some] at h ⊢
      have hle := (strchr_length_le DIR_SEPARATOR pos next hs).1
      have hl : (pos ++ DIR_SEPARATOR :: n).length - (next ++ DIR_SEPARATOR :: n).length
          = pos.length - next.length := by
        simp
        omega
      rw [hl, findChild_append M pos _ _ true (by omega)]
      split at h
      · cases h
      · rename_i hM
        rw [if_neg hM]
        cases hf : findChild M pos (pos.length - next.length) true dir.children 0 with
        | none => rw [hf] at h; cases h
        | some ie =>
          obtain ⟨idx, e⟩ := ie
          rw [hf] at h
          have hde := findChild_is_dir M pos _ _ _ _ _ hf
          simp only [hde, if_true] at h ⊢
          rw [skipSeparators_append]
          by_cases hsk : skipSeparators next = []
          · rw [if_pos hsk] at h ⊢
            simp only [Option.some.injEq, Prod.mk.injEq] at h
            obtain ⟨hp, he⟩ := h
            subst he
            have : skipSeparators (DIR_SEPARATOR :: n) = n := by
              unfold skipSeparators
              rw [if_pos rfl, hskn]
            rw [this, if_neg hn0, hp]
            exact walk_single M f dptr e n hn
          · rw [if_neg hsk] at h ⊢
            have hne : skipSeparators next ++ DIR_SEPARATOR :: n ≠ [] := by simp
            rw [if_neg hne]
            exact ih _ _ _ h



theorem take_min_length (l : List Char) (k : Nat) : l.take (min l.length k) = l.take k := by
  rw [List.take_eq_take]
  omega

theorem nameMatches_own (M : Nat) (c : DIR_ENTRY) :
    nameMatches M (c.name.take (M - 1)) (c.name.take (M - 1)).length c = true := by
  unfold nameMatches strnlen strncasecmp_eq
  have h1 : (c.name.take (M - 1)).length = min c.name.length (M - 1) := by
    rw [List.length_take]
    exact Nat.min_comm _ _
  rw [h1, List.take_take, Nat.min_assoc, Nat.min_self, take_min_length]
  simp

theorem nameMatches_caseEq (M : Nat) (n : List Char) (e : DIR_ENTRY)
    (h : nameMatches M n n.length e = true) :
    (e.name.take (M - 1)).map tolower = n.map tolower := by
  unfold nameMatches strnlen strncasecmp_eq at h
  simp only [List.take_length, decide_eq_true_eq, Bool.decide_and, Bool.and_eq_true] at h
  obtain ⟨h1, h2⟩ := h
  rw [h2, h1, take_min_length]

theorem findChild_first (M : Nat) (n : List Char) (c : DIR_ENTRY)
    (hc : nameMatches M n n.length c = true) :
    ∀ (cs : List DIR_ENTRY) (i k : Nat), cs[i]? = some c →
    (∀ j e, j < i → cs[j]? = some e → nameMatches M n n.length e = false) →
    findChild M n n.length false cs k = some (k + i, c) := by
  intro cs
  induction cs with
  | nil => intro i k h; simp at h
  | cons a rest ih =>
    intro i k h hfirst
    unfold findChild
    rw [childMatches_false]
    cases i with
    | zero =>
      simp at h
      subst h
      rw [if_pos hc]
      rfl
    | succ i =>
      have ha := hfirst 0 a (by omega) (List.getElem?_cons_zero)
      rw [ha]
      simp only [Bool.false_eq_true, if_false]
      rw [List.getElem?_cons_succ] at h
      rw [ih i (k + 1) h (fun j e hj he => hfirst (j + 1) e (by omega)
        (by rw [List.getElem?_cons_succ]; exact he))]
      congr 2
      omega

/-- Looking up the name reported for child `c` of `d` yields `c`, when no earlier child
carries that name up to letter case. -/
theorem walk_lookup (M : Nat) (dptr : Ptr) (d c : DIR_ENTRY) (i : Nat)
    (hc : d.children[i]? = some c)
    (hn0 : c.name.take (M - 1) ≠ [])
    (hn1 : DIR_SEPARATOR ∉ c.name.take (M - 1))
    (hfirst : ∀ j e, j < i → d.children[j]? = some e →
      (e.name.take (M - 1)).map tolower ≠ (c.name.take (M - 1)).map tolower) :
    walk M 1 dptr d (c.name.take (M - 1)) = some (some (dptr ++ [i], c)) := by
  have hs := strchr_none_of_not_mem DIR_SEPARATOR _ hn1
  have hM : ¬ (c.name.take (M - 1)).length ≥ M := by
    have h1 : (c.name.take (M - 1)).length ≤ M - 1 := by simp [List.length_take]
    have h2 : 0 < (c.name.take (M - 1)).length := List.length_pos.mpr hn0
    omega
  simp only [walk, hs, Option.isSome_none]
  rw [if_neg hM]
  have hfc := findChild_first M _ c (nameMatches_own M c) d.children i 0 hc
    (fun j e hj he => by
      cases hm : nameMatches M (c.name.take (M - 1)) (c.name.take (M - 1)).length e with
      | false => rfl
      | true => exact absurd (nameMatches_caseEq M _ e hm) (hfirst j e hj he))
  rw [hfc]
  simp

theorem strchr_isSome_of_mem (c : Char) : ∀ s : List Char, c ∈ s → strchr s c ≠ none := by
  intro s
  induction s with
  | nil => intro h; simp at h
  | cons x xs ih =>
    intro h
    unfold strchr
    split
    · simp
    · rename_i hx
      simp at h
      rcases h with h | h
      · exact absurd h.symm hx
      · exact ih h

theorem strchr_append_not_mem (c : Char) (x : List Char) (hx : c ∉ x) : ∀ s : List Char,
    strchr s c = none → strchr (s ++ x) c = none := by
  intro s
  induction s with
  | nil => intro _; exact strchr_none_of_not_mem c x hx
  | cons a s ih =>
    intro h
    simp only [List.cons_append]
    unfold strchr at h ⊢
    split at h
    · cases h
    · rename_i ha
      rw [if_neg ha]
      exact ih h

theorem afterDrive_append (p x : List Char) (hx : ':' ∉ x) :
    afterDrive (p ++ x) = afterDrive p ++ x := by
  unfold afterDrive
  cases hs : strchr p ':' with
  | none => rw [strchr_append_not_mem ':' x hx p hs]
  | some s =>
    rw [strchr_append_some ':' x p s hs]
    have := (strchr_length_le ':' p s hs).2
    cases s with
    | nil => simp at this
    | cons a s => simp

theorem invalid_drive_append (p x : List Char) (hx : ':' ∉ x)
    (hp : invalid_drive_specifier p = false) : invalid_drive_specifier (p ++ x) = false := by
  unfold invalid_drive_specifier at hp ⊢
  cases hs : strchr p ':' with
  | none => simp [strchr_append_not_mem ':' x hx p hs]
  | some s =>
    rw [hs] at hp
    simp only [reduceCtorEq, if_false] at hp
    rw [strchr_append_some ':' x p s hs]
    simp only [reduceCtorEq, if_false]
    split at hp
    · rename_i h
      obtain ⟨h1, h2⟩ := h
      have hlen : DEVICE_NAME.length < p.length := by
        by_contra hcon
        rw [List.getElem?_eq_none (by omega)] at h2
        cases h2
      rw [if_pos]
      refine ⟨?_, ?_⟩
      · rw [List.take_append_of_le_length (by omega)]
        exact h1
      · rw [List.getElem?_append_left hlen]
        exact h2
    · cases hp



/-- Appending text to a path keeps its drive prefix, when the path has one or the text holds
no ':'. -/
theorem afterDrive_append_drive (p x : List Char) (hx : ':' ∈ p ∨ ':' ∉ x) :
    afterDrive (p ++ x) = afterDrive p ++ x := by
  rcases hx with hx | hx
  · unfold afterDrive
    cases hs : strchr p ':' with
    | none => exact absurd hs (strchr_isSome_of_mem ':' p hx)
    | some s =>
      rw [strchr_append_some ':' x p s hs]
      have := (strchr_length_le ':' p s hs).2
      cases s with
      | nil => simp at this
      | cons a s => simp
  · exact afterDrive_append p x hx

theorem invalid_drive_append_drive (p x : List Char) (hx : ':' ∈ p ∨ ':' ∉ x)
    (hp : invalid_drive_specifier p = false) : invalid_drive_specifier (p ++ x) = false := by
  rcases hx with hx | hx
  · unfold invalid_drive_specifier at hp ⊢
    cases hs : strchr p ':' with
    | none => exact absurd hs (strchr_isSome_of_mem ':' p hx)
    | some s =>
      rw [hs] at hp
      simp only [reduceCtorEq, if_false] at hp
      rw [strchr_append_some ':' x p s hs]
      simp only [reduceCtorEq, if_false]
      split at hp
      · rename_i h
        obtain ⟨h1, h2⟩ := h
        have hlen : DEVICE_NAME.length < p.length := by
          by_contra hcon
          rw [List.getElem?_eq_none (by omega)] at h2
          cases h2
        rw [if_pos]
        refine ⟨?_, ?_⟩
        · rw [List.take_append_of_le_length (by omega)]
          exact h1
        · rw [List.getElem?_append_left hlen]
          exact h2
      · cases hp
  · exact invalid_drive_append p x hx hp

/-- Resolution of `p/n` at the level of `entry_from_path`: once `p` resolves to the directory
`d` (not by the lone "." rule, and with a non-empty part after the drive prefix), `p/n`
resolves to whatever a lookup of the single component `n` in `d` yields. -/
theorem entry_from_path_extend (M : Nat) (root : DIR_ENTRY) (current : Ptr) (p n : List Char)
    (dptr : Ptr) (d : DIR_ENTRY)
    (hres : entry_from_path M root current p = some (dptr, d)) (hdir : is_dir d = true)
    (hp1 : afterDrive p ≠ []) (hp2 : skipSeparators (afterDrive p) ≠ ['.'])
    (hn0 : n ≠ []) (hn1 : DIR_SEPARATOR ∉ n) (hn2 : ':' ∈ p ∨ ':' ∉ n)
    (hn3 : dptr = [] → n ≠ ['.']) :
    entry_from_path M root current (p ++ DIR_SEPARATOR :: n) = (walk M 1 dptr d n).join := by
  have hx : ':' ∈ p ∨ ':' ∉ DIR_SEPARATOR :: n := by
    rcases hn2 with h | h
    · exact Or.inl h
    · right
      simp only [List.mem_cons, not_or]
      exact ⟨by decide, h⟩
  have hskn : skipSeparators n = n := skipSeparators_of_head n hn1
  have hlen : (afterDrive p).length ≤ p.length := by
    unfold afterDrive
    cases hs : strchr p ':' with
    | none => simp
    | some s =>
      have := (strchr_length_le ':' p s hs).1
      simp
      omega
  have hsl := skipSeparators_length_le (afterDrive p)
  have hfuel := entry_from_path_fuel_eq M (p.length + 1) root current p (by omega)
  rw [hres] at hfuel
  unfold entry_from_path
  unfold entry_from_path_fuel at hfuel ⊢
  cases hinv : invalid_drive_specifier p with
  | true => rw [hinv] at hfuel; simp at hfuel
  | false =>
    rw [hinv] at hfuel
    rw [invalid_drive_append_drive p _ hx hinv, afterDrive_append_drive p _ hx]
    simp only [Bool.false_eq_true, if_false] at hfuel ⊢
    have hhead : (afterDrive p ++ DIR_SEPARATOR :: n).head? = (afterDrive p).head? := by
      cases hq : afterDrive p with
      | nil => exact absurd hq hp1
      | cons a q => rfl
    rw [hhead]
    have hL : (p ++ DIR_SEPARATOR :: n).length + 1 = (p.length + n.length + 1) + 1 := by
      simp
      omega
    rw [hL]
    by_cases hh : (afterDrive p).head? = some DIR_SEPARATOR
    · rw [if_pos hh] at hfuel ⊢
      rw [skipSeparators_append]
      by_cases hsk : skipSeparators (afterDrive p) = []
      · rw [if_pos hsk] at hfuel
        simp only [Option.some.injEq, Prod.mk.injEq] at hfuel
        obtain ⟨h1, h2⟩ := hfuel
        rw [if_pos hsk, skipSeparators_cons_sep, hskn, if_neg hn0, if_neg (hn3 h1.symm),
          walk_single M _ _ _ n hn1, ← h1, ← h2]
      · rw [if_neg hsk, if_neg hp2] at hfuel
        rw [if_neg hsk]
        have hne : skipSeparators (afterDrive p) ++ DIR_SEPARATOR :: n ≠ [] := by simp
        have hnd : skipSeparators (afterDrive p) ++ DIR_SEPARATOR :: n ≠ ['.'] := by
          intro hc
          have := congrArg List.length hc
          simp at this
          have := List.length_pos.mpr hn0
          omega
        rw [if_neg hne, if_neg hnd]
        rw [walk_fuel_eq M (p.length + 1) (p.length + n.length + 1) _ _ _ (by omega) (by omega)]
          at hfuel
        rw [walk_extend M n hn0 hn1 dptr d hdir _ _ _ _ hfuel]
    · rw [if_neg hh] at hfuel ⊢
      cases hcur : entryAt root current with
      | none => rw [hcur] at hfuel; simp at hfuel
      | some entry =>
        rw [hcur] at hfuel
        simp only [] at hfuel ⊢
        have hnd : ¬ (current = [] ∧ afterDrive p ++ DIR_SEPARATOR :: n = ['.']) := by
          rintro ⟨_, hc⟩
          have := congrArg List.length hc
          simp at this
          have := List.length_pos.mpr hn0
          have := List.length_pos.mpr hp1
          omega
        rw [if_neg hnd]
        have hnd2 : ¬ (current = [] ∧ afterDrive p = ['.']) := by
          rintro ⟨_, hc⟩
          apply hp2
          rw [hc]
          rfl
        rw [if_neg hnd2] at hfuel
        rw [walk_fuel_eq M (p.length + 1) (p.length + n.length + 1) _ _ _ (by omega) (by omega)]
          at hfuel
        rw [walk_extend M n hn0 hn1 dptr d hdir _ _ _ _ hfuel]

/-- C9 (as stated) fails. On `sampleTree`: "." resolves to the root directory, whose first
child is reported as "0", yet "./0" does not resolve; and "/" resolves to the root, whose
third child is reported as "A" with size 2, yet "//A" resolves to the second child "a" of
size 1. On `oddTree`: the children reported as "a:b", "c/d" and "" of the root "/" do not
resolve back ("//" resolves to the root itself), and the child reported as "." resolves to
the root. On `emptyNameTree`: the empty path resolves to a directory whose child "x" is not
found by "/x". -/
theorem C9_counterexample :
    (resolved 128 sampleTree [] ['.'] = some ([], 0, true) ∧
     (_FST_dirnext_r 128 ⟨sampleTree, 0, true⟩ zeroBuffer Stat.zero).name 128 = ['0'] ∧
     resolved 128 sampleTree [] "./0".toList = none) ∧
    (resolved 128 sampleTree [] ['/'] = some ([], 0, true) ∧
     (_FST_dirnext_r 128 ⟨sampleTree, 2, true⟩ zeroBuffer Stat.zero).name 128 = ['A'] ∧
     (_FST_dirnext_r 128 ⟨sampleTree, 2, true⟩ zeroBuffer Stat.zero).st.st_size = 2 ∧
     resolved 128 sampleTree [] "//A".toList = some ([1], 1, false)) ∧
    (resolved 128 oddTree [] ['/'] = some ([], 0, true) ∧
     (_FST_dirnext_r 128 ⟨oddTree, 0, true⟩ zeroBuffer Stat.zero).name 128 = "a:b".toList ∧
     resolved 128 oddTree [] "//a:b".toList = none ∧
     (_FST_dirnext_r 128 ⟨oddTree, 1, true⟩ zeroBuffer Stat.zero).name 128 = "c/d".toList ∧
     resolved 128 oddTree [] "//c/d".toList = none ∧
     (_FST_dirnext_r 128 ⟨oddTree, 2, true⟩ zeroBuffer Stat.zero).name 128 = ['.'] ∧
     resolved 128 oddTree [] "//.".toList = some ([], 0, true) ∧
     (_FST_dirnext_r 128 ⟨oddTree, 3, true⟩ zeroBuffer Stat.zero).name 128 = [] ∧
     resolved 128 oddTree [] "//".toList = some ([], 0, true)) ∧
    (resolved 128 emptyNameTree [] [] = some ([0], 0, true) ∧
     (_FST_dirnext_r 128 ⟨.mk [] 0 0 0 1 [ .mk ['x'] 0 0 5 0 [] ], 0, true⟩ zeroBuffer
       Stat.zero).name 128 = ['x'] ∧
     resolved 128 emptyNameTree [] "/x".toList = none) := by
  refine ⟨?_, ?_, ?_, ?_⟩ <;> decide

/-- C9 (amended): let path `p` resolve to a directory `d`, its part after the drive prefix
being non-empty and not a lone "." after leading separators, and let `c` be the `i`-th child
of `d`, whose name is shorter than `FST_MAXPATHLEN - 1` characters or is copied into a buffer
that holds NUL at index `FST_MAXPATHLEN - 1`, and whose first `FST_MAXPATHLEN - 1`
characters are non-empty, contain no '/', contain no ':' unless `p` has a drive prefix, are
not "." when `d` is the root, and differ, up to letter case, from those of the earlier
children of `d`. Then `_FST_dirnext_r` at index `i` succeeds, the name read from the buffer
is those characters, and that name, appended to `p` after a separator, resolves via
`entry_from_path` to `c` itself, whose size and type are the ones reported. -/
theorem C9_directory_round_trip (M : Nat) (root : DIR_ENTRY) (current : Ptr) (p : List Char)
    (dptr : Ptr) (d c : DIR_ENTRY) (i : Nat) (filename : Nat → Option Char) (st : Stat)
    (n : Nat)
    (hres : entry_from_path M root current p = some (dptr, d)) (hdir : is_dir d = true)
    (hp1 : afterDrive p ≠ []) (hp2 : skipSeparators (afterDrive p) ≠ ['.'])
    (hc : d.children[i]? = some c)
    (hbuf : c.name.length < M - 1 ∨ filename (M - 1) = none) (hn : M - 1 ≤ n)
    (hn0 : c.name.take (M - 1) ≠ [])
    (hn1 : DIR_SEPARATOR ∉ c.name.take (M - 1))
    (hn2 : ':' ∈ p ∨ ':' ∉ c.name.take (M - 1))
    (hn3 : dptr = [] → c.name.take (M - 1) ≠ ['.'])
    (hfirst : ∀ j e, j < i → d.children[j]? = some e →
      (e.name.take (M - 1)).map tolower ≠ (c.name.take (M - 1)).map tolower) :
    (_FST_dirnext_r M ⟨d, i, true⟩ filename st).ret = 0 ∧
    (_FST_dirnext_r M ⟨d, i, true⟩ filename st).state = ⟨d, i + 1, true⟩ ∧
    (_FST_dirnext_r M ⟨d, i, true⟩ filename st).name n = c.name.take (M - 1) ∧
    entry_from_path M root current
      (p ++ DIR_SEPARATOR :: (_FST_dirnext_r M ⟨d, i, true⟩ filename st).name n)
        = some (dptr ++ [i], c) ∧
    (_FST_dirnext_r M ⟨d, i, true⟩ filename st).st = stat_entry c := by
  have hname := dirnext_name M d c i filename st n hc hbuf hn
  rw [hname]
  rw [dirnext_at M d c i filename st hc]
  refine ⟨rfl, rfl, rfl, ?_, rfl⟩
  rw [entry_from_path_extend M root current p _ dptr d hres hdir hp1 hp2 hn0 hn1 hn2 hn3,
    walk_lookup M dptr d c i hc hn0 hn1 hfirst]
  rfl

theorem C9_directory_round_trip_witness :
    (entry_from_path 128 sampleTree [] ("fst:/0".toList ++ DIR_SEPARATOR ::
        (_FST_dirnext_r 128 ⟨partitionDir, 1, true⟩ (fun _ => some 'z') Stat.zero).name 128)
      = some ([0, 1], sysDir) ∧
    (_FST_dirnext_r 128 ⟨partitionDir, 1, true⟩ (fun _ => some 'z') Stat.zero).st
      = stat_entry sysDir) ∧
    ((_FST_dirnext_r 128 ⟨oddTree, 0, true⟩ (fun _ => some 'z') Stat.zero).name 128
      = "a:b".toList ∧
    (entry_from_path 128 oddTree [] ("fst:/".toList ++ DIR_SEPARATOR ::
        (_FST_dirnext_r 128 ⟨oddTree, 0, true⟩ (fun _ => some 'z') Stat.zero).name 128)).map
      (fun x => (x.1, x.2.name, x.2.size)) = some ([0], "a:b".toList, 1)) :=
  have h := C9_directory_round_trip 128 sampleTree [] "fst:/0".toList [0] partitionDir sysDir 1
    (fun _ => some 'z') Stat.zero 128 (by rfl) (by decide) (by decide) (by decide) (by rfl)
    (Or.inl (by decide)) (by decide) (by decide) (by decide) (Or.inl (by decide))
    (by decide)
    (by
      intro j e hj he
      have hj0 : j = 0 := by omega
      subst hj0
      have he2 : e = .mk "A.TXT".toList 0 0x10 100 0 [] := by
        simp [partitionDir, DIR_ENTRY.children] at he
        exact he.symm
      subst he2
      decide)
  have h2 := C9_directory_round_trip 128 oddTree [] "fst:/".toList [] oddTree
    (.mk "a:b".toList 0 0 1 0 []) 0 (fun _ => some 'z') Stat.zero 128 (by rfl) (by decide)
    (by decide) (by decide) (by rfl) (Or.inl (by decide)) (by decide) (by decide) (by decide)
    (Or.inl (by decide)) (by decide)
    (by
      intro j e hj _
      omega)
  ⟨⟨h.2.2.2.1, h.2.2.2.2⟩, h2.2.2.1, by rw [h2.2.2.2.1]; rfl⟩

/-! ## The file-system-table parser -/

theorem toS32_natCast (n : Nat) (h : n < 2 ^ 31) : toS32 (n : Int) = n := by
  unfold toS32
  omega

theorem range_split (s m n t : Nat) (h : t = s + m) :
    List.range' s (m + n) = List.range' s m ++ List.range' t n := by
  subst h
  rw [List.range'_append_1, Nat.add_comm]

theorem isTopLevel_self (fst : Int → FST_ENTRY) (lo : Nat) : isTopLevel fst lo lo = true := by
  unfold isTopLevel
  simp

theorem topLevel_self (fst : Int → FST_ENTRY) (hi : Nat) : topLevel fst hi hi = [] := by
  unfold topLevel
  simp

theorem mem_topLevel {fst : Int → FST_ENTRY} {lo hi c : Nat} (h : c ∈ topLevel fst lo hi) :
    lo ≤ c ∧ c < hi := by
  unfold topLevel at h
  rw [List.mem_filter, List.mem_range'_1] at h
  omega

/-- The top-level entries of a range start with its first entry and continue after all that
is nested in it. -/
theorem topLevel_cons (fst : Int → FST_ENTRY) (lo hi : Nat) (h1 : lo < fstNext fst lo)
    (h2 : fstNext fst lo ≤ hi)
    (h3 : ∀ k, lo < k → k < fstNext fst lo → fstDir fst k = true →
      fstEnd fst k ≤ fstNext fst lo) :
    topLevel fst lo hi = lo :: topLevel fst (fstNext fst lo) hi := by
  have hsplit : List.range' lo (hi - lo) =
      lo :: (List.range' (lo + 1) (fstNext fst lo - lo - 1) ++
        List.range' (fstNext fst lo) (hi - fstNext fst lo)) := by
    have e1 : hi - lo = (fstNext fst lo - lo - 1 + (hi - fstNext fst lo)) + 1 := by omega
    rw [e1, List.range'_succ, range_split (lo + 1) _ _ (fstNext fst lo) (by omega)]
  unfold topLevel
  rw [hsplit, List.filter_cons, isTopLevel_self, if_pos rfl, List.filter_append]
  have hA : (List.range' (lo + 1) (fstNext fst lo - lo - 1)).filter (isTopLevel fst lo) = [] := by
    rw [List.filter_eq_nil_iff]
    intro j hj
    rw [List.mem_range'_1] at hj
    have hdir : fstDir fst lo = true := by
      by_contra hnd
      unfold fstNext at hj
      simp only [hnd] at hj
      simp at hj
      omega
    unfold isTopLevel
    simp only [List.all_eq_true, not_forall]
    refine ⟨lo, ?_, ?_⟩
    · rw [List.mem_range'_1]
      omega
    · have : fstEnd fst lo = fstNext fst lo := by
        unfold fstNext
        rw [if_pos hdir]
      simp only [hdir, Bool.not_true, Bool.false_or, decide_eq_true_eq]
      omega
  have hB : (List.range' (fstNext fst lo) (hi - fstNext fst lo)).filter (isTopLevel fst lo)
      = (List.range' (fstNext fst lo) (hi - fstNext fst lo)).filter
          (isTopLevel fst (fstNext fst lo)) := by
    apply List.filter_congr
    intro j hj
    rw [List.mem_range'_1] at hj
    unfold isTopLevel
    have hr : List.range' lo (j - lo) = List.range' lo (fstNext fst lo - lo) ++
        List.range' (fstNext fst lo) (j - fstNext fst lo) := by
      have e1 : j - lo = (fstNext fst lo - lo) + (j - fstNext fst lo) := by omega
      rw [e1, range_split lo _ _ (fstNext fst lo) (by omega)]
    rw [hr, List.all_append]
    have hfirst : (List.range' lo (fstNext fst lo - lo)).all
        (fun k => !fstDir fst k || decide (fstEnd fst k ≤ j)) = true := by
      rw [List.all_eq_true]
      intro k hk
      rw [List.mem_range'_1] at hk
      cases hd : fstDir fst k with
      | false => simp
      | true =>
        simp only [Bool.not_true, Bool.false_or, decide_eq_true_eq]
        by_cases hkl : k = lo
        · subst hkl
          have : fstEnd fst k = fstNext fst k := by
            unfold fstNext
            rw [if_pos hd]
          omega
        · have := h3 k (by omega) (by omega) hd
          omega
    rw [hfirst, Bool.true_and]
  rw [hA, hB, List.nil_append]



theorem wf_dir_end {M N : Nat} {fst : Int → FST_ENTRY} {names : Nat → List Char}
    (hwf : WellFormed M fst names N) (i : Nat) (hi : i < N) (hd : fstDir fst i = true) :
    i < fstEnd fst i ∧ fstEnd fst i ≤ N := by
  by_cases h0 : i = 0
  · subst h0
    rw [hwf.root_len]
    exact ⟨hwf.pos, le_refl _⟩
  · have := hwf.nested 0 i hwf.pos hwf.root_dir (by omega) (by rw [hwf.root_len]; exact hi) hd
    rw [hwf.root_len] at this
    exact this

theorem wf_next {M N : Nat} {fst : Int → FST_ENTRY} {names : Nat → List Char}
    (hwf : WellFormed M fst names N) (i : Nat) (hi : i < N) :
    i < fstNext fst i ∧ fstNext fst i ≤ N := by
  unfold fstNext
  cases hd : fstDir fst i with
  | true => simpa using wf_dir_end hwf i hi hd
  | false =>
    simp
    omega

theorem wf_next_in {M N : Nat} {fst : Int → FST_ENTRY} {names : Nat → List Char}
    (hwf : WellFormed M fst names N) (k i : Nat) (hk : k < N) (hkd : fstDir fst k = true)
    (h1 : k < i) (h2 : i < fstEnd fst k) :
    i < fstNext fst i ∧ fstNext fst i ≤ fstEnd fst k := by
  unfold fstNext
  cases hd : fstDir fst i with
  | true => simpa using hwf.nested k i hk hkd h1 h2 hd
  | false =>
    simp
    omega

theorem wf_inner {M N : Nat} {fst : Int → FST_ENTRY} {names : Nat → List Char}
    (hwf : WellFormed M fst names N) (lo : Nat) (hlo : lo < N) :
    ∀ k, lo < k → k < fstNext fst lo → fstDir fst k = true → fstEnd fst k ≤ fstNext fst lo := by
  intro k h1 h2 hd
  unfold fstNext at h2 ⊢
  cases hl : fstDir fst lo with
  | true =>
    rw [hl] at h2
    simp only [if_true] at h2 ⊢
    exact (hwf.nested lo k hlo hl h1 h2 hd).2
  | false =>
    rw [hl] at h2
    simp at h2
    omega

/-- Beyond the span of an entry, more depth does not change the tree it describes. -/
theorem specEntry_fuel {M N : Nat} {fst : Int → FST_ENTRY} {names : Nat → List Char}
    (hwf : WellFormed M fst names N) (part : Nat) :
    ∀ (d1 d2 i : Nat), i < N → fstNext fst i - i ≤ d1 → fstNext fst i - i ≤ d2 →
      specEntry fst names part d1 i = specEntry fst names part d2 i := by
  intro d1
  induction d1 with
  | zero =>
    intro d2 i hi h1 _
    have := wf_next hwf i hi
    omega
  | succ d1 ih =>
    intro d2 i hi h1 h2
    cases d2 with
    | zero =>
      have := wf_next hwf i hi
      omega
    | succ d2 =>
      unfold specEntry
      cases hd : fstDir fst i with
      | false => rfl
      | true =>
        simp only [if_true]
        congr 1
        apply List.map_congr_left
        intro c hc
        have hc2 := mem_topLevel hc
        have hend := wf_dir_end hwf i hi hd
        have hn := wf_next_in hwf i c hi hd (by omega) hc2.2
        have hni : fstNext fst i = fstEnd fst i := by
          unfold fstNext
          rw [if_pos hd]
        exact ih d2 c (by omega) (by omega) (by omega)

theorem name_offset_mask (a b : Nat) : (a * 2 ^ 24 + b) % 2 ^ 24 = b % 2 ^ 24 := by
  omega

theorem withChildren_append_nil (e : DIR_ENTRY) : e.withChildren (e.children ++ []) = e := by
  cases e
  simp [DIR_ENTRY.withChildren, DIR_ENTRY.children]

theorem appendChild_withChildren (e c : DIR_ENTRY) (cs : List DIR_ENTRY) :
    (e.appendChild c).withChildren ((e.appendChild c).children ++ cs)
      = e.withChildren (e.children ++ c :: cs) := by
  cases e
  simp [DIR_ENTRY.appendChild, DIR_ENTRY.withChildren, DIR_ENTRY.children]

theorem appendChild_partition (e c : DIR_ENTRY) : (e.appendChild c).partition = e.partition := by
  cases e
  rfl

/-- The loop of `read_fst` over the rest `[lo, e)` of a directory ending at `e`, given that
the recursive call handles every entry of the range from `b` on. -/
theorem read_fst_loop_ok (fst : Int → FST_ENTRY) (part : Nat) (b e : Nat) (he : e < 2 ^ 31)
    (rec : DIR_ENTRY → Int → Option (Int × DIR_ENTRY)) (spec : Nat → DIR_ENTRY)
    (hrec : ∀ (c : Nat) (p : DIR_ENTRY), b ≤ c → c < e → p.partition = part →
      rec p (c : Int) = some (((fstNext fst c : Nat) : Int), p.appendChild (spec c)))
    (hnext : ∀ c, b ≤ c → c < e → c < fstNext fst c ∧ fstNext fst c ≤ e)
    (hinner : ∀ c, b ≤ c → c < e → ∀ k, c < k → k < fstNext fst c → fstDir fst k = true →
      fstEnd fst k ≤ fstNext fst c) :
    ∀ (n lo : Nat) (entry : DIR_ENTRY), b ≤ lo → lo ≤ e → e - lo ≤ n → entry.partition = part →
      read_fst_loop rec e n entry (lo : Int) =
        some (((e : Nat) : Int),
          entry.withChildren (entry.children ++ (topLevel fst lo e).map spec)) := by
  intro n
  induction n with
  | zero =>
    intro lo entry _ h1 h2 _
    have hlo : lo = e := by omega
    subst hlo
    unfold read_fst_loop
    rw [toU32_natCast lo (by omega), if_neg (by omega), toS32_natCast lo he, topLevel_self,
      List.map_nil, withChildren_append_nil]
  | succ n ih =>
    intro lo entry hb h1 h2 hp
    unfold read_fst_loop
    rw [toU32_natCast lo (by omega)]
    by_cases hlt : lo < e
    · rw [if_pos hlt]
      simp only []
      rw [hrec lo entry hb hlt hp]
      simp only []
      have hn := hnext lo hb hlt
      rw [if_neg (by omega)]
      rw [ih (fstNext fst lo) _ (by omega) hn.2 (by omega)
        (by rw [appendChild_partition]; exact hp)]
      rw [appendChild_withChildren, topLevel_cons fst lo e hn.1 hn.2 (hinner lo hb hlt)]
      rfl
    · have hlo : lo = e := by omega
      subst hlo
      rw [if_neg (by omega), toS32_natCast lo he, topLevel_self, List.map_nil,
        withChildren_append_nil]

theorem specEntry_file {M N : Nat} {fst : Int → FST_ENTRY} {names : Nat → List Char}
    (hwf : WellFormed M fst names N) (part i : Nat) (hd : fstDir fst i = false) :
    specEntry fst names part N i =
      .mk (fstName fst names i) part (fst i).fileoffset (fst i).filelen (fst i).filetype [] := by
  have hN := hwf.pos
  cases N with
  | zero => omega
  | succ N =>
    unfold specEntry
    rw [hd]
    rfl

theorem specEntry_dir {M N : Nat} {fst : Int → FST_ENTRY} {names : Nat → List Char}
    (hwf : WellFormed M fst names N) (part i : Nat) (hi : i < N) (h0 : 0 < i)
    (hd : fstDir fst i = true) :
    specEntry fst names part N i =
      .mk (fstName fst names i) part i 0 (fst i).filetype
        ((topLevel fst (i + 1) (fstEnd fst i)).map (specEntry fst names part N)) := by
  have hN := hwf.pos
  cases N with
  | zero => omega
  | succ N =>
    rw [specEntry, if_pos hd]
    congr 1
    apply List.map_congr_left
    intro c hc
    have hc2 := mem_topLevel hc
    have hend := wf_dir_end hwf i hi hd
    have hn := wf_next_in hwf i c hi hd (by omega) hc2.2
    exact specEntry_fuel hwf part N (N + 1) c (by omega) (by omega) (by omega)




theorem toS32_succ (i : Nat) (h : i + 1 < 2 ^ 31) : toS32 ((i : Int) + 1) = ((i + 1 : Nat) : Int) := by
  unfold toS32
  omega

theorem read_fst_entry {M N : Nat} {fst : Int → FST_ENTRY} {names : Nat → List Char}
    (hwf : WellFormed M fst names N) (part : Nat) :
    ∀ (f i : Nat) (parent : DIR_ENTRY), 0 < i → i < N → fstNext fst i - i ≤ f →
      parent.partition = part →
      read_fst M fst names f parent (i : Int) =
        some (((fstNext fst i : Nat) : Int),
          parent.appendChild (specEntry fst names part N i)) := by
  intro f
  induction f with
  | zero =>
    intro i parent _ hi h _
    have := wf_next hwf i hi
    omega
  | succ f ih =>
    intro i parent h0 hi hf hp
    have hname : (fstName fst names i).length < M := hwf.names i h0 hi
    have hN := hwf.small
    rw [read_fst]
    simp only []
    have hpos : (i : Int) > 0 := by omega
    rw [if_pos hpos, name_offset_mask]
    have hname2 : ¬ (names ((fst (i : Int)).name_offset % 2 ^ 24)).length ≥ M := by
      unfold fstName at hname
      omega
    rw [if_neg hname2]
    have hsucc : toS32 ((i : Int) + 1) = ((i + 1 : Nat) : Int) := toS32_succ i (by omega)
    rw [hsucc]
    cases hd : fstDir fst i with
    | false =>
      have hcond : ¬ (fst (i : Int)).filetype % 2 = 1 := by
        unfold fstDir at hd
        simpa using hd
      rw [if_neg hcond]
      simp only []
      have hnx : fstNext fst i = i + 1 := by
        unfold fstNext
        rw [hd]
        rfl
      rw [hnx, specEntry_file hwf part i hd]
      simp only [add_child_entry, DIR_ENTRY.withFlags, DIR_ENTRY.withOffset, DIR_ENTRY.withSize,
        fstName, hp]
    | true =>
      have hcond : (fst (i : Int)).filetype % 2 = 1 := by
        unfold fstDir at hd
        simpa using hd
      rw [if_pos hcond]
      have hend := wf_dir_end hwf i hi hd
      have hnx : fstNext fst i = fstEnd fst i := by
        unfold fstNext
        rw [hd]
        rfl
      have hloop := read_fst_loop_ok fst part (i + 1) (fstEnd fst i) (by omega)
        (fun e j => read_fst M fst names f e j) (specEntry fst names part N)
        (fun c p hb hc hpp => by
          have hn := wf_next_in hwf i c hi hd (by omega) hc
          exact ih c p (by omega) (by omega) (by omega) hpp)
        (fun c hb hc => wf_next_in hwf i c hi hd (by omega) hc)
        (fun c hb hc => wf_inner hwf c (by omega))
        f (i + 1)
        (((add_child_entry parent (names ((fst (i : Int)).name_offset % 2 ^ 24))).withFlags
          (fst (i : Int)).filetype).withOffset (toU32 (i : Int)))
        (le_refl _) (by omega) (by omega)
        (by simpa only [add_child_entry, DIR_ENTRY.withFlags, DIR_ENTRY.withOffset,
              DIR_ENTRY.partition] using hp)
      have hfe : (fst (i : Int)).filelen = fstEnd fst i := rfl
      rw [hfe, hloop]
      simp only []
      rw [hnx, specEntry_dir hwf part i hi h0 hd, toU32_natCast i (by omega)]
      simp only [add_child_entry, DIR_ENTRY.withFlags, DIR_ENTRY.withOffset,
        DIR_ENTRY.withChildren, DIR_ENTRY.children, fstName, hp, List.nil_append]



/-- The pre-order traversal of the trees described for the rest `[lo, e)` of a directory
lists the table entries of the range in index order. -/
theorem preorder_spec {M N : Nat} {fst : Int → FST_ENTRY} {names : Nat → List Char}
    (hwf : WellFormed M fst names N) (part : Nat) :
    ∀ (s k lo : Nat), k < N → fstDir fst k = true → k < lo → lo ≤ fstEnd fst k →
      fstEnd fst k - lo ≤ s →
      preorderList ((topLevel fst lo (fstEnd fst k)).map (specEntry fst names part N))
        = (List.range' lo (fstEnd fst k - lo)).map (fstInfo fst names) := by
  intro s
  induction s with
  | zero =>
    intro k lo _ _ _ h1 h2
    have hlo : lo = fstEnd fst k := by omega
    rw [← hlo, topLevel_self]
    simp [preorderList]
  | succ s ih =>
    intro k lo hk hkd hkl h1 h2
    by_cases hlt : lo < fstEnd fst k
    · have hkend := wf_dir_end hwf k hk hkd
      have hn := wf_next_in hwf k lo hk hkd hkl hlt
      rw [topLevel_cons fst lo _ hn.1 hn.2 (wf_inner hwf lo (by omega)), List.map_cons,
        preorderList]
      have hrest : fstEnd fst k - lo
          = (fstNext fst lo - lo - 1 + (fstEnd fst k - fstNext fst lo)) + 1 := by omega
      rw [hrest, List.range'_succ, range_split (lo + 1) _ _ (fstNext fst lo) (by omega),
        List.map_cons, List.map_append,
        ih k (fstNext fst lo) hk hkd (by omega) hn.2 (by omega)]
      cases hd : fstDir fst lo with
      | false =>
        have hnx : fstNext fst lo = lo + 1 := by
          unfold fstNext
          rw [hd]
          rfl
        rw [specEntry_file hwf part lo hd, preorder, hnx]
        simp [preorderList, fstInfo, hd]
      | true =>
        have hnx : fstNext fst lo = fstEnd fst lo := by
          unfold fstNext
          rw [hd]
          rfl
        rw [specEntry_dir hwf part lo (by omega) (by omega) hd, preorder,
          ih lo (lo + 1) (by omega) hd (by omega) (by omega) (by omega), hnx]
        have e2 : fstEnd fst lo - (lo + 1) = fstEnd fst lo - lo - 1 := by omega
        rw [e2]
        simp [fstInfo, hd]
    · have hlo : lo = fstEnd fst k := by omega
      rw [← hlo, topLevel_self]
      simp [preorderList]

/-- C3: on a well-formed table of `N` entries `read_fst`, started at index 0 with enough
fuel, returns `N` and appends to the children of the root the trees the table describes:
each entry carries the name at its 24-bit name-table offset and the flags of its type byte,
a file records `fileoffset` and `filelen`, a directory records its own index, and the
children of a directory are, in index order, the entries of its range not nested in a deeper
directory. The pre-order traversal of what is built lists entries `1 .. N-1` in index
order, so exactly `N - 1` entries are built. -/
theorem C3_read_fst_builds_tree (M N : Nat) (fst : Int → FST_ENTRY) (names : Nat → List Char)
    (root : DIR_ENTRY) (hwf : WellFormed M fst names N) :
    (∀ fuel, N ≤ fuel →
      read_fst M fst names fuel root 0 = some ((N : Int),
        (root.withOffset 0).withChildren (root.children ++
          (topLevel fst 1 N).map (specEntry fst names root.partition N)))) ∧
    preorderList ((topLevel fst 1 N).map (specEntry fst names root.partition N))
      = (List.range' 1 (N - 1)).map (fstInfo fst names) ∧
    (preorderList ((topLevel fst 1 N).map (specEntry fst names root.partition N))).length
      = N - 1 := by
  have hN := hwf.small
  have hpos := hwf.pos
  have hpre : preorderList ((topLevel fst 1 N).map (specEntry fst names root.partition N))
      = (List.range' 1 (N - 1)).map (fstInfo fst names) := by
    have := preorder_spec hwf root.partition N 0 1 hpos hwf.root_dir (by omega)
      (by rw [hwf.root_len]; omega) (by rw [hwf.root_len]; omega)
    rw [hwf.root_len] at this
    exact this
  refine ⟨?_, hpre, ?_⟩
  · intro fuel hfuel
    cases fuel with
    | zero => omega
    | succ f =>
      have hcond : (fst 0).filetype % 2 = 1 := by
        have := hwf.root_dir
        unfold fstDir at this
        simpa using this
      have hlen : (fst 0).filelen = N := hwf.root_len
      rw [read_fst]
      simp only []
      rw [if_neg (by omega), if_pos hcond, hlen]
      have h1 : toS32 ((0 : Int) + 1) = ((1 : Nat) : Int) := by decide
      have h0 : toU32 (0 : Int) = 0 := by decide
      rw [h1, h0]
      have hloop := read_fst_loop_ok fst root.partition 1 N hN
        (fun e j => read_fst M fst names f e j) (specEntry fst names root.partition N)
        (fun c p hb hc hpp => by
          have hn := wf_next hwf c hc
          exact read_fst_entry hwf root.partition f c p (by omega) hc (by omega) hpp)
        (fun c hb hc => wf_next hwf c hc)
        (fun c hb hc => wf_inner hwf c hc)
        f 1 (root.withOffset 0) (le_refl _) (by omega) (by omega)
        (by cases root; rfl)
      rw [hloop]
      congr 2
      cases root
      rfl
  · rw [hpre]
    simp



theorem sampleFst_wellFormed : WellFormed 128 sampleFst sampleNames 5 where
  root_dir := by decide
  root_len := by decide
  pos := by decide
  small := by decide
  names := by
    intro i h0 h5
    interval_cases i <;> decide
  nested := by
    intro k i hk hkd hki hie hid
    interval_cases k
    · have he : fstEnd sampleFst 0 = 5 := by decide
      rw [he] at hie ⊢
      interval_cases i <;> first | exact absurd hid (by decide) | decide
    · exact absurd hkd (by decide)
    · have he : fstEnd sampleFst 2 = 5 := by decide
      rw [he] at hie ⊢
      interval_cases i <;> exact absurd hid (by decide)
    · exact absurd hkd (by decide)
    · exact absurd hkd (by decide)

theorem C3_read_fst_builds_tree_witness :
    WellFormed 128 sampleFst sampleNames 5 ∧
    read_fst 128 sampleFst sampleNames 5 emptyRoot 0 = some (((5 : Nat) : Int),
      (emptyRoot.withOffset 0).withChildren (emptyRoot.children ++
        (topLevel sampleFst 1 5).map (specEntry sampleFst sampleNames emptyRoot.partition 5))) ∧
    preorderList ((topLevel sampleFst 1 5).map
        (specEntry sampleFst sampleNames emptyRoot.partition 5))
      = (List.range' 1 (5 - 1)).map (fstInfo sampleFst sampleNames) :=
  ⟨sampleFst_wellFormed,
    (C3_read_fst_builds_tree 128 5 sampleFst sampleNames emptyRoot sampleFst_wellFormed).1 5
      (le_refl 5),
    (C3_read_fst_builds_tree 128 5 sampleFst sampleNames emptyRoot sampleFst_wellFormed).2.1⟩

/-- A loop of `read_fst` whose range contains the malformed entry never ends, provided the
recursive call, on an index up to `i`, returns an index up to `i` or nothing. -/
theorem read_fst_loop_stuck (N i : Nat) (hN : N < 2 ^ 31)
    (rec : DIR_ENTRY → Int → Option (Int × DIR_ENTRY))
    (hrec : ∀ (c : Nat) (p : DIR_ENTRY), c < N → rec p (c : Int) = none ∨
      ∃ (r : Nat) (q : DIR_ENTRY), rec p (c : Int) = some ((r : Int), q) ∧ r ≤ N ∧
        (c ≤ i → r ≤ i)) :
    ∀ (n e lo : Nat) (entry : DIR_ENTRY), e ≤ N → lo ≤ N →
      read_fst_loop rec e n entry (lo : Int) = none ∨
      ((∃ q, read_fst_loop rec e n entry (lo : Int) = some ((e : Int), q)) ∧
        ¬ (lo ≤ i ∧ i < e)) := by
  intro n
  induction n with
  | zero =>
    intro e lo entry he hlo
    unfold read_fst_loop
    rw [toU32_natCast lo (by omega)]
    by_cases hlt : lo < e
    · left
      rw [if_pos hlt]
    · right
      rw [if_neg hlt, toS32_natCast e (by omega)]
      exact ⟨⟨entry, rfl⟩, by omega⟩
  | succ n ih =>
    intro e lo entry he hlo
    unfold read_fst_loop
    rw [toU32_natCast lo (by omega)]
    by_cases hlt : lo < e
    · rw [if_pos hlt]
      simp only []
      rcases hrec lo entry (by omega) with h | ⟨r, q, h, hr, hri⟩
      · left
        rw [h]
      · rw [h]
        simp only []
        rw [if_neg (by omega)]
        rcases ih e r q he hr with h2 | ⟨h2, h3⟩
        · left
          exact h2
        · right
          exact ⟨h2, fun hc => h3 ⟨hri hc.1, hc.2⟩⟩
    · right
      rw [if_neg hlt, toS32_natCast e (by omega)]
      exact ⟨⟨entry, rfl⟩, by omega⟩

/-- On a table with a non-advancing end index at `i`, a call of `read_fst` on an index up to
`i` returns an index up to `i` or nothing; started at index 0 it returns nothing. -/
theorem read_fst_stuck {M N i : Nat} {fst : Int → FST_ENTRY} {names : Nat → List Char}
    (h : Malformed M fst names N i) :
    ∀ (f c : Nat) (p : DIR_ENTRY), c < N →
      read_fst M fst names f p (c : Int) = none ∨
      (0 < c ∧ ∃ (r : Nat) (q : DIR_ENTRY),
        read_fst M fst names f p (c : Int) = some ((r : Int), q) ∧ r ≤ N ∧ (c ≤ i → r ≤ i)) := by
  intro f
  induction f with
  | zero =>
    intro c p _
    left
    rfl
  | succ f ih =>
    intro c p hc
    have hN := h.small
    have hloop := read_fst_loop_stuck N i hN (fun e j => read_fst M fst names f e j)
      (fun c p hc => by
        rcases ih c p hc with h1 | ⟨_, h2⟩
        · exact Or.inl h1
        · exact Or.inr h2) f
    rw [read_fst]
    simp only []
    by_cases hc0 : c = 0
    · subst hc0
      left
      have hcond : (fst ((0 : Nat) : Int)).filetype % 2 = 1 := by
        have := h.root_dir
        unfold fstDir at this
        simpa using this
      have hlen : (fst ((0 : Nat) : Int)).filelen = N := h.root_len
      rw [if_neg (by omega), if_pos hcond, hlen]
      have h1 : toS32 (((0 : Nat) : Int) + 1) = ((1 : Nat) : Int) := by decide
      rw [h1]
      rcases hloop N 1 (p.withOffset (toU32 ((0 : Nat) : Int))) (le_refl _)
        (by have := h.inside; omega) with h2 | ⟨_, h3⟩
      · exact h2
      · exact absurd ⟨h.pos, h.inside⟩ h3
    · have hpos : 0 < c := by omega
      have hname := h.names c hpos hc
      have hname2 : ¬ (names ((fst (c : Int)).name_offset % 2 ^ 24)).length ≥ M := by
        unfold fstName at hname
        omega
      rw [if_pos (by omega), name_offset_mask, if_neg hname2,
        toS32_succ c (by omega)]
      cases hd : fstDir fst c with
      | false =>
        have hcond : ¬ (fst (c : Int)).filetype % 2 = 1 := by
          unfold fstDir at hd
          simpa using hd
        rw [if_neg hcond]
        right
        refine ⟨hpos, c + 1, _, rfl, by omega, ?_⟩
        intro hci
        have hne : c ≠ i := by
          intro hci2
          rw [hci2, h.is_dir] at hd
          cases hd
        omega
      | true =>
        have hcond : (fst (c : Int)).filetype % 2 = 1 := by
          unfold fstDir at hd
          simpa using hd
        rw [if_pos hcond]
        have hfe : (fst (c : Int)).filelen = fstEnd fst c := rfl
        rw [hfe]
        rcases hloop (fstEnd fst c) (c + 1)
          (((add_child_entry p (names ((fst (c : Int)).name_offset % 2 ^ 24))).withFlags
            (fst (c : Int)).filetype).withOffset (toU32 (c : Int)))
          (h.ends c hc hd) (by omega) with h2 | ⟨⟨q, h2⟩, h3⟩
        · left
          rw [h2]
        · right
          rw [h2]
          refine ⟨hpos, fstEnd fst c, _, rfl, h.ends c hc hd, ?_⟩
          intro hci
          by_cases hci2 : c = i
          · rw [hci2]
            exact h.stuck
          · omega



theorem malformedFst_malformed : Malformed 128 malformedFst sampleNames 3 1 where
  root_dir := by decide
  root_len := by decide
  small := by decide
  names := by
    intro j h0 h3
    interval_cases j <;> decide
  ends := by
    intro j hj hd
    interval_cases j
    · decide
    · decide
    · exact absurd hd (by decide)
  pos := by decide
  inside := by decide
  is_dir := by decide
  stuck := by decide

/-- With allocations that never fail, on the table (root of 3 entries; directory at index 1
with end index 1; file at index 2) no amount of fuel makes `read_fst` return -1. -/
theorem read_fst_unbounded_heap_sample :
    Malformed 128 malformedFst sampleNames 3 1 ∧
    ¬ ∃ fuel e, read_fst 128 malformedFst sampleNames fuel emptyRoot 0 = some (-1, e) := by
  refine ⟨malformedFst_malformed, ?_⟩
  rintro ⟨fuel, e, h⟩
  rcases read_fst_stuck malformedFst_malformed fuel 0 emptyRoot (by decide) with h1 | ⟨h2, _⟩
  · have h3 : read_fst 128 malformedFst sampleNames fuel emptyRoot 0 = none := h1
    rw [h3] at h
    cases h
  · exact absurd h2 (by decide)

/-- `read_fst` does not check index progression: if no allocation ever failed, then on a
table whose entry 0 is a directory of `N < 2 ^ 31` entries, whose names are shorter than
`FST_MAXPATHLEN` and whose directories end within the table, a directory entry at index
`0 < i < N` that stores an end index `filelen <= i` would make `read_fst`, started at index
0, return neither -1 nor any other value, whatever the fuel: the enclosing loop keeps
re-reading from index `filelen`. -/
theorem read_fst_unbounded_heap (M N i : Nat) (fst : Int → FST_ENTRY)
    (names : Nat → List Char) (h : Malformed M fst names N i) (fuel : Nat) (root : DIR_ENTRY) :
    read_fst M fst names fuel root 0 = none := by
  have hN : 0 < N := by
    have h1 := h.pos
    have h2 := h.inside
    omega
  rcases read_fst_stuck h fuel 0 root hN with h1 | ⟨h2, _⟩
  · exact h1
  · exact absurd h2 (by decide)

/-! ## Malformed index progression on a finite heap -/

theorem read_fst_loop_alloc_always (rec : DIR_ENTRY → Int → Option (Int × DIR_ENTRY))
    (recA : Nat → DIR_ENTRY → Int → Option (Int × DIR_ENTRY × Nat))
    (hrec : ∀ k e i, (recA k e i).map (fun x => (x.1, x.2.1)) = rec e i) (filelen : Nat) :
    ∀ (n k : Nat) (entry : DIR_ENTRY) (next : Int),
      (read_fst_loop_alloc recA filelen n k entry next).map (fun x => (x.1, x.2.1))
        = read_fst_loop rec filelen n entry next := by
  intro n
  induction n with
  | zero =>
    intro k entry next
    unfold read_fst_loop_alloc read_fst_loop
    split <;> rfl
  | succ n ih =>
    intro k entry next
    unfold read_fst_loop_alloc read_fst_loop
    split
    · simp only []
      have h := hrec k entry next
      cases hA : recA k entry next with
      | none =>
        rw [hA] at h
        rw [← h]
        rfl
      | some x =>
        obtain ⟨r, e, k1⟩ := x
        rw [hA] at h
        rw [← h]
        simp only [Option.map_some']
        split
        · rfl
        · exact ih k1 e r
    · rfl

/-- When every allocation succeeds, `read_fst_alloc` computes what `read_fst` does. -/
theorem read_fst_alloc_always (M : Nat) (fst : Int → FST_ENTRY) (names : Nat → List Char)
    (alloc : Nat → Bool) (halloc : ∀ j, alloc j = true) :
    ∀ (fuel k : Nat) (entry : DIR_ENTRY) (index : Int),
      (read_fst_alloc M fst names alloc fuel k entry index).map (fun x => (x.1, x.2.1))
        = read_fst M fst names fuel entry index := by
  intro fuel
  induction fuel with
  | zero =>
    intro k entry index
    rfl
  | succ fuel ih =>
    intro k entry index
    have hbody : ∀ (k : Nat) (c : DIR_ENTRY),
        (if (fst index).filetype % 2 = 1 then
          read_fst_loop_alloc (fun k e i => read_fst_alloc M fst names alloc fuel k e i)
            (fst index).filelen fuel k (c.withOffset (toU32 index)) (toS32 (index + 1))
        else
          some (toS32 (index + 1),
            (c.withOffset (fst index).fileoffset).withSize (fst index).filelen, k)).map
          (fun x => (x.1, x.2.1))
        = (if (fst index).filetype % 2 = 1 then
          read_fst_loop (fun e i => read_fst M fst names fuel e i) (fst index).filelen fuel
            (c.withOffset (toU32 index)) (toS32 (index + 1))
        else
          some (toS32 (index + 1),
            (c.withOffset (fst index).fileoffset).withSize (fst index).filelen)) := by
      intro k c
      split
      · exact read_fst_loop_alloc_always _ _ ih _ fuel k _ _
      · rfl
    rw [read_fst_alloc, read_fst]
    simp only []
    split
    · split
      · rfl
      · have ha : add_child_entry_alloc alloc k entry
            (names (((fst index).filetype * 2 ^ 24 + (fst index).name_offset) % 2 ^ 24))
            = (some (add_child_entry entry
                (names (((fst index).filetype * 2 ^ 24 + (fst index).name_offset) % 2 ^ 24))),
              entry, k + 2) := by
          unfold add_child_entry_alloc add_child_entry
          simp [halloc]
        rw [ha]
        simp only []
        have hb := hbody (k + 2) ((add_child_entry entry
          (names (((fst index).filetype * 2 ^ 24 + (fst index).name_offset) % 2 ^ 24))).withFlags
            (fst index).filetype)
        rw [← hb]
        split <;> rename_i hm <;> rw [hm] <;> rfl
    · exact hbody k entry

/-! ## Reading through a file handle -/

/-- C2 (as stated) fails: a read of 0x10000 bytes at offset 0 of an encrypted file of
0x10000 bytes succeeds with 0x7c00 bytes, the rest of the first cluster; on a raw file of
that size it succeeds with 0x8000 bytes, the size of the read buffer. -/
theorem C2_counterexample :
    ((_FST_read_r envZero onePartition ⟨bigFile, 0, true⟩ (fun _ => 0) 0x10000).ret = 0x7c00 ∧
      (_FST_read_r envZero onePartition ⟨bigFile, 0, true⟩ (fun _ => 0) 0x10000).ret
        ≠ min 0x10000 (bigFile.size - 0)) ∧
    ((_FST_read_r envZero onePartition ⟨rawFile, 0, true⟩ (fun _ => 0) 0x10000).ret = 0x8000 ∧
      (_FST_read_r envZero onePartition ⟨rawFile, 0, true⟩ (fun _ => 0) 0x10000).ret
        ≠ min 0x10000 (rawFile.size - 0)) := by
  decide



theorem toS32_toU32_neg_one : toS32 ((toU32 (-1) : Nat) : Int) = -1 := by decide

theorem toS32_toU32_small (n : Nat) (h : n < 2 ^ 31) : toS32 ((toU32 (n : Int) : Nat) : Int) = n := by
  rw [toU32_natCast n (by omega), toS32_natCast n h]

theorem ptc_mod_cluster (x : Nat) :
    plaintext_to_cipher x % ENCRYPTED_CLUSTER_SIZE = x % 0x7c00 + 0x400 := by
  have e : plaintext_to_cipher x = (x / 0x7c00 * 0x8000 + x % 0x7c00 + 0x400) % 2 ^ 64 := rfl
  have e2 : ENCRYPTED_CLUSTER_SIZE = 0x8000 := rfl
  rw [e, e2]
  omega

/-- C2 (amended): a successful read returns `min(l, s - o, c)` bytes, `c` being the number
of bytes up to the end of the current cluster (decrypted entry) or of the read buffer (raw
entry), and advances the handle by as much; for `o < s`, `l > 0`, `o + l < 2 ^ 32` and, for
a decrypted entry, `4 * entry.offset + o < 2 ^ 32`. -/
theorem C2_read_count (env : Env) (g : Globals) (file : FILE_STRUCT) (ptr : Mem) (len : Nat)
    (hin : file.inUse = true) (ho : file.offset < file.entry.size)
    (hs : file.entry.size < 2 ^ 32) (hl : 0 < len) (hlo : len + file.offset < 2 ^ 32)
    (hoff : is_raw file.entry = false → 4 * file.entry.offset + file.offset < 2 ^ 32)
    (hok : (_FST_read_r env g file ptr len).ret ≠ -1) :
    (_FST_read_r env g file ptr len).ret = (readCount g file len : Nat) ∧
    (_FST_read_r env g file ptr len).file.offset = file.offset + readCount g file len ∧
    0 < readCount g file len := by
  have hmod : (len + file.offset) % 2 ^ 32 = len + file.offset := Nat.mod_eq_of_lt hlo
  have hlen1 : (if (decide ((len + file.offset) % 2 ^ 32 > file.entry.size)) = true
      then file.entry.size - file.offset else len) = min len (file.entry.size - file.offset) := by
    rw [hmod]
    split
    · rename_i h
      simp at h
      omega
    · rename_i h
      simp at h
      omega
  have hlen1pos : min len (file.entry.size - file.offset) ≠ 0 := by omega
  unfold _FST_read_r at hok ⊢
  simp only [hin, not_true_eq_false, if_false, if_neg (not_le.mpr ho), hlen1, hlen1pos] at hok ⊢
  unfold readCount bytesToBoundary
  cases hraw : is_raw file.entry with
  | true =>
    have hr : file.entry.flags / FLAG_RAW % 2 = 1 := by
      unfold is_raw at hraw
      simpa using hraw
    simp only [hr, if_true] at hok ⊢
    cases hf : readFailsAt env g ((shl2_u32 (g.partitions.getD file.entry.partition default).offset
        + shl2_u32 file.entry.offset + file.offset) % 2 ^ 32) with
    | true =>
      rw [_read_fail env g ptr _ _ hf] at hok
      exact absurd toS32_toU32_neg_one hok
    | false =>
      rw [_read_ok env g ptr _ _ hf]
      simp only []
      have hso : ((shl2_u32 (g.partitions.getD file.entry.partition default).offset
          + shl2_u32 file.entry.offset + file.offset) % 2 ^ 32) % SECTOR_SIZE
          = (4 * (g.partitions.getD file.entry.partition default).offset
              + 4 * file.entry.offset + file.offset) % 0x800 := by
        unfold shl2_u32 SECTOR_SIZE
        omega
      have hB : BUFFER_SIZE = 0x8000 := rfl
      rw [hso, hB]
      have hsmall : min (0x8000 - (4 * (g.partitions.getD file.entry.partition default).offset
              + 4 * file.entry.offset + file.offset) % 0x800)
            (min len (file.entry.size - file.offset)) < 2 ^ 31 := by omega
      rw [toS32_toU32_small _ hsmall, toU32_natCast _ (by omega)]
      refine ⟨by rw [Nat.min_comm], ?_, by omega⟩
      rw [Nat.min_comm]
      apply Nat.mod_eq_of_lt
      omega
  | false =>
    simp only [Bool.false_eq_true, if_false]
    have hr : ¬ file.entry.flags / FLAG_RAW % 2 = 1 := by
      unfold is_raw at hraw
      simpa using hraw
    have hx : (shl2_u32 file.entry.offset + file.offset) % 2 ^ 32
        = 4 * file.entry.offset + file.offset := by
      have := hoff hraw
      unfold shl2_u32
      omega
    simp only [hr, if_false, hx, ptc_mod_cluster _] at hok ⊢
    have hE : ENCRYPTED_CLUSTER_SIZE = 0x8000 := rfl
    rw [hE] at hok ⊢
    have hc : 0x8000 - ((4 * file.entry.offset + file.offset) % 0x7c00 + 0x400)
        = 0x7c00 - (4 * file.entry.offset + file.offset) % 0x7c00 := by omega
    rw [hc] at hok ⊢
    split at hok
    · exact absurd rfl hok
    · rw [if_neg (by assumption)]
      simp only []
      have hsmall : min (0x7c00 - (4 * file.entry.offset + file.offset) % 0x7c00)
            (min len (file.entry.size - file.offset)) < 2 ^ 31 := by omega
      rw [toS32_natCast _ hsmall]
      refine ⟨by rw [Nat.min_comm], ?_, by omega⟩
      rw [Nat.min_comm]
      apply Nat.mod_eq_of_lt
      omega

theorem C2_read_count_witness :
    (_FST_read_r envZero onePartition ⟨bigFile, 0x7000, true⟩ (fun _ => 0) 0x10000).ret
      = (readCount onePartition ⟨bigFile, 0x7000, true⟩ 0x10000 : Nat) ∧
    readCount onePartition ⟨bigFile, 0x7000, true⟩ 0x10000 = 0xc00 :=
  ⟨(C2_read_count envZero onePartition ⟨bigFile, 0x7000, true⟩ (fun _ => 0) 0x10000 rfl
      (by decide) (by decide) (by decide) (by decide) (fun _ => by decide) (by decide)).1,
    by decide⟩


/-- C1: evaluation at the failing input. The first byte of a file that starts 4 GiB into the
partition data (`entry.offset = 0x40000000`) is read from plaintext offset 0: the `u32`
shift `entry->offset << 2` wraps to 0, so the read returns the byte of disc cluster 12 (the
first cluster of the data region at 0x60000), while plaintext byte `4 * entry.offset` lies
in disc cluster 135312 (marked 144). -/
theorem C1_read_wraps_at_4GiB :
    (_FST_read_r envMarked onePartition ⟨farFile, 0, true⟩ (fun _ => 0) 1).ret = 1 ∧
    (_FST_read_r envMarked onePartition ⟨farFile, 0, true⟩ (fun _ => 0) 1).ptr 0 = 12 ∧
    partitionPlaintext envMarked [] 0x60000 (4 * farFile.offset + 0) = 144 ∧
    partitionPlaintext envMarked [] 0x60000 0 = 12 := by
  decide


/-! ### Transparency of the cache to fragmentation (without 32-bit wrap-around) -/

theorem slice_readBuffer (env : Env) (g : Globals) (buf : Mem) (offset : Nat) (a : Int) (n : Nat)
    (hal : offset % 0x800 = 0) (hsmall : offset < 2 ^ 43) (ha : 0 ≤ a) (han : a + n ≤ 0x8000) :
    slice (memcpy buf (readBufferAt env g offset) 0 ENCRYPTED_CLUSTER_SIZE) a n
      = slice (discMem env offset) a n := by
  funext j
  unfold slice
  by_cases hj : 0 ≤ j ∧ j < (n : Int)
  · rw [if_pos hj, if_pos hj]
    unfold memcpy readBufferAt discMem
    have hE : ENCRYPTED_CLUSTER_SIZE = 0x8000 := rfl
    have hB : BUFFER_SIZE = 0x8000 := rfl
    have hS : SECTOR_SIZE = 0x800 := rfl
    rw [hE, hB, hS]
    have h1 : 0 ≤ a + j ∧ a + j < ((0x8000 : Nat) : Int) := by omega
    have h2 : 0 ≤ (0 : Int) + (a + j) ∧ (0 : Int) + (a + j) < ((0x8000 : Nat) : Int) := by
      omega
    rw [if_pos h1, if_pos h2]
    congr 1
    omega
  · rw [if_neg hj, if_neg hj]

theorem decryptedCache_eq (env : Env) (g : Globals) (key : aeskey) (buf : Mem) (offset : Nat)
    (hal : offset % 0x800 = 0) (hsmall : offset < 2 ^ 43) (j : Int) (hj0 : 0 ≤ j)
    (hj : j < 0x7c00) :
    decryptedCache env g key buf offset j = trueCluster env key offset j := by
  unfold decryptedCache trueCluster
  rw [slice_readBuffer env g buf offset 0x3d0 16 hal hsmall (by omega) (by omega),
    slice_readBuffer env g buf offset CLUSTER_HEADER_SIZE PLAINTEXT_CLUSTER_SIZE hal hsmall
      (by decide) (by decide)]
  have hP : PLAINTEXT_CLUSTER_SIZE = 0x7c00 := rfl
  unfold memcpy
  rw [if_pos (by rw [hP]; omega)]
  congr 1
  omega

theorem cacheTrue_inv {env : Env} {key : aeskey} {g : Globals} (h : CacheTrue env key g) :
    CacheInv g := by
  rcases h with h | ⟨k, h1, h2, h3, _⟩
  · exact Or.inl h
  · exact Or.inr ⟨k, h1, h2, h3⟩

/-- What `read_and_decrypt_cluster` delivers for a request inside the payload of the cluster
at `offset`: on success, the bytes of the decrypted cluster; the cache stays truthful. -/
theorem rdc_content (env : Env) (g : Globals) (key : aeskey) (buf : Mem) (offset ofc len : Nat)
    (hal : offset % ENCRYPTED_CLUSTER_SIZE = 0) (hsmall : offset < 2 ^ 43)
    (h1 : 0x400 ≤ ofc) (h2 : ofc + len ≤ 0x8000) (h3 : 0 < len) (hc : CacheTrue env key g) :
    ((read_and_decrypt_cluster env g key buf offset ofc len).1 = true →
      ∀ i : Nat, i < len → (read_and_decrypt_cluster env g key buf offset ofc len).2.1 (i : Int)
        = trueCluster env key offset (((ofc - 0x400 + i : Nat)) : Int)) ∧
    CacheTrue env key (read_and_decrypt_cluster env g key buf offset ofc len).2.2 ∧
    (read_and_decrypt_cluster env g key buf offset ofc len).2.2.partitions = g.partitions := by
  have hal2 : offset % 0x8000 = 0 := hal
  have hov : offset + 0x8000 < 2 ^ 64 := by omega
  have hlt : offset < 2 ^ 64 := by omega
  by_cases hh : cacheHit g offset ofc len
  · have hk := (cacheHit_iff g offset ofc len (cacheTrue_inv hc) hal hov h1 h2 h3).mp hh
    rw [rdc_hit env g key buf offset ofc len hh]
    refine ⟨?_, hc, rfl⟩
    intro _ i hi
    rcases hc with h0 | ⟨k, _, hs, he, hcont⟩
    · exact absurd h0 hk.1
    · have hkk : k = offset / 0x8000 := by
        have := hk.2
        omega
      have hko : k * 0x8000 = offset := by omega
      simp only []
      unfold memcpy
      rw [if_pos (by omega), ctp_in_cluster offset ofc hal hov h1 (by omega), hk.2]
      have hcast : (((offset / 0x8000 * 0x7c00 + (ofc - 0x400) - offset / 0x8000 * 0x7c00 : Nat) : Int)
          + (i : Int)) = ((ofc - 0x400 + i : Nat) : Int) := by omega
      rw [hcast, hcont (ofc - 0x400 + i) (by omega), hko]
  · cases hf : readFailsAt env g offset with
    | true =>
      rw [rdc_miss_fail env g key buf offset ofc len hh hf]
      refine ⟨?_, ?_, rfl⟩
      · intro h
        cases h
      rcases hc with h0 | ⟨k, hk, hs, he, hcont⟩
      · exact Or.inl h0
      · exact Or.inr ⟨k, hk, hs, he, hcont⟩
    | false =>
      have hb := rdc_miss_ok_bounds env g key buf offset ofc len hlt hal hh hf
      have ha8 : offset % 0x800 = 0 := by omega
      refine ⟨?_, ?_, ?_⟩
      · intro _ i hi
        rw [rdc_miss_ok env g key buf offset ofc len hal hh hf]
        simp only []
        unfold memcpy
        rw [if_pos (by omega)]
        have hC : CLUSTER_HEADER_SIZE = 0x400 := rfl
        rw [hC]
        have hcast : ((ofc : Int) - ((0x400 : Nat) : Int) + (i : Int))
            = ((ofc - 0x400 + i : Nat) : Int) := by omega
        rw [hcast]
        exact decryptedCache_eq env g key buf offset ha8 hsmall _ (by omega) (by omega)
      · right
        refine ⟨offset / 0x8000, by omega, hb.1, hb.2, ?_⟩
        intro j hj
        have hko : offset / 0x8000 * 0x8000 = offset := by omega
        have hd := decryptedCache_eq env g key buf offset ha8 hsmall (j : Int) (by omega)
          (by omega)
        rw [rdc_miss_ok env g key buf offset ofc len hal hh hf]
        simp only []
        rw [hko]
        exact hd
      · rw [rdc_miss_ok env g key buf offset ofc len hal hh hf]
        rfl



theorem plaintext_in_cluster (env : Env) (key : aeskey) (D x i : Nat)
    (hi : i < 0x7c00 - x % 0x7c00) :
    partitionPlaintext env key D (x + i)
      = trueCluster env key (D + x / 0x7c00 * 0x8000) ((x % 0x7c00 + 0x400 - 0x400 + i : Nat) : Int) := by
  unfold partitionPlaintext
  have h1 : (x + i) / 0x7c00 = x / 0x7c00 := by omega
  have h2 : (x + i) % 0x7c00 = x % 0x7c00 + 0x400 - 0x400 + i := by omega
  rw [h1, h2]

theorem ptc_div_cluster (x : Nat) (hx : x < 2 ^ 32) :
    plaintext_to_cipher x / ENCRYPTED_CLUSTER_SIZE * ENCRYPTED_CLUSTER_SIZE
      = x / 0x7c00 * 0x8000 := by
  have e : plaintext_to_cipher x = (x / 0x7c00 * 0x8000 + x % 0x7c00 + 0x400) % 2 ^ 64 := rfl
  have e2 : ENCRYPTED_CLUSTER_SIZE = 0x8000 := rfl
  rw [e, e2]
  omega

/-- One read of a decrypted file, free of wrap-around and with a truthful cache: it fails, or
returns the next `n` bytes of the partition plaintext, advances the handle by `n` within the
file and leaves the cache truthful. -/
theorem read_step (env : Env) (g : Globals) (file : FILE_STRUCT) (ptr : Mem) (len : Nat)
    (hs : NoWrap g file) (hc : CacheTrue env (partitionOf g file).key g)
    (hlen : len + file.entry.size < 2 ^ 32) :
    (_FST_read_r env g file ptr len).ret < 0 ∨
    ∃ n : Nat, (_FST_read_r env g file ptr len).ret = (n : Int) ∧
      (_FST_read_r env g file ptr len).file = { file with offset := file.offset + n } ∧
      file.offset + n ≤ file.entry.size ∧
      (∀ i : Nat, i < n → (_FST_read_r env g file ptr len).ptr (i : Int)
        = partitionPlaintext env (partitionOf g file).key (dataOffset (partitionOf g file))
            (4 * file.entry.offset + file.offset + i)) ∧
      CacheTrue env (partitionOf g file).key (_FST_read_r env g file ptr len).g ∧
      (_FST_read_r env g file ptr len).g.partitions = g.partitions := by
  have hin := hs.in_use
  have hole := hs.offset_le
  have hfs := hs.file_small
  by_cases ho : file.offset < file.entry.size
  · have hmod : (len + file.offset) % 2 ^ 32 = len + file.offset := Nat.mod_eq_of_lt (by omega)
    have hlen1 : (if (decide ((len + file.offset) % 2 ^ 32 > file.entry.size)) = true
        then file.entry.size - file.offset else len)
        = min len (file.entry.size - file.offset) := by
      rw [hmod]
      split
      · rename_i h
        simp at h
        omega
      · rename_i h
        simp at h
        omega
    unfold _FST_read_r
    simp only [hin, not_true_eq_false, if_false, if_neg (not_le.mpr ho), hlen1]
    by_cases hl0 : min len (file.entry.size - file.offset) = 0
    · right
      rw [if_pos hl0]
      refine ⟨0, ?_, ?_, by omega, fun i hi => absurd hi (by omega), hc, ?_⟩
      · simp
      · cases file
        simpa using hin
      · simp
    · rw [if_neg hl0]
      have hr : ¬ file.entry.flags / FLAG_RAW % 2 = 1 := by
        have := hs.not_raw
        unfold is_raw at this
        simpa using this
      have hx : (shl2_u32 file.entry.offset + file.offset) % 2 ^ 32
          = 4 * file.entry.offset + file.offset := by
        unfold shl2_u32
        omega
      have hD : (shl2_u32 (g.partitions.getD file.entry.partition default).offset
          + shl2_u32 (g.partitions.getD file.entry.partition default).partition_info.data_offset)
            % 2 ^ 32 = dataOffset (partitionOf g file) := by
        have := hs.data_small
        unfold dataOffset partitionOf at this ⊢
        unfold shl2_u32
        omega
      have hE : ENCRYPTED_CLUSTER_SIZE = 0x8000 := rfl
      simp only [hr, if_false, hx, ptc_mod_cluster, hD,
        ptc_div_cluster (4 * file.entry.offset + file.offset) (by omega)]
      have hda := hs.data_aligned
      have hds := hs.data_small
      have hoffs : (dataOffset (partitionOf g file)
          + (4 * file.entry.offset + file.offset) / 0x7c00 * 0x8000) % 2 ^ 64
          = dataOffset (partitionOf g file)
            + (4 * file.entry.offset + file.offset) / 0x7c00 * 0x8000 := by
        apply Nat.mod_eq_of_lt
        omega
      rw [hoffs, hE]
      have hcont := rdc_content env g (g.partitions.getD file.entry.partition default).key
        g.cluster_buffer
        (dataOffset (partitionOf g file) + (4 * file.entry.offset + file.offset) / 0x7c00 * 0x8000)
        ((4 * file.entry.offset + file.offset) % 0x7c00 + 0x400)
        (min (0x8000 - ((4 * file.entry.offset + file.offset) % 0x7c00 + 0x400))
          (min len (file.entry.size - file.offset)))
        (by rw [hE]; omega) (by omega) (by omega) (by omega) (by omega) hc
      split
      · left
        simp
      · right
        rename_i hok
        have hok2 := hcont.1 (by simpa using hok)
        refine ⟨min (0x8000 - ((4 * file.entry.offset + file.offset) % 0x7c00 + 0x400))
          (min len (file.entry.size - file.offset)), ?_, ?_, by omega, ?_, ?_, ?_⟩
        · exact toS32_natCast _ (by omega)
        · simp only [FILE_STRUCT.mk.injEq, true_and, and_true]
          apply Nat.mod_eq_of_lt
          omega
        · intro i hi
          have hpl := plaintext_in_cluster env (partitionOf g file).key
            (dataOffset (partitionOf g file)) (4 * file.entry.offset + file.offset) i (by omega)
          simp only []
          unfold memcpy
          rw [if_pos (by omega), Int.zero_add, hok2 i hi, hpl]
          rfl
        · rcases hcont.2.1 with h0 | ⟨k, hk, hs1, he1, hc1⟩
          · exact Or.inl h0
          · exact Or.inr ⟨k, hk, hs1, he1, hc1⟩
        · exact hcont.2.2
  · right
    unfold _FST_read_r
    simp only [hin, not_true_eq_false, if_false, if_pos (not_lt.mp ho)]
    refine ⟨0, ?_, ?_, by omega, fun i hi => absurd hi (by omega), hc, ?_⟩
    · simp
    · cases file
      simpa using hin
    · simp



theorem bytes_eq_map (m : Mem) (f : Nat → Nat) (n : Nat) (h : ∀ i : Nat, i < n → m (i : Int) = f i) :
    bytes m n = (List.range n).map f := by
  unfold bytes
  apply List.map_congr_left
  intro i hi
  exact h i (List.mem_range.mp hi)

/-- Transparency of the cache to fragmentation, where no 32-bit wrap-around occurs: whatever
the requested lengths, the bytes returned by successive successful reads of a decrypted
file are the bytes of the partition plaintext from `4 * entry.offset + offset` on, and the
handle advances by their number, within the file. -/
theorem readSeq_plaintext (env : Env) : ∀ (lens : List Nat) (g : Globals) (file : FILE_STRUCT),
    NoWrap g file → CacheTrue env (partitionOf g file).key g →
    (∀ l ∈ lens, l + file.entry.size < 2 ^ 32) →
    ∀ (bs : List Nat) (f : FILE_STRUCT) (g2 : Globals),
      readSeq env g file lens = some (bs, f, g2) →
      bs = (List.range bs.length).map (fun i =>
        partitionPlaintext env (partitionOf g file).key (dataOffset (partitionOf g file))
          (4 * file.entry.offset + file.offset + i)) ∧
      f.offset = file.offset + bs.length ∧ f.offset ≤ file.entry.size := by
  intro lens
  induction lens with
  | nil =>
    intro g file hs _ _ bs f g2 h
    unfold readSeq at h
    simp only [Option.some.injEq, Prod.mk.injEq] at h
    obtain ⟨h1, h2, _⟩ := h
    subst h1 h2
    exact ⟨rfl, rfl, hs.offset_le⟩
  | cons len rest ih =>
    intro g file hs hc hl bs f g2 h
    rw [readSeq] at h
    rcases read_step env g file (fun _ => 0) len hs hc (hl len (List.mem_cons_self _ _)) with
      hneg | ⟨n, hret, hfile, hle, hbytes, hc2, hparts⟩
    · rw [if_pos hneg] at h
      cases h
    · rw [if_neg (by rw [hret]; omega)] at h
      have hpo : partitionOf (_FST_read_r env g file (fun _ => 0) len).g
          (_FST_read_r env g file (fun _ => 0) len).file = partitionOf g file := by
        unfold partitionOf
        rw [hparts, hfile]
      have hs2 : NoWrap (_FST_read_r env g file (fun _ => 0) len).g
          (_FST_read_r env g file (fun _ => 0) len).file := by
        constructor
        · rw [hfile]
          exact hs.in_use
        · rw [hfile]
          exact hs.not_raw
        · rw [hpo]
          exact hs.data_small
        · rw [hpo]
          exact hs.data_aligned
        · rw [hfile]
          exact hs.file_small
        · rw [hfile]
          exact hle
      cases hrest : readSeq env (_FST_read_r env g file (fun _ => 0) len).g
          (_FST_read_r env g file (fun _ => 0) len).file rest with
      | none =>
        rw [hrest] at h
        cases h
      | some res =>
        obtain ⟨bs2, f2, g3⟩ := res
        rw [hrest] at h
        simp only [Option.some.injEq, Prod.mk.injEq] at h
        obtain ⟨h1, h2, _⟩ := h
        have hih := ih _ _ hs2 (by rw [hpo]; exact hc2)
          (fun l hlm => by rw [hfile]; exact hl l (List.mem_cons_of_mem _ hlm)) bs2 f2 g3 hrest
        rw [hpo, hfile] at hih
        simp only [] at hih
        obtain ⟨hb2, hf2, hf3⟩ := hih
        rw [hret, Int.toNat_ofNat] at h1
        have hb1 := bytes_eq_map (_FST_read_r env g file (fun _ => 0) len).ptr
          (fun i => partitionPlaintext env (partitionOf g file).key
            (dataOffset (partitionOf g file)) (4 * file.entry.offset + file.offset + i)) n hbytes
        have hlen : bs.length = n + bs2.length := by
          rw [← h1, List.length_append]
          unfold bytes
          simp
        subst h2
        refine ⟨?_, by omega, hf3⟩
        have key : bs2 = List.map (fun i =>
            partitionPlaintext env (partitionOf g file).key (dataOffset (partitionOf g file))
              (4 * file.entry.offset + file.offset + (n + i))) (List.range bs2.length) := by
          conv_lhs => rw [hb2]
          apply List.map_congr_left
          intro i _
          congr 1
          omega
        calc bs = bytes (_FST_read_r env g file (fun _ => 0) len).ptr n ++ bs2 := h1.symm
          _ = List.map (fun i =>
                partitionPlaintext env (partitionOf g file).key (dataOffset (partitionOf g file))
                  (4 * file.entry.offset + file.offset + i)) (List.range n) ++
              List.map (fun i =>
                partitionPlaintext env (partitionOf g file).key (dataOffset (partitionOf g file))
                  (4 * file.entry.offset + file.offset + (n + i))) (List.range bs2.length) := by
            rw [hb1, ← key]
          _ = List.map (fun i =>
                partitionPlaintext env (partitionOf g file).key (dataOffset (partitionOf g file))
                  (4 * file.entry.offset + file.offset + i)) (List.range (n + bs2.length)) := by
            rw [List.range_add, List.map_append, List.map_map]
            rfl
          _ = _ := by rw [hlen]

/-- Two splits of one range into successful reads return the same bytes. -/
theorem readSeq_split_independent (env : Env) (g : Globals) (file : FILE_STRUCT)
    (lens1 lens2 : List Nat) (hs : NoWrap g file) (hc : CacheTrue env (partitionOf g file).key g)
    (hl1 : ∀ l ∈ lens1, l + file.entry.size < 2 ^ 32)
    (hl2 : ∀ l ∈ lens2, l + file.entry.size < 2 ^ 32)
    (bs1 bs2 : List Nat) (f1 f2 : FILE_STRUCT) (g1 g2 : Globals)
    (h1 : readSeq env g file lens1 = some (bs1, f1, g1))
    (h2 : readSeq env g file lens2 = some (bs2, f2, g2))
    (hlen : bs1.length = bs2.length) : bs1 = bs2 := by
  rw [(readSeq_plaintext env lens1 g file hs hc hl1 bs1 f1 g1 h1).1,
    (readSeq_plaintext env lens2 g file hs hc hl2 bs2 f2 g2 h2).1]
  simp only [List.length_map, List.length_range, hlen]



theorem bigFile_noWrap : NoWrap onePartition ⟨bigFile, 0x7bfe, true⟩ where
  in_use := rfl
  not_raw := by decide
  data_small := by decide
  data_aligned := by decide
  file_small := by decide
  offset_le := by decide

/-- Reads of 1, 5 and 5 bytes from offset 0x7bfe of `bigFile`: the second is cut at the end of
the first cluster (marked 12), the third comes from the second cluster (marked 13); one read
of 2 bytes followed by one of 5 returns the same seven bytes. -/
theorem readSeq_across_clusters :
    (readSeq envMarked onePartition ⟨bigFile, 0x7bfe, true⟩ [1, 5, 5]).map (fun r => r.1)
      = some [12, 12, 13, 13, 13, 13, 13] ∧
    (readSeq envMarked onePartition ⟨bigFile, 0x7bfe, true⟩ [2, 5]).map (fun r => r.1)
      = some [12, 12, 13, 13, 13, 13, 13] := by
  constructor <;> decide


/-! ## Seeking -/

theorem toS32_of_range (t : Int) (h0 : -(2 ^ 31) ≤ t) (h1 : t < 2 ^ 31) : toS32 t = t := by
  unfold toS32
  omega

theorem toU32_of_nonneg (t : Int) (h0 : 0 ≤ t) (h1 : t < 2 ^ 32) : ((toU32 t : Nat) : Int) = t := by
  unfold toU32
  omega

/-- The three origins of `_FST_seek_r`, with the position computed as `toS32` of the exact
target. -/
theorem seek_position (e : DIR_ENTRY) (o : Nat) (pos dir t : Int)
    (ht : seekTarget ⟨e, o, true⟩ pos dir = some t) :
    _FST_seek_r ⟨e, o, true⟩ pos dir =
      if pos > 0 ∧ toS32 t < 0 then ⟨-1, some EOVERFLOW, ⟨e, o, true⟩⟩
      else if toS32 t < 0 ∨ toU32 (toS32 t) > e.size then ⟨-1, some EINVAL, ⟨e, o, true⟩⟩
      else ⟨toS32 t, none, ⟨e, toU32 (toS32 t), true⟩⟩ := by
  unfold seekTarget at ht
  unfold _FST_seek_r
  simp only [not_true_eq_false, if_false]
  by_cases h0 : dir = SEEK_SET
  · simp only [h0, if_true] at ht ⊢
    cases ht
    rfl
  · by_cases h1 : dir = SEEK_CUR
    · simp only [h0, h1, if_true, if_false] at ht ⊢
      cases ht
      rfl
    · by_cases h2 : dir = SEEK_END
      · simp only [h0, h1, h2, if_true, if_false] at ht ⊢
        cases ht
        rfl
      · simp only [h0, h1, h2, if_false] at ht
        cases ht

/-- C13 (as stated) fails: on a file of 3 GiB, seeking to the end of the file (displacement
0 from `SEEK_END`, an in-range target) returns -1 with `EINVAL` and leaves the offset at 0:
the target does not fit the `int` that holds the position. -/
theorem C13_counterexample :
    seekTarget ⟨hugeFile, 0, true⟩ 0 SEEK_END = some (hugeFile.size : Int) ∧
    (_FST_seek_r ⟨hugeFile, 0, true⟩ 0 SEEK_END).ret = -1 ∧
    (_FST_seek_r ⟨hugeFile, 0, true⟩ 0 SEEK_END).errno = some EINVAL ∧
    (_FST_seek_r ⟨hugeFile, 0, true⟩ 0 SEEK_END).file.offset = 0 := by
  refine ⟨?_, ?_, ?_, ?_⟩ <;> decide

/-- C13 (amended): for an in-use handle with offset `o` on an entry of size `s`, an origin
among `SEEK_SET`, `SEEK_CUR`, `SEEK_END` (bases 0, `o`, `s`) and a displacement `pos` whose
exact target `t = base + pos` satisfies `0 ≤ t ≤ s` and `t < 2 ^ 31`, `_FST_seek_r` returns
`t`, stores no error and sets the handle offset to `t`. -/
theorem C13_seek_in_range (e : DIR_ENTRY) (o : Nat) (pos dir t : Int)
    (ht : seekTarget ⟨e, o, true⟩ pos dir = some t)
    (h0 : 0 ≤ t) (hs : t ≤ e.size) (h31 : t < 2 ^ 31) :
    _FST_seek_r ⟨e, o, true⟩ pos dir = ⟨t, none, ⟨e, t.toNat, true⟩⟩ := by
  rw [seek_position e o pos dir t ht, toS32_of_range t (by omega) h31]
  have hu : ((toU32 t : Nat) : Int) = t := toU32_of_nonneg t h0 (by omega)
  have hu2 : toU32 t = t.toNat := by omega
  rw [if_neg (by omega), if_neg (by omega), hu2]

theorem C13_seek_in_range_witness :
    _FST_seek_r ⟨smallFile, 3, true⟩ 0 SEEK_END = ⟨16, none, ⟨smallFile, 16, true⟩⟩ ∧
    _FST_seek_r ⟨smallFile, 3, true⟩ 4 SEEK_CUR = ⟨7, none, ⟨smallFile, 7, true⟩⟩ :=
  ⟨C13_seek_in_range smallFile 3 0 SEEK_END 16 (by decide) (by decide) (by decide) (by decide),
    C13_seek_in_range smallFile 3 4 SEEK_CUR 7 (by decide) (by decide) (by decide) (by decide)⟩

/-- An out-of-range target whose 32-bit reduction does not wrap past `2 ^ 32` is rejected:
`_FST_seek_r` returns -1 with `EINVAL` or `EOVERFLOW` and leaves the handle as it was. -/
theorem seek_rejects_without_wrap (e : DIR_ENTRY) (o : Nat) (pos dir t : Int)
    (ht : seekTarget ⟨e, o, true⟩ pos dir = some t)
    (hout : t < 0 ∨ (e.size : Int) < t) (hlo : -(2 ^ 31) ≤ t) (hhi : t < 2 ^ 32) :
    (_FST_seek_r ⟨e, o, true⟩ pos dir).ret = -1 ∧
    (_FST_seek_r ⟨e, o, true⟩ pos dir).file = ⟨e, o, true⟩ ∧
    ((_FST_seek_r ⟨e, o, true⟩ pos dir).errno = some EINVAL ∨
      (_FST_seek_r ⟨e, o, true⟩ pos dir).errno = some EOVERFLOW) := by
  rw [seek_position e o pos dir t ht]
  by_cases h1 : pos > 0 ∧ toS32 t < 0
  · rw [if_pos h1]
    exact ⟨rfl, rfl, Or.inr rfl⟩
  · rw [if_neg h1]
    have h2 : toS32 t < 0 ∨ toU32 (toS32 t) > e.size := by
      by_cases hneg : toS32 t < 0
      · exact Or.inl hneg
      · right
        have hlt : t < 2 ^ 31 := by
          unfold toS32 at hneg
          omega
        rw [toS32_of_range t hlo hlt] at hneg ⊢
        have hu : ((toU32 t : Nat) : Int) = t := toU32_of_nonneg t (by omega) hhi
        omega
    rw [if_pos h2]
    exact ⟨rfl, rfl, Or.inl rfl⟩

/-- A target of `2 ^ 31` or more (below `2 ^ 32`) does not fit the `int`: it is rejected,
with `EOVERFLOW` for a positive displacement and `EINVAL` otherwise, whether or not it lies
within the file. -/
theorem seek_rejects_beyond_int (e : DIR_ENTRY) (o : Nat) (pos dir t : Int)
    (ht : seekTarget ⟨e, o, true⟩ pos dir = some t) (hlo : 2 ^ 31 ≤ t) (hhi : t < 2 ^ 32) :
    _FST_seek_r ⟨e, o, true⟩ pos dir =
      ⟨-1, some (if pos > 0 then EOVERFLOW else EINVAL), ⟨e, o, true⟩⟩ := by
  rw [seek_position e o pos dir t ht]
  have hneg : toS32 t < 0 := by
    unfold toS32
    omega
  by_cases hp : pos > 0
  · rw [if_pos ⟨hp, hneg⟩, if_pos hp]
  · rw [if_neg (fun h => hp h.1), if_pos (Or.inl hneg), if_neg hp]

/-- An unsupported origin is rejected with `EINVAL`. -/
theorem seek_rejects_origin (e : DIR_ENTRY) (o : Nat) (pos dir : Int)
    (h0 : dir ≠ SEEK_SET) (h1 : dir ≠ SEEK_CUR) (h2 : dir ≠ SEEK_END) :
    _FST_seek_r ⟨e, o, true⟩ pos dir = ⟨-1, some EINVAL, ⟨e, o, true⟩⟩ := by
  unfold _FST_seek_r
  simp [h0, h1, h2]

/-- C14: evaluation at the failing input. On a file of 3 GiB with the handle at offset 0, a
seek by `0x40000005` from `SEEK_END` has the exact target `2 ^ 32 + 5`, beyond the end of
the file; the position wraps to 5, passes both checks, and the call returns 5 and moves the
handle to offset 5. -/
theorem C14_seek_wraps_into_range :
    seekTarget ⟨hugeFile, 0, true⟩ 0x40000005 SEEK_END = some (2 ^ 32 + 5) ∧
    (hugeFile.size : Int) < 2 ^ 32 + 5 ∧
    (_FST_seek_r ⟨hugeFile, 0, true⟩ 0x40000005 SEEK_END).ret = 5 ∧
    (_FST_seek_r ⟨hugeFile, 0, true⟩ 0x40000005 SEEK_END).errno = none ∧
    (_FST_seek_r ⟨hugeFile, 0, true⟩ 0x40000005 SEEK_END).file.offset = 5 := by
  refine ⟨?_, ?_, ?_, ?_, ?_⟩ <;> decide

/-! ## Reads at the end of the file, of length zero, and on a failing drive -/

/-- C15: for an in-use handle whose offset is at or beyond the entry size, `_FST_read_r`
returns 0 for every requested length and stores `EOVERFLOW`; the handle, the caller's
buffer and the whole file-scope state (read buffer, cluster cache, number of drive reads
and of decryptions) are unchanged. -/
theorem C15_read_at_eof (env : Env) (g : Globals) (e : DIR_ENTRY) (o : Nat) (ptr : Mem)
    (len : Nat) (ho : e.size ≤ o) :
    (_FST_read_r env g ⟨e, o, true⟩ ptr len).ret = 0 ∧
    (_FST_read_r env g ⟨e, o, true⟩ ptr len).errno = some EOVERFLOW ∧
    (_FST_read_r env g ⟨e, o, true⟩ ptr len).file = ⟨e, o, true⟩ ∧
    (_FST_read_r env g ⟨e, o, true⟩ ptr len).ptr = ptr ∧
    (_FST_read_r env g ⟨e, o, true⟩ ptr len).g = g := by
  have h : _FST_read_r env g ⟨e, o, true⟩ ptr len = ⟨0, some EOVERFLOW, ⟨e, o, true⟩, ptr, g⟩ := by
    unfold _FST_read_r
    simp only [not_true_eq_false, if_false]
    rw [if_pos ho]
  rw [h]
  exact ⟨rfl, rfl, rfl, rfl, rfl⟩

theorem C15_read_at_eof_witness :
    (_FST_read_r envBroken onePartition ⟨smallFile, 16, true⟩ (fun _ => 0) 5).ret = 0 ∧
    (_FST_read_r envBroken onePartition ⟨smallFile, 16, true⟩ (fun _ => 0) 5).errno
      = some EOVERFLOW ∧
    (_FST_read_r envBroken onePartition ⟨smallFile, 16, true⟩ (fun _ => 0) 5).g.reads = 0 :=
  have h := C15_read_at_eof envBroken onePartition smallFile 16 (fun _ => 0) 5 (by decide)
  ⟨h.1, h.2.1, by rw [h.2.2.2.2]; rfl⟩

/-- A zero-length read on an in-use handle, in full. -/
theorem read_zero_length (env : Env) (g : Globals) (e : DIR_ENTRY) (o : Nat) (ptr : Mem) :
    _FST_read_r env g ⟨e, o, true⟩ ptr 0 =
      ⟨0, if e.size ≤ o then some EOVERFLOW else none, ⟨e, o, true⟩, ptr, g⟩ := by
  unfold _FST_read_r
  simp only [not_true_eq_false, if_false]
  by_cases ho : e.size ≤ o
  · rw [if_pos ho, if_pos ho]
  · rw [if_neg ho, if_neg ho]
    have hlt : decide ((0 + o) % 2 ^ 32 > e.size) = false := decide_eq_false (by omega)
    simp only [hlt, Bool.false_eq_true, if_false, if_true]

/-- C17 (as stated) fails: a read of length 0 at offset 0 of a file of 16 bytes returns 0
and stores no error code at all. -/
theorem C17_counterexample :
    (_FST_read_r envZero onePartition ⟨smallFile, 0, true⟩ (fun _ => 0) 0).ret = 0 ∧
    (_FST_read_r envZero onePartition ⟨smallFile, 0, true⟩ (fun _ => 0) 0).errno = none ∧
    (_FST_read_r envZero onePartition ⟨smallFile, 0, true⟩ (fun _ => 0) 0).errno
      ≠ some EOVERFLOW := by
  refine ⟨?_, ?_, ?_⟩ <;> decide

/-- C17 (amended): for every in-use handle a read of length 0 returns 0 and leaves the
handle, the caller's buffer and the file-scope state unchanged; it stores `EOVERFLOW` when
the offset is at or beyond the entry size and no error code when the offset is inside the
file. -/
theorem C17_zero_length_read (env : Env) (g : Globals) (e : DIR_ENTRY) (o : Nat) (ptr : Mem) :
    (_FST_read_r env g ⟨e, o, true⟩ ptr 0).ret = 0 ∧
    (_FST_read_r env g ⟨e, o, true⟩ ptr 0).file = ⟨e, o, true⟩ ∧
    (_FST_read_r env g ⟨e, o, true⟩ ptr 0).ptr = ptr ∧
    (_FST_read_r env g ⟨e, o, true⟩ ptr 0).g = g ∧
    (_FST_read_r env g ⟨e, o, true⟩ ptr 0).errno
      = if e.size ≤ o then some EOVERFLOW else none := by
  rw [read_zero_length]
  exact ⟨rfl, rfl, rfl, rfl, rfl⟩

/-- The decrypted path reports a failing drive read as the claim C16 says: when the cluster
is not cached and the drive read fails, `_FST_read_r` returns -1 with `EIO` and leaves the
handle as it was. -/
theorem read_decrypted_failure (env : Env) (g : Globals) (e : DIR_ENTRY) (o : Nat) (ptr : Mem)
    (len : Nat) (hraw : ¬ e.flags / FLAG_RAW % 2 = 1) (ho : o < e.size) (hlen : 0 < len)
    (hmiss : g.aescache_end = 0) (hfail : ∀ offset, readFailsAt env g offset = true) :
    (_FST_read_r env g ⟨e, o, true⟩ ptr len).ret = -1 ∧
    (_FST_read_r env g ⟨e, o, true⟩ ptr len).errno = some EIO ∧
    (_FST_read_r env g ⟨e, o, true⟩ ptr len).file = ⟨e, o, true⟩ := by
  unfold _FST_read_r
  simp only [not_true_eq_false, if_false]
  rw [if_neg (by omega)]
  have hne : ¬ (if decide ((len + o) % 2 ^ 32 > e.size) = true then e.size - o else len) = 0 := by
    split <;> omega
  rw [if_neg hne]
  simp only [hraw, if_false]
  rw [rdc_miss_fail env g _ _ _ _ _ (by unfold cacheHit; simp [hmiss]) (hfail _)]
  simp

/-- C16: on the raw path a failing drive read is not reported as the claim says. For an
in-use handle before the end of a raw entry and a non-zero length, when the drive read
fails `_FST_read_r` returns -1 but stores no `EIO`, and it moves the handle: the -1 of
`_read` is kept in the unsigned `len` and added to the offset, which ends one byte back
(at `2 ^ 32 - 1` from offset 0). -/
theorem C16_raw_read_failure (env : Env) (g : Globals) (e : DIR_ENTRY) (o : Nat) (ptr : Mem)
    (len : Nat) (hraw : e.flags / FLAG_RAW % 2 = 1) (ho : o < e.size) (hlen : 0 < len)
    (hfail : ∀ offset, readFailsAt env g offset = true) :
    (_FST_read_r env g ⟨e, o, true⟩ ptr len).ret = -1 ∧
    (_FST_read_r env g ⟨e, o, true⟩ ptr len).errno ≠ some EIO ∧
    (_FST_read_r env g ⟨e, o, true⟩ ptr len).file.offset = (o + 4294967295) % 2 ^ 32 ∧
    (_FST_read_r env g ⟨e, o, true⟩ ptr len).file.offset ≠ o := by
  unfold _FST_read_r
  simp only [not_true_eq_false, if_false]
  rw [if_neg (by omega)]
  have hne : ¬ (if decide ((len + o) % 2 ^ 32 > e.size) = true then e.size - o else len) = 0 := by
    split <;> omega
  rw [if_neg hne]
  simp only [hraw, if_true]
  rw [_read_fail env g ptr _ _ (hfail _)]
  simp only [toU32_neg_one]
  refine ⟨?_, ?_, ?_, ?_⟩
  · decide
  · split <;> simp [EOVERFLOW, EIO]
  · trivial
  · omega

theorem C16_raw_read_failure_witness :
    (_FST_read_r envBroken onePartition ⟨rawFile, 5, true⟩ (fun _ => 0) 1).ret = -1 ∧
    (_FST_read_r envBroken onePartition ⟨rawFile, 5, true⟩ (fun _ => 0) 1).errno ≠ some EIO ∧
    (_FST_read_r envBroken onePartition ⟨rawFile, 5, true⟩ (fun _ => 0) 1).file.offset = 4 :=
  have h := C16_raw_read_failure envBroken onePartition rawFile 5 (fun _ => 0) 1 (by decide)
    (by decide) (by decide) (fun _ => rfl)
  ⟨h.1, h.2.1, h.2.2.1⟩

/-! ## Handles that are not in use -/

/-- C18: on a file handle that is not in use, `_FST_close_r`, `_FST_read_r`, `_FST_seek_r`
and `_FST_fstat_r` return -1 with `EBADF` and leave the handle (and the buffers and the
file-scope state) unchanged; so do `_FST_dirreset_r`, `_FST_dirnext_r` and `_FST_dirclose_r`
on a directory handle that is not in use. `_FST_close_r` and `_FST_dirclose_r` on an in-use
handle return 0 and clear the in-use flag only, so that a second close fails with `EBADF`
like every other operation on the closed handle. -/
theorem C18_unused_handles (M : Nat) (env : Env) (g : Globals) (e : DIR_ENTRY) (o i : Nat)
    (ptr : Mem) (len : Nat) (pos dir : Int) (st : Stat) (filename : Nat → Option Char) :
    (_FST_close_r ⟨e, o, false⟩ = ⟨-1, some EBADF, ⟨e, o, false⟩⟩ ∧
      _FST_read_r env g ⟨e, o, false⟩ ptr len = ⟨-1, some EBADF, ⟨e, o, false⟩, ptr, g⟩ ∧
      _FST_seek_r ⟨e, o, false⟩ pos dir = ⟨-1, some EBADF, ⟨e, o, false⟩⟩ ∧
      _FST_fstat_r ⟨e, o, false⟩ st = ⟨-1, some EBADF, ⟨e, o, false⟩, st⟩) ∧
    (_FST_dirreset_r ⟨e, i, false⟩ = ⟨-1, some EBADF, ⟨e, i, false⟩⟩ ∧
      _FST_dirnext_r M ⟨e, i, false⟩ filename st
        = ⟨-1, some EBADF, ⟨e, i, false⟩, filename, st⟩ ∧
      _FST_dirclose_r ⟨e, i, false⟩ = ⟨-1, some EBADF, ⟨e, i, false⟩⟩) ∧
    (_FST_close_r ⟨e, o, true⟩ = ⟨0, none, ⟨e, o, false⟩⟩ ∧
      _FST_close_r (_FST_close_r ⟨e, o, true⟩).file = ⟨-1, some EBADF, ⟨e, o, false⟩⟩) ∧
    (_FST_dirclose_r ⟨e, i, true⟩ = ⟨0, none, ⟨e, i, false⟩⟩ ∧
      _FST_dirclose_r (_FST_dirclose_r ⟨e, i, true⟩).state
        = ⟨-1, some EBADF, ⟨e, i, false⟩⟩) := by
  refine ⟨⟨rfl, rfl, rfl, rfl⟩, ⟨rfl, rfl, rfl⟩, ⟨rfl, rfl⟩, ⟨rfl, rfl⟩⟩

/-! ## The stat record -/

/-- The stat record of an entry whose size leaves room for the rounding (`s + 2047 < 2 ^ 32`):
size, block size 2048, block count `⌈s / 2048⌉`, type and zero timestamps. -/
theorem stat_entry_record (entry : DIR_ENTRY) (hs : entry.size + 2047 < 2 ^ 32) :
    (stat_entry entry).st_size = entry.size ∧
    (stat_entry entry).st_blksize = 2048 ∧
    (stat_entry entry).st_blocks = (entry.size + 2047) / 2048 ∧
    (stat_entry entry).st_blocks * 2048 ≥ entry.size ∧
    (stat_entry entry).st_blocks * 2048 < entry.size + 2048 ∧
    (stat_entry entry).st_mode / S_IFDIR % 2 = (if is_dir entry then 1 else 0) ∧
    (stat_entry entry).st_mode / S_IFREG % 2 = (if is_dir entry then 0 else 1) ∧
    (stat_entry entry).st_atime = 0 ∧ (stat_entry entry).st_mtime = 0 ∧
    (stat_entry entry).st_ctime = 0 := by
  have hb : (stat_entry entry).st_blocks = (entry.size + 2047) / 2048 := by
    unfold stat_entry SECTOR_SIZE
    simp only []
    rw [show entry.size + 2048 - 1 = entry.size + 2047 by omega, Nat.mod_eq_of_lt hs]
  refine ⟨rfl, rfl, hb, ?_, ?_, ?_, ?_, rfl, rfl, rfl⟩
  · rw [hb]
    omega
  · rw [hb]
    omega
  · unfold stat_entry
    by_cases hd : is_dir entry <;> simp only [hd, if_true, if_false] <;> decide
  · unfold stat_entry
    by_cases hd : is_dir entry <;> simp only [hd, if_true, if_false] <;> decide

/-- C20: evaluation at the failing input. For a file of `2 ^ 32 - 1` bytes `stat_entry`
reports the size and the block size 2048 but a block count of 0 instead of
`⌈s / 2048⌉ = 2097152`: the sum `entry->size + SECTOR_SIZE - 1` wraps at 32 bits. -/
theorem C20_st_blocks_wraps :
    (stat_entry maxFile).st_size = 4294967295 ∧
    (stat_entry maxFile).st_blksize = 2048 ∧
    (stat_entry maxFile).st_blocks = 0 ∧
    (maxFile.size + 2047) / 2048 = 2097152 ∧
    ¬ (stat_entry maxFile).st_blocks * 2048 ≥ maxFile.size := by
  refine ⟨?_, ?_, ?_, ?_, ?_⟩ <;> decide

/-! ## Directory iteration -/

theorem dirnext_exhausted (M : Nat) (d : DIR_ENTRY) (i : Nat) (filename : Nat → Option Char)
    (st : Stat)
    (hi : d.children.length ≤ i) :
    _FST_dirnext_r M ⟨d, i, true⟩ filename st = ⟨-1, some ENOENT, ⟨d, i, true⟩, filename, st⟩ := by
  unfold _FST_dirnext_r
  simp only [not_true_eq_false, if_false, List.getElem?_eq_none hi]

/-- After `k` calls of `_FST_dirnext_r` on a freshly opened directory the index is `k`, or
the number of children once they are exhausted. -/
theorem dirnextIter_eq (M : Nat) (d : DIR_ENTRY) :
    ∀ k, dirnextIter M ⟨d, 0, true⟩ k = ⟨d, min k d.children.length, true⟩ := by
  intro k
  induction k with
  | zero => simp [dirnextIter]
  | succ k ih =>
    rw [dirnextIter, ih]
    by_cases hk : k < d.children.length
    · have hmin : min k d.children.length = k := by omega
      have hmin2 : min (k + 1) d.children.length = k + 1 := by omega
      rw [hmin, hmin2]
      obtain ⟨c, hc⟩ : ∃ c, d.children[k]? = some c :=
        ⟨d.children[k], List.getElem?_eq_getElem hk⟩
      rw [dirnext_at M d c k _ _ hc]
    · have hmin : min k d.children.length = d.children.length := by omega
      have hmin2 : min (k + 1) d.children.length = d.children.length := by omega
      rw [hmin, hmin2, dirnext_exhausted M d _ _ _ (le_refl _)]

theorem diropen_ok (M : Nat) (root : DIR_ENTRY) (current : Ptr) (state : DIR_STATE_STRUCT)
    (path : List Char) (hopen : (_FST_diropen_r M root current state path).ok = true) :
    ∃ p d, entry_from_path M root current path = some (p, d) ∧ is_dir d = true ∧
      _FST_diropen_r M root current state path = ⟨true, none, some d, 0, true⟩ := by
  unfold _FST_diropen_r at hopen ⊢
  cases h : entry_from_path M root current path with
  | none => rw [h] at hopen; simp at hopen
  | some pe =>
    obtain ⟨p, d⟩ := pe
    rw [h] at hopen
    simp only [] at hopen ⊢
    by_cases hd : is_dir d = true
    · refine ⟨p, d, rfl, hd, ?_⟩
      rw [if_neg (by simp [hd])]
    · rw [if_pos (by simpa using hd)] at hopen
      simp at hopen

/-- Order and exhaustion of directory iteration. After a successful `_FST_diropen_r` the
handle holds the directory `d` the path resolves to, with index 0 and in use. For every child
`c` at position `i` of `d` (counted from 0), the call of `_FST_dirnext_r` that follows `i`
earlier calls returns 0, copies the name of `c` into the caller's buffer with
`strncpy(filename, name, FST_MAXPATHLEN - 1)`, reports `stat_entry c` and moves the index to
`i + 1`; the name read from the buffer is the name of `c` when that is shorter than
`FST_MAXPATHLEN - 1` characters. Every call that follows `k ≥ n` earlier calls, `n` being the
number of children, returns -1 with `ENOENT` and leaves the handle at index `n` and the
buffers as they were. `_FST_dirreset_r` after any number of calls returns 0 and puts the
handle back to the state it had after opening. -/
theorem directory_iteration (M : Nat) (root : DIR_ENTRY) (current : Ptr)
    (state : DIR_STATE_STRUCT) (path : List Char)
    (hopen : (_FST_diropen_r M root current state path).ok = true) :
    ∃ d, (_FST_diropen_r M root current state path).state = some ⟨d, 0, true⟩ ∧
      (entry_from_path M root current path).map Prod.snd = some d ∧
      (∀ (i : Nat) (c : DIR_ENTRY) (filename : Nat → Option Char) (st : Stat),
        d.children[i]? = some c →
          _FST_dirnext_r M (dirnextIter M ⟨d, 0, true⟩ i) filename st
            = ⟨0, none, ⟨d, i + 1, true⟩, strncpy filename c.name (M - 1), stat_entry c⟩ ∧
          (c.name.length < M - 1 → ∀ n, c.name.length ≤ n →
            (_FST_dirnext_r M (dirnextIter M ⟨d, 0, true⟩ i) filename st).name n = c.name)) ∧
      (∀ (k : Nat) (filename : Nat → Option Char) (st : Stat), d.children.length ≤ k →
          _FST_dirnext_r M (dirnextIter M ⟨d, 0, true⟩ k) filename st
            = ⟨-1, some ENOENT, ⟨d, d.children.length, true⟩, filename, st⟩) ∧
      (∀ k : Nat, _FST_dirreset_r (dirnextIter M ⟨d, 0, true⟩ k) = ⟨0, none, ⟨d, 0, true⟩⟩) := by
  obtain ⟨p, d, hres, _, heq⟩ := diropen_ok M root current state path hopen
  refine ⟨d, ?_, ?_, ?_, ?_, ?_⟩
  · rw [heq]
    rfl
  · rw [hres]
    rfl
  · intro i c filename st hc
    have hi : i < d.children.length := by
      by_contra hcon
      rw [List.getElem?_eq_none (by omega)] at hc
      cases hc
    rw [dirnextIter_eq, show min i d.children.length = i by omega]
    refine ⟨dirnext_at M d c i filename st hc, ?_⟩
    intro hlen n hn
    rw [dirnext_at M d c i filename st hc]
    show bufferString (strncpy filename c.name (M - 1)) n 0 = c.name
    have hsplit : n = c.name.length + (n - c.name.length) := by omega
    rw [hsplit, bufferString_append _ c.name 0 _ (fun j hj => by
      unfold strncpy
      rw [Nat.zero_add, if_pos (by omega)])]
    rw [bufferString_none, List.append_nil]
    unfold strncpy
    rw [Nat.zero_add, if_pos hlen, List.getElem?_eq_none (le_refl _)]
  · intro k filename st hk
    rw [dirnextIter_eq, show min k d.children.length = d.children.length by omega]
    exact dirnext_exhausted M d _ filename st (le_refl _)
  · intro k
    rw [dirnextIter_eq]
    rfl

/-- Iterating the directory "fst:/0" of `sampleTree`, whatever the caller's buffers hold. -/
theorem directory_iteration_example :
    ∃ d, (_FST_diropen_r 128 sampleTree [] ⟨default, 7, false⟩ "fst:/0".toList).state
        = some ⟨d, 0, true⟩ ∧
      (entry_from_path 128 sampleTree [] "fst:/0".toList).map Prod.snd = some d ∧
      (∀ (i : Nat) (c : DIR_ENTRY) (filename : Nat → Option Char) (st : Stat),
        d.children[i]? = some c →
          _FST_dirnext_r 128 (dirnextIter 128 ⟨d, 0, true⟩ i) filename st
            = ⟨0, none, ⟨d, i + 1, true⟩, strncpy filename c.name (128 - 1), stat_entry c⟩ ∧
          (c.name.length < 128 - 1 → ∀ n, c.name.length ≤ n →
            (_FST_dirnext_r 128 (dirnextIter 128 ⟨d, 0, true⟩ i) filename st).name n
              = c.name)) ∧
      (∀ (k : Nat) (filename : Nat → Option Char) (st : Stat), d.children.length ≤ k →
          _FST_dirnext_r 128 (dirnextIter 128 ⟨d, 0, true⟩ k) filename st
            = ⟨-1, some ENOENT, ⟨d, d.children.length, true⟩, filename, st⟩) ∧
      (∀ k : Nat, _FST_dirreset_r (dirnextIter 128 ⟨d, 0, true⟩ k)
          = ⟨0, none, ⟨d, 0, true⟩⟩) :=
  directory_iteration 128 sampleTree [] ⟨default, 7, false⟩ "fst:/0".toList (by decide)

/-- C19: the failing input in general. Let the child `c` at position `i` of a directory have
a name of exactly `FST_MAXPATHLEN - 1` characters (the longest `read_fst` accepts), and let
the caller's buffer hold a character `x` other than NUL at index `FST_MAXPATHLEN - 1`. Then
`_FST_dirnext_r` returns 0 with `stat_entry c` and moves the index on, but the name read from
the buffer is not the name of `c`: `strncpy` has written no terminating NUL, and the buffer
reads as the name followed by `x` and whatever follows it. -/
theorem C19_name_not_terminated (M : Nat) (d c : DIR_ENTRY) (i : Nat)
    (filename : Nat → Option Char) (st : Stat) (x : Char) (hM : 0 < M)
    (hc : d.children[i]? = some c) (hlen : c.name.length = M - 1)
    (hx : filename (M - 1) = some x) :
    (_FST_dirnext_r M ⟨d, i, true⟩ filename st).ret = 0 ∧
    (_FST_dirnext_r M ⟨d, i, true⟩ filename st).state = ⟨d, i + 1, true⟩ ∧
    (_FST_dirnext_r M ⟨d, i, true⟩ filename st).st = stat_entry c ∧
    (_FST_dirnext_r M ⟨d, i, true⟩ filename st).name M = c.name ++ [x] ∧
    (∀ n, M ≤ n →
      (_FST_dirnext_r M ⟨d, i, true⟩ filename st).name n ≠ c.name ∧
      c.name ++ [x] <+: (_FST_dirnext_r M ⟨d, i, true⟩ filename st).name n) := by
  rw [dirnext_at M d c i filename st hc]
  have htake : c.name.take (M - 1) = c.name := List.take_of_length_le (by omega)
  have hlong : ∀ m, bufferString (strncpy filename c.name (M - 1)) (M - 1 + (m + 1)) 0
      = c.name ++ x :: bufferString (strncpy filename c.name (M - 1)) m (M - 1 + 1) := by
    intro m
    rw [bufferString_strncpy_long filename c.name (M - 1) m x (by omega) hx, htake]
  refine ⟨rfl, rfl, rfl, ?_, ?_⟩
  · show bufferString (strncpy filename c.name (M - 1)) M 0 = c.name ++ [x]
    have h0 := hlong 0
    rw [show M - 1 + (0 + 1) = M by omega] at h0
    rw [h0]
    rfl
  · intro n hn
    show bufferString (strncpy filename c.name (M - 1)) n 0 ≠ c.name ∧
      c.name ++ [x] <+: bufferString (strncpy filename c.name (M - 1)) n 0
    have h1 := hlong (n - M)
    rw [show M - 1 + (n - M + 1) = n by omega] at h1
    rw [h1]
    refine ⟨?_, ?_⟩
    · intro hcon
      have := congrArg List.length hcon
      simp at this
    · exact ⟨bufferString (strncpy filename c.name (M - 1)) (n - M) (M - 1 + 1), by simp⟩

theorem C19_name_not_terminated_witness :
    (_FST_dirnext_r 4 ⟨.mk [] 0 0 0 1 [ .mk "abc".toList 0 0 5 0 [] ], 0, true⟩
      (fun _ => some 'z') Stat.zero).ret = 0 ∧
    (_FST_dirnext_r 4 ⟨.mk [] 0 0 0 1 [ .mk "abc".toList 0 0 5 0 [] ], 0, true⟩
      (fun _ => some 'z') Stat.zero).name 4 = "abcz".toList ∧
    (_FST_dirnext_r 4 ⟨.mk [] 0 0 0 1 [ .mk "abc".toList 0 0 5 0 [] ], 0, true⟩
      (fun _ => some 'z') Stat.zero).name 8 = "abczzzzz".toList :=
  have h := C19_name_not_terminated 4 (.mk [] 0 0 0 1 [ .mk "abc".toList 0 0 5 0 [] ])
    (.mk "abc".toList 0 0 5 0 []) 0 (fun _ => some 'z') Stat.zero 'z' (by decide) rfl rfl rfl
  ⟨h.1, h.2.2.2.1, by decide⟩

/-! ## Resolution of the root -/

theorem skipSeparators_all : ∀ s : List Char, (∀ c ∈ s, c = DIR_SEPARATOR) →
    skipSeparators s = [] := by
  intro s
  induction s with
  | nil => intro _; rfl
  | cons x xs ih =>
    intro h
    have hx : x = DIR_SEPARATOR := h x (by simp)
    subst hx
    rw [skipSeparators_cons_sep]
    exact ih (fun c hc => h c (by simp [hc]))

/-- A path of one or more separators resolves to the root, whatever the fuel. -/
theorem root_of_separators (M fuel : Nat) (root : DIR_ENTRY) (current : Ptr) (seps : List Char)
    (hne : seps ≠ []) (hall : ∀ c ∈ seps, c = DIR_SEPARATOR) :
    entry_from_path_fuel M fuel root current seps = some (some ([], root)) ∧
    entry_from_path_fuel M fuel root current (DEVICE_NAME ++ ':' :: seps)
      = some (some ([], root)) := by
  have hcolon : ':' ∉ seps := by
    intro hmem
    have := hall ':' hmem
    exact absurd this (by decide)
  have hs : strchr seps ':' = none := strchr_none_of_not_mem ':' seps hcolon
  have hhead : seps.head? = some DIR_SEPARATOR := by
    cases seps with
    | nil => exact absurd rfl hne
    | cons x xs =>
      have hx : x = DIR_SEPARATOR := hall x (by simp)
      rw [hx]
      rfl
  have hskip := skipSeparators_all seps hall
  refine ⟨?_, ?_⟩
  · unfold entry_from_path_fuel invalid_drive_specifier afterDrive
    simp only [hs, if_true, Bool.false_eq_true, if_false, hhead, hskip]
  · have hs2 : strchr (DEVICE_NAME ++ ':' :: seps) ':' = some (':' :: seps) :=
      strchr_append_none ':' seps DEVICE_NAME (by decide)
    have ht : DEVICE_NAME = (DEVICE_NAME ++ ':' :: seps).take DEVICE_NAME.length := by
      simp
    have hg : (DEVICE_NAME ++ ':' :: seps)[DEVICE_NAME.length]? = some ':' := by
      simp [DEVICE_NAME]
    unfold entry_from_path_fuel invalid_drive_specifier afterDrive
    rw [hs2]
    simp only [reduceCtorEq, if_false, ← ht, hg, and_self, if_true, Bool.false_eq_true,
      List.drop_one, List.tail_cons, hhead, hskip]

/-- C12 (as stated) fails: with no separator at all, the empty path and the path "fst:" do
not resolve (the empty remaining path is looked up as a name in the current directory). -/
theorem C12_counterexample :
    (entry_from_path 128 sampleTree [] []).isNone = true ∧
    (entry_from_path 128 sampleTree [] "fst:".toList).isNone = true := by
  refine ⟨?_, ?_⟩ <;> decide

/-- C12 (amended): every path that consists of one or more separators, with or without the
drive prefix "fst:" before them, resolves to the root entry; so does the path "." when the
current directory is the root. -/
theorem C12_root_resolution (M : Nat) (root : DIR_ENTRY) (current : Ptr) (seps : List Char)
    (hne : seps ≠ []) (hall : ∀ c ∈ seps, c = DIR_SEPARATOR) :
    entry_from_path M root current seps = some ([], root) ∧
    entry_from_path M root current (DEVICE_NAME ++ ':' :: seps) = some ([], root) ∧
    entry_from_path M root [] ['.'] = some ([], root) := by
  unfold entry_from_path
  rw [(root_of_separators M _ root current seps hne hall).1,
    (root_of_separators M _ root current seps hne hall).2]
  exact ⟨rfl, rfl, rfl⟩

theorem C12_root_resolution_witness :
    entry_from_path 128 sampleTree [0] "//".toList = some ([], sampleTree) ∧
    entry_from_path 128 sampleTree [0] "fst://".toList = some ([], sampleTree) ∧
    entry_from_path 128 sampleTree [] ['.'] = some ([], sampleTree) :=
  C12_root_resolution 128 sampleTree [0] "//".toList (by decide) (by decide)

/-! ## Resolution never descends through a file -/

theorem findChild_get (M : Nat) (pos : List Char) (len : Nat) (hasNext : Bool) :
    ∀ (cs : List DIR_ENTRY) (i idx : Nat) (e : DIR_ENTRY),
    findChild M pos len hasNext cs i = some (idx, e) →
    i ≤ idx ∧ cs[idx - i]? = some e ∧ childMatches M pos len hasNext e = true := by
  intro cs
  induction cs with
  | nil => intro i idx e h; simp [findChild] at h
  | cons a rest ih =>
    intro i idx e h
    unfold findChild at h
    split at h
    · rename_i hm
      simp only [Option.some.injEq, Prod.mk.injEq] at h
      obtain ⟨h1, h2⟩ := h
      subst h1
      subst h2
      simp [hm]
    · obtain ⟨h1, h2, h3⟩ := ih _ _ _ h
      refine ⟨by omega, ?_, h3⟩
      have : idx - i = (idx - (i + 1)) + 1 := by omega
      rw [this, List.getElem?_cons_succ]
      exact h2

theorem entryAt_snoc : ∀ (S : Ptr) (root : DIR_ENTRY) (k : Nat),
    entryAt root (S ++ [k]) = (entryAt root S).bind (fun d => d.children[k]?) := by
  intro S
  induction S with
  | nil =>
    intro root k
    simp only [List.nil_append, entryAt, Option.some_bind]
    cases root.children[k]? <;> rfl
  | cons i S ih =>
    intro root k
    simp only [List.cons_append, entryAt]
    cases root.children[i]? with
    | none => rfl
    | some c => exact ih c k

/-- One round of the outer loop of `entry_from_path` that ends in a returned entry: either
the component is the last one and the entry is the child found for it, or the component is
followed by a separator, the child found is a directory, and the walk stops there (nothing
but separators follows) or goes on inside it. -/
theorem walk_step (M : Nat) (f : Nat) (S : Ptr) (dir : DIR_ENTRY) (pos : List Char)
    (p : Ptr) (e : DIR_ENTRY) (h : walk M (f + 1) S dir pos = some (some (p, e))) :
    (strchr pos DIR_SEPARATOR = none ∧
        ∃ k, findChild M pos pos.length false dir.children 0 = some (k, e) ∧ p = S ++ [k]) ∨
    (∃ next k d, strchr pos DIR_SEPARATOR = some next ∧
        findChild M pos (pos.length - next.length) true dir.children 0 = some (k, d) ∧
        is_dir d = true ∧
        ((skipSeparators next = [] ∧ p = S ++ [k] ∧ e = d) ∨
         (skipSeparators next ≠ [] ∧
            walk M f (S ++ [k]) d (skipSeparators next) = some (some (p, e))))) := by
  rw [walk] at h
  cases hs : strchr pos DIR_SEPARATOR with
  | none =>
    rw [hs] at h
    simp only [Option.isSome_none] at h
    split at h
    · cases h
    · cases hf : findChild M pos pos.length false dir.children 0 with
      | none => rw [hf] at h; cases h
      | some ie =>
        obtain ⟨idx, e'⟩ := ie
        rw [hf] at h
        simp only [Option.some.injEq, Prod.mk.injEq] at h
        obtain ⟨hp, he⟩ := h
        left
        exact ⟨rfl, idx, by rw [he], hp.symm⟩
  | some next =>
    rw [hs] at h
    simp only [Option.isSome_some] at h
    split at h
    · cases h
    · cases hf : findChild M pos (pos.length - next.length) true dir.children 0 with
      | none => rw [hf] at h; cases h
      | some ie =>
        obtain ⟨idx, d⟩ := ie
        rw [hf] at h
        have hde := findChild_is_dir M pos _ _ _ _ _ hf
        simp only [hde, if_true] at h
        right
        refine ⟨next, idx, d, rfl, hf, hde, ?_⟩
        by_cases hsk : skipSeparators next = []
        · rw [if_pos hsk] at h
          simp only [Option.some.injEq, Prod.mk.injEq] at h
          exact Or.inl ⟨hsk, h.1.symm, h.2.symm⟩
        · rw [if_neg hsk] at h
          exact Or.inr ⟨hsk, h⟩

/-- The pointer returned by the walk lies strictly below the directory it started in. -/
theorem walk_prefix (M : Nat) : ∀ (f : Nat) (S : Ptr) (dir : DIR_ENTRY) (pos : List Char)
    (p : Ptr) (e : DIR_ENTRY), walk M f S dir pos = some (some (p, e)) →
    ∃ k t, p = S ++ k :: t := by
  intro f
  induction f with
  | zero => intro S dir pos p e h; simp [walk] at h
  | succ f ih =>
    intro S dir pos p e h
    rcases walk_step M f S dir pos p e h with ⟨_, k, _, hp⟩ | ⟨next, k, d, _, _, _, hcase⟩
    · exact ⟨k, [], hp⟩
    · rcases hcase with ⟨_, hp, _⟩ | ⟨_, hw⟩
      · exact ⟨k, [], hp⟩
      · obtain ⟨k', t, hp⟩ := ih _ _ _ _ _ hw
        exact ⟨k, k' :: t, by rw [hp]; simp⟩

/-- The entry returned by the walk is the one its pointer designates, and every entry
strictly between the starting directory and the returned entry is a directory. -/
theorem walk_spec (M : Nat) (root : DIR_ENTRY) : ∀ (f : Nat) (S : Ptr) (dir : DIR_ENTRY)
    (pos : List Char) (p : Ptr) (e : DIR_ENTRY), walk M f S dir pos = some (some (p, e)) →
    entryAt root S = some dir →
    ∃ idxs, p = S ++ idxs ∧ entryAt root p = some e ∧
      ∀ k, 0 < k → k < idxs.length →
        ∃ d, entryAt root (S ++ idxs.take k) = some d ∧ is_dir d = true := by
  intro f
  induction f with
  | zero => intro S dir pos p e h; simp [walk] at h
  | succ f ih =>
    intro S dir pos p e h hS
    have hchild : ∀ (k : Nat) (c : DIR_ENTRY), dir.children[k]? = some c →
        entryAt root (S ++ [k]) = some c := by
      intro k c hc
      rw [entryAt_snoc, hS]
      exact hc
    rcases walk_step M f S dir pos p e h with ⟨_, k, hf, hp⟩ | ⟨next, k, d, _, hf, hd, hcase⟩
    · have hg := (findChild_get M pos _ _ _ _ _ _ hf).2.1
      refine ⟨[k], hp, ?_, ?_⟩
      · rw [hp]
        exact hchild k e hg
      · intro j h0 h1
        simp at h1
        omega
    · have hg := (findChild_get M pos _ _ _ _ _ _ hf).2.1
      rcases hcase with ⟨_, hp, he⟩ | ⟨_, hw⟩
      · refine ⟨[k], hp, ?_, ?_⟩
        · rw [hp, he]
          exact hchild k d hg
        · intro j h0 h1
          simp at h1
          omega
      · obtain ⟨idxs, hp, hat, hall⟩ := ih _ _ _ _ _ hw (hchild k d hg)
        refine ⟨k :: idxs, by rw [hp]; simp, hat, ?_⟩
        intro j h0 h1
        cases j with
        | zero => omega
        | succ j =>
          simp only [List.take_succ_cons]
          by_cases hj : j = 0
          · subst hj
            exact ⟨d, by simpa using hchild k d hg, hd⟩
          · simp only [List.length_cons] at h1
            obtain ⟨d', hd1, hd2⟩ := hall j (by omega) (by omega)
            exact ⟨d', by simpa using hd1, hd2⟩

theorem strchr_suffix (c : Char) : ∀ (s t : List Char), strchr s c = some t →
    ∃ u, s = u ++ t := by
  intro s
  induction s with
  | nil => intro t h; simp [strchr] at h
  | cons a s ih =>
    intro t h
    unfold strchr at h
    split at h
    · cases h
      exact ⟨[], rfl⟩
    · obtain ⟨u, hu⟩ := ih t h
      exact ⟨a :: u, by rw [hu]; rfl⟩

theorem skipSeparators_suffix : ∀ s : List Char, ∃ u, s = u ++ skipSeparators s := by
  intro s
  induction s with
  | nil => exact ⟨[], rfl⟩
  | cons x xs ih =>
    by_cases hx : x = DIR_SEPARATOR
    · subst hx
      rw [skipSeparators_cons_sep]
      obtain ⟨u, hu⟩ := ih
      exact ⟨DIR_SEPARATOR :: u, by rw [List.cons_append, ← hu]⟩
    · rw [skipSeparators_cons_ne _ _ hx]
      exact ⟨[], rfl⟩

/-- A walk over a path that ends in a separator returns a directory. -/
theorem walk_trailing (M : Nat) : ∀ (f : Nat) (S : Ptr) (dir : DIR_ENTRY) (pos : List Char)
    (p : Ptr) (e : DIR_ENTRY), pos.getLast? = some DIR_SEPARATOR →
    walk M f S dir pos = some (some (p, e)) → is_dir e = true := by
  intro f
  induction f with
  | zero => intro S dir pos p e _ h; simp [walk] at h
  | succ f ih =>
    intro S dir pos p e hlast h
    rcases walk_step M f S dir pos p e h with ⟨hs, _⟩ | ⟨next, k, d, hs, _, hd, hcase⟩
    · exact absurd hs (strchr_isSome_of_mem DIR_SEPARATOR pos (List.mem_of_mem_getLast? hlast))
    · rcases hcase with ⟨_, _, he⟩ | ⟨hsk, hw⟩
      · rw [he]
        exact hd
      · obtain ⟨u, hu⟩ := strchr_suffix DIR_SEPARATOR pos next hs
        obtain ⟨v, hv⟩ := skipSeparators_suffix next
        have hpos : pos = (u ++ v) ++ skipSeparators next := by
          rw [List.append_assoc, ← hv, ← hu]
        rw [hpos, List.getLast?_append_of_ne_nil _ hsk] at hlast
        exact ih _ _ _ _ _ hlast hw

/-- When a path resolves to a file, the path continued by a separator and anything else does
not resolve to the place of that file. -/
theorem walk_file_ext (M : Nat) : ∀ (f : Nat) (S : Ptr) (dir : DIR_ENTRY) (pos : List Char)
    (pf : Ptr) (fe : DIR_ENTRY), walk M f S dir pos = some (some (pf, fe)) →
    is_dir fe = false →
    ∀ (f' : Nat) (rest : List Char) (p' : Ptr) (e' : DIR_ENTRY),
      walk M f' S dir (pos ++ DIR_SEPARATOR :: rest) = some (some (p', e')) → p' ≠ pf := by
  intro f
  induction f with
  | zero => intro S dir pos pf fe h; simp [walk] at h
  | succ f ih =>
    intro S dir pos pf fe h hfe f' rest p' e' h'
    cases f' with
    | zero => simp [walk] at h'
    | succ f' =>
      rcases walk_step M f S dir pos pf fe h with
        ⟨hs, k, hf, hp⟩ | ⟨next, k, d, hs, hf, hd, hcase⟩
      · have hs' := strchr_append_none DIR_SEPARATOR rest pos hs
        have hg := (findChild_get M pos _ _ _ _ _ _ hf).2.1
        rcases walk_step M f' S dir _ p' e' h' with
          ⟨hn, _⟩ | ⟨next', k', d', hn, hf', hd', hcase'⟩
        · rw [hs'] at hn
          cases hn
        · have hg' := (findChild_get M _ _ _ _ _ _ _ hf').2.1
          have hk : k' ≠ k := by
            intro hkk
            rw [hkk] at hg'
            simp only [Nat.sub_zero] at hg hg'
            rw [hg] at hg'
            simp only [Option.some.injEq] at hg'
            rw [hg', hd'] at hfe
            cases hfe
          have hp' : ∃ t, p' = S ++ k' :: t := by
            rcases hcase' with ⟨_, hp', _⟩ | ⟨_, hw⟩
            · exact ⟨[], hp'⟩
            · obtain ⟨k2, t, ht⟩ := walk_prefix M _ _ _ _ _ _ hw
              exact ⟨k2 :: t, by rw [ht]; simp⟩
          obtain ⟨t, ht⟩ := hp'
          intro heq
          rw [ht, hp] at heq
          have := List.append_cancel_left heq
          simp only [List.cons.injEq] at this
          exact hk this.1
      · rcases hcase with ⟨_, _, he⟩ | ⟨hsk, hw⟩
        · rw [he, hd] at hfe
          cases hfe
        · have hs' := strchr_append_some DIR_SEPARATOR (DIR_SEPARATOR :: rest) pos next hs
          have hle := (strchr_length_le DIR_SEPARATOR pos next hs).1
          rcases walk_step M f' S dir _ p' e' h' with
            ⟨hn, _⟩ | ⟨next', k', d', hn, hf', hd', hcase'⟩
          · rw [hs'] at hn
            cases hn
          · rw [hs'] at hn
            simp only [Option.some.injEq] at hn
            subst hn
            have hl : (pos ++ DIR_SEPARATOR :: rest).length
                - (next ++ DIR_SEPARATOR :: rest).length = pos.length - next.length := by
              simp
              omega
            rw [hl, findChild_append M pos _ _ true (by omega), hf] at hf'
            simp only [Option.some.injEq, Prod.mk.injEq] at hf'
            obtain ⟨hk, hdd⟩ := hf'
            subst hk
            subst hdd
            have hskip : skipSeparators (next ++ DIR_SEPARATOR :: rest)
                = skipSeparators next ++ DIR_SEPARATOR :: rest := by
              rw [skipSeparators_append, if_neg hsk]
            rw [hskip] at hcase'
            rcases hcase' with ⟨hnil, _, _⟩ | ⟨_, hw'⟩
            · simp at hnil
            · exact ih _ _ _ _ _ hw hfe _ _ _ _ hw'

/-- The entry a walk over a non-empty path returns is a directory or has a non-empty name
(within the first `M - 1` characters). -/
theorem walk_name_pos (M : Nat) : ∀ (f : Nat) (S : Ptr) (dir : DIR_ENTRY) (pos : List Char)
    (p : Ptr) (e : DIR_ENTRY), pos ≠ [] → walk M f S dir pos = some (some (p, e)) →
    is_dir e = true ∨ 1 ≤ strnlen e.name (M - 1) := by
  intro f
  induction f with
  | zero => intro S dir pos p e _ h; simp [walk] at h
  | succ f ih =>
    intro S dir pos p e hne h
    rcases walk_step M f S dir pos p e h with ⟨_, k, hf, _⟩ | ⟨next, k, d, _, _, hd, hcase⟩
    · right
      have hm := (findChild_get M pos _ _ _ _ _ _ hf).2.2
      rw [childMatches_false] at hm
      unfold nameMatches at hm
      simp only [Bool.decide_and, Bool.and_eq_true, decide_eq_true_eq] at hm
      have := List.length_pos.mpr hne
      omega
    · rcases hcase with ⟨_, _, he⟩ | ⟨hsk, hw⟩
      · left
        rw [he]
        exact hd
      · exact ih _ _ _ _ _ hsk hw

/-- The entry a walk over the empty path returns has an empty name (within the first
`M - 1` characters). -/
theorem walk_name_zero (M : Nat) (f : Nat) (S : Ptr) (dir : DIR_ENTRY) (p : Ptr)
    (e : DIR_ENTRY) (h : walk M f S dir [] = some (some (p, e))) :
    strnlen e.name (M - 1) = 0 := by
  cases f with
  | zero => simp [walk] at h
  | succ f =>
    rcases walk_step M f S dir [] p e h with ⟨_, k, hf, _⟩ | ⟨next, k, d, hs, _⟩
    · have hm := (findChild_get M [] _ _ _ _ _ _ hf).2.2
      rw [childMatches_false] at hm
      unfold nameMatches at hm
      simp only [Bool.decide_and, Bool.and_eq_true, decide_eq_true_eq] at hm
      have := hm.1
      simp at this
      omega
    · simp [strchr] at hs

/-- How `entry_from_path` comes to return an entry: the root itself, or the result of the
walk from the starting directory. -/
theorem efp_cases (M : Nat) (root : DIR_ENTRY) (current : Ptr) (path : List Char) (p : Ptr)
    (e : DIR_ENTRY) (h : entry_from_path M root current path = some (p, e)) :
    invalid_drive_specifier path = false ∧
    ((p = [] ∧ e = root ∧ startDir current path = []) ∨
     (∃ cur f pos, entryAt root (startDir current path) = some cur ∧
        walk M f (startDir current path) cur pos = some (some (p, e)) ∧
        (((afterDrive path).head? = some DIR_SEPARATOR ∧
            pos = skipSeparators (afterDrive path) ∧ pos ≠ []) ∨
         ((afterDrive path).head? ≠ some DIR_SEPARATOR ∧ pos = afterDrive path)))) := by
  unfold entry_from_path at h
  rw [Option.join_eq_some] at h
  unfold entry_from_path_fuel at h
  cases hinv : invalid_drive_specifier path with
  | true => rw [hinv] at h; simp at h
  | false =>
    rw [hinv] at h
    simp only [Bool.false_eq_true, if_false] at h
    refine ⟨rfl, ?_⟩
    unfold startDir
    by_cases hh : (afterDrive path).head? = some DIR_SEPARATOR
    · rw [if_pos hh] at h ⊢
      by_cases hsk : skipSeparators (afterDrive path) = []
      · rw [if_pos hsk] at h
        simp only [Option.some.injEq, Prod.mk.injEq] at h
        exact Or.inl ⟨h.1.symm, h.2.symm, rfl⟩
      · rw [if_neg hsk] at h
        by_cases hdot : skipSeparators (afterDrive path) = ['.']
        · rw [if_pos hdot] at h
          simp only [Option.some.injEq, Prod.mk.injEq] at h
          exact Or.inl ⟨h.1.symm, h.2.symm, rfl⟩
        · rw [if_neg hdot] at h
          exact Or.inr ⟨root, _, _, rfl, h, Or.inl ⟨hh, rfl, hsk⟩⟩
    · rw [if_neg hh] at h ⊢
      cases hcur : entryAt root current with
      | none => rw [hcur] at h; simp at h
      | some cur =>
        rw [hcur] at h
        simp only [] at h
        by_cases hdot : current = [] ∧ afterDrive path = ['.']
        · rw [if_pos hdot] at h
          simp only [Option.some.injEq, Prod.mk.injEq] at h
          obtain ⟨hp, he⟩ := h
          rw [hdot.1] at hcur hp
          simp only [entryAt, Option.some.injEq] at hcur
          exact Or.inl ⟨hp.symm, by rw [← he, ← hcur], hdot.1⟩
        · rw [if_neg hdot] at h
          exact Or.inr ⟨cur, _, _, rfl, h, Or.inr ⟨hh, rfl⟩⟩

/-- A valid path continued by a separator keeps its drive prefix. -/
theorem afterDrive_sep_append (p rest : List Char)
    (h : invalid_drive_specifier (p ++ DIR_SEPARATOR :: rest) = false) :
    afterDrive (p ++ DIR_SEPARATOR :: rest) = afterDrive p ++ DIR_SEPARATOR :: rest := by
  cases hs : strchr p ':' with
  | some s =>
    unfold afterDrive
    rw [hs, strchr_append_some ':' _ p s hs]
    have := (strchr_length_le ':' p s hs).2
    cases s with
    | nil => simp at this
    | cons a s => simp
  | none =>
    by_cases hmem : ':' ∈ rest
    · exfalso
      have hp : ':' ∉ p := fun hm => strchr_isSome_of_mem ':' p hm hs
      have hne : strchr (p ++ DIR_SEPARATOR :: rest) ':' ≠ none :=
        strchr_isSome_of_mem ':' _ (by simp [hmem])
      unfold invalid_drive_specifier at h
      rw [if_neg hne] at h
      split at h
      · rename_i hc
        obtain ⟨h1, h2⟩ := hc
        rcases p with _ | ⟨a, _ | ⟨b, _ | ⟨c, _ | ⟨d, t⟩⟩⟩⟩
        · simp [DEVICE_NAME, DIR_SEPARATOR] at h1
        · simp [DEVICE_NAME, DIR_SEPARATOR] at h1
        · simp [DEVICE_NAME, DIR_SEPARATOR] at h1
        · simp [DEVICE_NAME, DIR_SEPARATOR] at h2
        · simp [DEVICE_NAME] at h2
          simp [h2] at hp
      · cases h
    · have hx : ':' ∉ DIR_SEPARATOR :: rest := by
        simp only [List.mem_cons, not_or]
        exact ⟨by decide, hmem⟩
      exact afterDrive_append p _ hx

/-- C11: let `entry_from_path` return the entry `e` at pointer `p` of a tree whose root is
a directory. Then `e` is the entry of the tree at `p`; every entry strictly between the
starting directory and `e` (the entries matched for the components that are followed by a
separator and by a further component) is a directory; if the path ends in a separator, `e`
itself is a directory; and if `e` is not a directory, no path obtained by appending a
separator and anything else resolves to the place `p` of `e`. -/
theorem C11_no_descent_through_files (M : Nat) (root : DIR_ENTRY) (current : Ptr)
    (path : List Char) (p : Ptr) (e : DIR_ENTRY) (hroot : is_dir root = true)
    (h : entry_from_path M root current path = some (p, e)) :
    entryAt root p = some e ∧
    (∃ idxs, p = startDir current path ++ idxs ∧
      ∀ k, 0 < k → k < idxs.length →
        ∃ d, entryAt root (startDir current path ++ idxs.take k) = some d ∧ is_dir d = true) ∧
    ((afterDrive path).getLast? = some DIR_SEPARATOR → is_dir e = true) ∧
    (is_dir e = false → ∀ (rest : List Char) (p' : Ptr) (e' : DIR_ENTRY),
      entry_from_path M root current (path ++ DIR_SEPARATOR :: rest) = some (p', e') →
        p' ≠ p) := by
  obtain ⟨_, hcase⟩ := efp_cases M root current path p e h
  rcases hcase with ⟨hp, he, hstart⟩ | ⟨cur, f, pos, hcur, hw, hpos⟩
  · subst hp
    subst he
    refine ⟨rfl, ⟨[], by rw [hstart]; rfl, ?_⟩, fun _ => hroot, ?_⟩
    · intro k h0 h1
      simp at h1
    · intro hfile
      rw [hroot] at hfile
      cases hfile
  · obtain ⟨idxs, hidx, hat, hall⟩ := walk_spec M root f _ cur pos p e hw hcur
    refine ⟨hat, ⟨idxs, hidx, hall⟩, ?_, ?_⟩
    · intro hlast
      rcases hpos with ⟨_, hpos, hne⟩ | ⟨_, hpos⟩
      · obtain ⟨u, hu⟩ := skipSeparators_suffix (afterDrive path)
        rw [hu, List.getLast?_append_of_ne_nil _ (by rw [← hpos]; exact hne), ← hpos] at hlast
        exact walk_trailing M f _ cur pos p e hlast hw
      · rw [← hpos] at hlast
        exact walk_trailing M f _ cur pos p e hlast hw
    · intro hfile rest p' e' h'
      obtain ⟨hinv', hcase'⟩ := efp_cases M root current _ p' e' h'
      have had := afterDrive_sep_append path rest hinv'
      obtain ⟨k0, t0, hpk⟩ := walk_prefix M f _ cur pos p e hw
      rcases hcase' with ⟨hp', _, _⟩ | ⟨cur', f', pos', hcur', hw', hpos'⟩
      · rw [hp', hpk]
        intro hc
        have := congrArg List.length hc
        simp at this
        omega
      · by_cases hap : afterDrive path = []
        · -- the path itself is empty after the drive prefix: it named an entry with an
          -- empty name, while the continued path is absolute
          rcases hpos with ⟨hh, _, _⟩ | ⟨_, hpos⟩
          · rw [hap] at hh
            cases hh
          · rw [hap] at hpos
            subst hpos
            have hz := walk_name_zero M f _ cur p e hw
            rw [had, hap] at hpos'
            rcases hpos' with ⟨_, _, hne'⟩ | ⟨hh', _⟩
            · obtain ⟨_, _, hat', _⟩ := walk_spec M root f' _ cur' pos' p' e' hw' hcur'
              intro hc
              rw [hc, hat] at hat'
              simp only [Option.some.injEq] at hat'
              subst hat'
              rcases walk_name_pos M f' _ cur' pos' p' e hne' hw' with hd | hn
              · rw [hd] at hfile
                cases hfile
              · omega
            · exact absurd rfl hh'
        · have hhead : (afterDrive (path ++ DIR_SEPARATOR :: rest)).head?
              = (afterDrive path).head? := by
            rw [had]
            exact List.head?_append_of_ne_nil _ hap
          have hst : startDir current (path ++ DIR_SEPARATOR :: rest) = startDir current path := by
            unfold startDir
            rw [hhead]
          rw [hst] at hcur' hw'
          rw [hcur] at hcur'
          simp only [Option.some.injEq] at hcur'
          subst hcur'
          have hpos2 : pos' = pos ++ DIR_SEPARATOR :: rest := by
            rcases hpos with ⟨hh, hpos, hne⟩ | ⟨hh, hpos⟩
            · rcases hpos' with ⟨_, hpos', _⟩ | ⟨hh', _⟩
              · rw [hpos', had, skipSeparators_append, if_neg (by rw [← hpos]; exact hne), hpos]
              · rw [hhead] at hh'
                exact absurd hh hh'
            · rcases hpos' with ⟨hh', _, _⟩ | ⟨_, hpos'⟩
              · rw [hhead] at hh'
                exact absurd hh' hh
              · rw [hpos', had, hpos]
          rw [hpos2] at hw'
          exact walk_file_ext M f _ cur pos p e hw hfile f' rest p' e' hw'

theorem C11_no_descent_through_files_witness :
    entryAt sampleTree [0, 0] = some (.mk "A.TXT".toList 0 0x10 100 0 []) ∧
    (∃ idxs, [0, 0] = startDir [] "/0/A.TXT".toList ++ idxs ∧
      ∀ k, 0 < k → k < idxs.length →
        ∃ d, entryAt sampleTree (startDir [] "/0/A.TXT".toList ++ idxs.take k) = some d ∧
          is_dir d = true) ∧
    ((afterDrive "/0/A.TXT".toList).getLast? = some DIR_SEPARATOR →
      is_dir (.mk "A.TXT".toList 0 0x10 100 0 []) = true) ∧
    (is_dir (.mk "A.TXT".toList 0 0x10 100 0 []) = false →
      ∀ (rest : List Char) (p' : Ptr) (e' : DIR_ENTRY),
        entry_from_path 128 sampleTree [] ("/0/A.TXT".toList ++ DIR_SEPARATOR :: rest)
          = some (p', e') → p' ≠ [0, 0]) :=
  C11_no_descent_through_files 128 sampleTree [] "/0/A.TXT".toList [0, 0]
    (.mk "A.TXT".toList 0 0x10 100 0 []) (by decide) rfl

/-! ## Unmounting twice -/

/-- C22 (as stated) fails: on a mounted state (device number 3) with a library whose
`RemoveDevice` reports failure, the first `FST_Unmount` returns `false`; the second returns
`true`. With a `RemoveDevice` that reports success both calls return `true`. -/
theorem C22_counterexample :
    mountedState.dotab_device = 3 ∧
    (FST_Unmount envRemoveFails mountedState).1 = false ∧
    (FST_Unmount envRemoveFails (FST_Unmount envRemoveFails mountedState).2).1 = true ∧
    (FST_Unmount envZero mountedState).1 = true ∧
    (FST_Unmount envZero (FST_Unmount envZero mountedState).2).1 = true := by
  refine ⟨?_, ?_, ?_, ?_, ?_⟩ <;> decide

/-- C22 (amended): `FST_Unmount` called twice in a row, from any state and with any library.
The first call returns `true` when no device is registered and otherwise what `RemoveDevice`
reports (`true` exactly when it returns 0); it leaves no root, no current directory, no
partitions, an empty cache range, the last-access time 0 and no registered device when the
device number was at least -1. The second call returns `true` and leaves the whole state
(root, current directory, partitions, cache, last-access time, device number) exactly as
the first call left it. -/
theorem C22_unmount_twice (env : Env) (g : Globals) :
    (FST_Unmount env g).1
      = (if 0 ≤ g.dotab_device then decide (env.removeDevice = 0) else true) ∧
    ((FST_Unmount env g).2.root = none ∧ (FST_Unmount env g).2.current = none ∧
      (FST_Unmount env g).2.partitions = [] ∧ (FST_Unmount env g).2.aescache_end = 0 ∧
      (FST_Unmount env g).2.last_access = 0 ∧ (FST_Unmount env g).2.dotab_device < 0 ∧
      (-1 ≤ g.dotab_device → (FST_Unmount env g).2.dotab_device = -1)) ∧
    (FST_Unmount env (FST_Unmount env g).2).1 = true ∧
    (FST_Unmount env (FST_Unmount env g).2).2 = (FST_Unmount env g).2 := by
  unfold FST_Unmount
  by_cases hd : g.dotab_device ≥ 0
  · simp [hd]
  · simp [hd]
    omega

/-! ## Byte counts and offsets beyond 4 GiB -/

/-- C23: evaluation at the failing input. A read of 0x10000 bytes at offset 0 of an encrypted
file of 0x10000 bytes whose data starts 4 GiB into the partition (`entry.offset =
0x40000000`) succeeds with 0x7c00 bytes and moves the handle to 0x7c00, while the count the
claim gives, `min(l, s - o, 0x7c00 - ((4 * entry.offset + o) mod 0x7c00))`, is 0x6c00: the
`u32` shift `entry->offset << 2` wraps to 0. -/
theorem C23_count_wraps_at_4GiB :
    (_FST_read_r envZero onePartition ⟨farBigFile, 0, true⟩ (fun _ => 0) 0x10000).ret = 0x7c00 ∧
    (_FST_read_r envZero onePartition ⟨farBigFile, 0, true⟩ (fun _ => 0) 0x10000).file.offset
      = 0x7c00 ∧
    readCount onePartition ⟨farBigFile, 0, true⟩ 0x10000 = 0x6c00 ∧
    min (min 0x10000 (farBigFile.size - 0)) (0x7c00 - (4 * farBigFile.offset + 0) % 0x7c00)
      = 0x6c00 := by
  refine ⟨?_, ?_, ?_, ?_⟩ <;> decide

/-- C29: evaluation at two failing inputs. On a partition that starts 4 GiB into the disc
(`partition.offset = 0x40000000`) a read of the first byte of a raw entry returns the byte at
disc offset 0 (block 0), not the byte at `4 * partition.offset + 4 * entry.offset + offset
= 2 ^ 32` (block 1): the `u32` shift `partition->offset << 2` wraps to 0. And for a
partition whose data start at 0x60000 and whose table is 4 GiB into the decrypted data
(`fst_offset = 0x40000000`), the table location `read_partition` uses is 0x60400, where
`data offset + plaintext_to_cipher (4 * fst_offset)` is 0x108481400. -/
theorem C29_offsets_wrap :
    (_FST_read_r envBlocks farPartition ⟨rawFile, 0, true⟩ (fun _ => 0) 1).ret = 1 ∧
    (_FST_read_r envBlocks farPartition ⟨rawFile, 0, true⟩ (fun _ => 0) 1).ptr 0 = 0 ∧
    envBlocks.disc 0 = 0 ∧
    4 * (partitionOf farPartition ⟨rawFile, 0, true⟩).offset + 4 * rawFile.offset + 0 = 2 ^ 32 ∧
    envBlocks.disc (4 * (partitionOf farPartition ⟨rawFile, 0, true⟩).offset
      + 4 * rawFile.offset + 0) = 1 ∧
    fst_location 0x60000 ⟨0, 0x40000000, 1, 0⟩ = 0x60400 ∧
    0x60000 + plaintext_to_cipher (4 * 0x40000000) = 0x108481400 := by
  refine ⟨?_, ?_, ?_, ?_, ?_, ?_, ?_⟩ <;> decide

/-! ## The offset of a handle and the size of its entry -/

/-- C26: evaluation at two failing inputs. After a successful open of the 100-byte file
"/0/A.TXT", a seek to offset 1 and a read of `2 ^ 32 - 1` bytes leave the handle at offset
0x7bc0: `len + file->offset` wraps to 0 and the length is not clipped to the end of the
file. After a successful open of the raw file "/m/raw" on a drive whose reads fail, a read
of one byte leaves the handle at offset `2 ^ 32 - 1`. -/
theorem C26_offset_exceeds_size :
    (_FST_open_r 128 sampleTree [] 3 ⟨default, 0, false⟩ "/0/A.TXT".toList).ret = 3 ∧
    (_FST_open_r 128 sampleTree [] 3 ⟨default, 0, false⟩ "/0/A.TXT".toList).file.entry.size
      = 100 ∧
    (runCalls envZero
      (onePartition, (_FST_open_r 128 sampleTree [] 3 ⟨default, 0, false⟩ "/0/A.TXT".toList).file)
      [.seek 1 SEEK_SET, .read 0xFFFFFFFF]).2.offset = 0x7bc0 ∧
    (_FST_open_r 128 metaTree [] 3 ⟨default, 0, false⟩ "/m/raw".toList).ret = 3 ∧
    (_FST_open_r 128 metaTree [] 3 ⟨default, 0, false⟩ "/m/raw".toList).file.entry.size
      = 0x10000 ∧
    (runCalls envBroken
      (onePartition, (_FST_open_r 128 metaTree [] 3 ⟨default, 0, false⟩ "/m/raw".toList).file)
      [.read 1]).2.offset = 0xFFFFFFFF := by
  refine ⟨?_, ?_, ?_, ?_, ?_, ?_⟩ <;> decide

/-! ## Sizes of "main.dol" and "appldr.bin" -/

theorem dol_step_eq (read_buffer : Mem) (a b : Int) (m : Nat) :
    dol_step read_buffer a b m = max m ((load_u32 read_buffer a + load_u32 read_buffer b) % 2 ^ 32) := by
  unfold dol_step
  simp only []
  split <;> omega

/-- The two loops of `read_dol_size` compute one maximum over the 18 segments. -/
theorem dol_max_eq_spec (header : Mem) : dol_max header = dolSizeSpec header := by
  have h1 : ∀ (m i : Nat), dol_step header ((i : Int) * 4) ((i : Int) * 4 + 0x90) m
      = max m (segmentEnd header i) := by
    intro m i
    rw [dol_step_eq]
    unfold segmentEnd
    rw [show (i : Int) * 4 = 4 * (i : Int) by ring, show 4 * (i : Int) + 0x90 = 0x90 + 4 * (i : Int) by ring]
  have h2 : ∀ (m i : Nat), dol_step header ((i : Int) * 4 + 0x1c) ((i : Int) * 4 + 0xac) m
      = max m (segmentEnd header (7 + i)) := by
    intro m i
    rw [dol_step_eq]
    unfold segmentEnd
    rw [show (i : Int) * 4 + 0x1c = 4 * ((7 + i : Nat) : Int) by push_cast; ring,
      show (i : Int) * 4 + 0xac = 0x90 + 4 * ((7 + i : Nat) : Int) by push_cast; ring]
  unfold dol_max dolSizeSpec
  simp only [h1, h2]
  rw [show (18 : Nat) = 7 + 11 from rfl, List.range_add, List.map_append, List.foldl_append,
    List.foldl_map, List.foldl_map, List.foldl_map]

theorem foldl_max_zero : ∀ (l : List Nat), (∀ x ∈ l, x = 0) → l.foldl max 0 = 0 := by
  intro l
  induction l with
  | nil => intro _; rfl
  | cons a l ih =>
    intro h
    have ha : a = 0 := h a (by simp)
    subst ha
    simp only [List.foldl_cons, Nat.max_self]
    exact ih (fun x hx => h x (by simp [hx]))

/-- C24: for every header, the two loops of `read_dol_size` yield the maximum of
`offset_i + size_i` (in 32-bit arithmetic) over the 18 segments, the offsets being the words
from byte 0 and the sizes the words from byte 0x90; the value is 0 when every sum is 0; and a
successful `read_dol_size` stores that value, computed from the 0x100 bytes it has decrypted
into `read_buffer`, as the size of the entry, leaving its other fields as they were. -/
theorem C24_dol_size (env : Env) (g : Globals) (dol : DIR_ENTRY) (data_offset : Nat)
    (key : aeskey) :
    (∀ header : Mem, dol_max header = dolSizeSpec header) ∧
    (∀ header : Mem, (∀ i, i < 18 → segmentEnd header i = 0) → dol_max header = 0) ∧
    ((read_dol_size env g dol data_offset key).1 = true →
      (read_dol_size env g dol data_offset key).2.1
        = dol.withSize (dolSizeSpec (read_dol_size env g dol data_offset key).2.2.read_buffer)) := by
  refine ⟨dol_max_eq_spec, ?_, ?_⟩
  · intro header h
    rw [dol_max_eq_spec]
    unfold dolSizeSpec
    apply foldl_max_zero
    intro x hx
    simp only [List.mem_map, List.mem_range] at hx
    obtain ⟨i, hi, hxi⟩ := hx
    rw [← hxi]
    exact h i hi
  · intro hok
    unfold read_dol_size at hok ⊢
    simp only [] at hok ⊢
    split at hok
    · simp at hok
    · rename_i hr
      rw [if_neg hr, dol_max_eq_spec]

/-- An executable header with a text segment ending at 0x120 and a data segment ending at
0x340 yields the size 0x340. -/
theorem read_dol_size_example :
    (read_dol_size envDol Globals.initial dolEntry 0 []).1 = true ∧
    (read_dol_size envDol Globals.initial dolEntry 0 []).2.1.size = 0x340 := by
  refine ⟨?_, ?_⟩ <;> decide

theorem C24_dol_size_witness :
    (read_dol_size envDol Globals.initial dolEntry 0 []).1 = true ∧
    (read_dol_size envDol Globals.initial dolEntry 0 []).2.1
      = dolEntry.withSize
          (dolSizeSpec (read_dol_size envDol Globals.initial dolEntry 0 []).2.2.read_buffer) :=
  ⟨by decide, (C24_dol_size envDol Globals.initial dolEntry 0 []).2.2 (by decide)⟩

theorem appldr_size_eq (read_buffer : Mem) :
    appldr_size read_buffer =
      if (load_u32 read_buffer 0 + load_u32 read_buffer 4) % 2 ^ 32 = 0 then 0
      else ((load_u32 read_buffer 0 + load_u32 read_buffer 4) % 2 ^ 32 + 32) % 2 ^ 32 := by
  unfold appldr_size
  by_cases h : (load_u32 read_buffer 0 + load_u32 read_buffer 4) % 2 ^ 32 = 0
  · simp only [h, ne_eq, not_true_eq_false, if_false, if_true]
  · simp only [h, ne_eq, not_false_eq_true, if_true, if_false]

/-- C25 (as stated) fails: with the fields 1 and 2 at plaintext offset 0x2454,
`read_appldr_size` sets the size to 35, not to 3. -/
theorem C25_counterexample :
    (read_appldr_size envAppldr Globals.initial smallFile 0 []).1 = true ∧
    load_u32 (read_appldr_size envAppldr Globals.initial smallFile 0 []).2.2.read_buffer 0 = 1 ∧
    load_u32 (read_appldr_size envAppldr Globals.initial smallFile 0 []).2.2.read_buffer 4 = 2 ∧
    (read_appldr_size envAppldr Globals.initial smallFile 0 []).2.1.size = 35 := by
  refine ⟨?_, ?_, ?_, ?_⟩ <;> decide

/-- C25 (amended): a successful `read_appldr_size` sets the size of the entry, from the two
32-bit fields `a` and `b` it has decrypted into `read_buffer`, to `a + b + 32` (in 32-bit
arithmetic) when `a + b` is not 0, and to 0 when it is; the other fields of the entry are
left as they were. -/
theorem C25_appldr_size (env : Env) (g : Globals) (appldr : DIR_ENTRY) (data_offset : Nat)
    (key : aeskey) (hok : (read_appldr_size env g appldr data_offset key).1 = true) :
    (read_appldr_size env g appldr data_offset key).2.1 =
      appldr.withSize
        (if (load_u32 (read_appldr_size env g appldr data_offset key).2.2.read_buffer 0
            + load_u32 (read_appldr_size env g appldr data_offset key).2.2.read_buffer 4)
              % 2 ^ 32 = 0 then 0
         else ((load_u32 (read_appldr_size env g appldr data_offset key).2.2.read_buffer 0
            + load_u32 (read_appldr_size env g appldr data_offset key).2.2.read_buffer 4)
              % 2 ^ 32 + 32) % 2 ^ 32) := by
  unfold read_appldr_size at hok ⊢
  simp only [] at hok ⊢
  split at hok
  · simp at hok
  · rename_i hr
    rw [if_neg hr, appldr_size_eq]

theorem C25_appldr_size_witness :
    (read_appldr_size envAppldr Globals.initial smallFile 0 []).2.1 =
      smallFile.withSize
        (if (load_u32 (read_appldr_size envAppldr Globals.initial smallFile 0 []).2.2.read_buffer 0
            + load_u32 (read_appldr_size envAppldr Globals.initial smallFile 0 []).2.2.read_buffer 4)
              % 2 ^ 32 = 0 then 0
         else ((load_u32 (read_appldr_size envAppldr Globals.initial smallFile 0 []).2.2.read_buffer 0
            + load_u32 (read_appldr_size envAppldr Globals.initial smallFile 0 []).2.2.read_buffer 4)
              % 2 ^ 32 + 32) % 2 ^ 32) :=
  C25_appldr_size envAppldr Globals.initial smallFile 0 [] (by decide)

/-! ## Flags of the entries parsed from a table -/

theorem preorderList_append (a b : List DIR_ENTRY) :
    preorderList (a ++ b) = preorderList a ++ preorderList b := by
  induction a with
  | nil => simp [preorderList]
  | cons e es ih => simp [preorderList, ih]

theorem flags_withOffset (e : DIR_ENTRY) (o : Nat) : (e.withOffset o).flags = e.flags := by
  cases e; rfl

theorem flags_withSize (e : DIR_ENTRY) (s : Nat) : (e.withSize s).flags = e.flags := by
  cases e; rfl

theorem flags_withChildren (e : DIR_ENTRY) (c : List DIR_ENTRY) :
    (e.withChildren c).flags = e.flags := by
  cases e; rfl

theorem flags_withFlags (e : DIR_ENTRY) (f : Nat) : (e.withFlags f).flags = f := by
  cases e; rfl

theorem children_withOffset (e : DIR_ENTRY) (o : Nat) :
    (e.withOffset o).children = e.children := by
  cases e; rfl

theorem children_withSize (e : DIR_ENTRY) (s : Nat) : (e.withSize s).children = e.children := by
  cases e; rfl

theorem children_withFlags (e : DIR_ENTRY) (f : Nat) :
    (e.withFlags f).children = e.children := by
  cases e; rfl

theorem children_withChildren (e : DIR_ENTRY) (c : List DIR_ENTRY) :
    (e.withChildren c).children = c := by
  cases e; rfl

theorem preorder_eq (e : DIR_ENTRY) :
    preorder e = (e.name, e.flags, e.offset, e.size) :: preorderList e.children := by
  cases e
  simp [preorder, DIR_ENTRY.name, DIR_ENTRY.flags, DIR_ENTRY.offset, DIR_ENTRY.size,
    DIR_ENTRY.children]

theorem name_withOffset (e : DIR_ENTRY) (o : Nat) : (e.withOffset o).name = e.name := by
  cases e; rfl

theorem name_withSize (e : DIR_ENTRY) (s : Nat) : (e.withSize s).name = e.name := by
  cases e; rfl

theorem name_withChildren (e : DIR_ENTRY) (c : List DIR_ENTRY) :
    (e.withChildren c).name = e.name := by
  cases e; rfl

theorem name_withFlags (e : DIR_ENTRY) (f : Nat) : (e.withFlags f).name = e.name := by
  cases e; rfl

/-- The loop of `read_fst` keeps the name and the flags of the directory and adds below it
only what the recursive calls add. -/
theorem read_fst_loop_flags (P : List Char × Nat × Nat × Nat → Prop)
    (rec : DIR_ENTRY → Int → Option (Int × DIR_ENTRY))
    (hrec : ∀ (e : DIR_ENTRY) (i r : Int) (e' : DIR_ENTRY), rec e i = some (r, e') →
      e'.flags = e.flags ∧ e'.name = e.name ∧
      ((∀ x ∈ preorderList e.children, P x) → ∀ x ∈ preorderList e'.children, P x))
    (filelen : Nat) :
    ∀ (n : Nat) (entry : DIR_ENTRY) (next r : Int) (e' : DIR_ENTRY),
      read_fst_loop rec filelen n entry next = some (r, e') →
      e'.flags = entry.flags ∧ e'.name = entry.name ∧
      ((∀ x ∈ preorderList entry.children, P x) →
        ∀ x ∈ preorderList e'.children, P x) := by
  intro n
  induction n with
  | zero =>
    intro entry next r e' h
    unfold read_fst_loop at h
    split at h
    · cases h
    · simp only [Option.some.injEq, Prod.mk.injEq] at h
      rw [← h.2]
      exact ⟨rfl, rfl, fun hq => hq⟩
  | succ n ih =>
    intro entry next r e' h
    unfold read_fst_loop at h
    split at h
    · simp only [] at h
      cases hr : rec entry next with
      | none => rw [hr] at h; cases h
      | some re =>
        obtain ⟨r1, e1⟩ := re
        rw [hr] at h
        simp only [] at h
        obtain ⟨hf1, hn1, hq1⟩ := hrec entry next r1 e1 hr
        split at h
        · simp only [Option.some.injEq, Prod.mk.injEq] at h
          rw [← h.2]
          exact ⟨hf1, hn1, hq1⟩
        · obtain ⟨hf2, hn2, hq2⟩ := ih e1 r1 r e' h
          exact ⟨hf2.trans hf1, hn2.trans hn1, fun hq => hq2 (hq1 hq)⟩
    · simp only [Option.some.injEq, Prod.mk.injEq] at h
      rw [← h.2]
      exact ⟨rfl, rfl, fun hq => hq⟩

/-- `read_fst` keeps the name and the flags of the entry it is called on, and every entry it
creates below it carries the name and, as its flags, the type byte of the table entry at the
index it was created for: whatever holds of these for every index above 0 (and any offset
and size) holds of every entry created. -/
theorem read_fst_flags (M : Nat) (fst : Int → FST_ENTRY) (names : Nat → List Char)
    (P : List Char × Nat × Nat × Nat → Prop)
    (hP : ∀ (i : Int), 0 < i → ∀ o s : Nat,
      P (names ((fst i).name_offset % 2 ^ 24), (fst i).filetype, o, s)) :
    ∀ (fuel : Nat) (entry : DIR_ENTRY) (index r : Int) (e' : DIR_ENTRY),
      read_fst M fst names fuel entry index = some (r, e') →
      e'.flags = entry.flags ∧ e'.name = entry.name ∧
      ((∀ x ∈ preorderList entry.children, P x) →
        ∀ x ∈ preorderList e'.children, P x) := by
  intro fuel
  induction fuel with
  | zero => intro entry index r e' h; simp [read_fst] at h
  | succ fuel ih =>
    intro entry index r e' h
    have hbody : ∀ (c : DIR_ENTRY) (r : Int) (c' : DIR_ENTRY),
        (if (fst index).filetype % 2 = 1 then
          read_fst_loop (fun e i => read_fst M fst names fuel e i) (fst index).filelen fuel
            (c.withOffset (toU32 index)) (toS32 (index + 1))
        else
          some (toS32 (index + 1),
            (c.withOffset (fst index).fileoffset).withSize (fst index).filelen)) = some (r, c') →
        c'.flags = c.flags ∧ c'.name = c.name ∧
        ((∀ x ∈ preorderList c.children, P x) →
          ∀ x ∈ preorderList c'.children, P x) := by
      intro c r c' hb
      split at hb
      · obtain ⟨hf, hn, hq⟩ := read_fst_loop_flags P _ ih _ fuel _ _ r c' hb
        rw [flags_withOffset] at hf
        rw [name_withOffset] at hn
        rw [children_withOffset] at hq
        exact ⟨hf, hn, hq⟩
      · simp only [Option.some.injEq, Prod.mk.injEq] at hb
        rw [← hb.2, flags_withSize, flags_withOffset, name_withSize, name_withOffset,
          children_withSize, children_withOffset]
        exact ⟨rfl, rfl, fun hq => hq⟩
    rw [read_fst] at h
    simp only [] at h
    split at h
    · rename_i hpos
      split at h
      · simp only [Option.some.injEq, Prod.mk.injEq] at h
        rw [← h.2]
        exact ⟨rfl, rfl, fun hq => hq⟩
      · split at h
        · cases h
        · rename_i r1 child hb
          simp only [Option.some.injEq, Prod.mk.injEq] at h
          rw [← h.2]
          obtain ⟨hf, hn, hq⟩ := hbody _ r1 child hb
          rw [flags_withFlags] at hf
          rw [name_withFlags] at hn
          refine ⟨?_, ?_, ?_⟩
          · unfold DIR_ENTRY.appendChild
            rw [flags_withChildren]
          · unfold DIR_ENTRY.appendChild
            rw [name_withChildren]
          · intro hqe x hx
            unfold DIR_ENTRY.appendChild at hx
            rw [children_withChildren, preorderList_append] at hx
            rcases List.mem_append.mp hx with hx | hx
            · exact hqe x hx
            · simp only [preorderList, List.append_nil] at hx
              rw [preorder_eq] at hx
              rcases List.mem_cons.mp hx with hx | hx
              · rw [hx, hf, hn]
                have hname : (add_child_entry entry (names
                    (((fst index).filetype * 2 ^ 24 + (fst index).name_offset) % 2 ^ 24))).name
                    = names ((fst index).name_offset % 2 ^ 24) := by
                  rw [name_offset_mask]
                  rfl
                rw [hname]
                exact hP index hpos _ _
              · apply hq _ x hx
                intro y hy
                rw [children_withFlags] at hy
                simp [add_child_entry, DIR_ENTRY.children, preorderList] at hy
    · exact hbody entry r e' h

/-- On a well-formed table of `N` entries, `read_fst` started at index 0 with enough fuel
returns `N` and appends to the children of the root the trees the table describes. -/
theorem read_fst_root_ok (M N : Nat) (fst : Int → FST_ENTRY) (names : Nat → List Char)
    (root : DIR_ENTRY) (hwf : WellFormed M fst names N) (fuel : Nat) (hfuel : N ≤ fuel) :
    read_fst M fst names fuel root 0 = some ((N : Int),
      (root.withOffset 0).withChildren (root.children ++
        (topLevel fst 1 N).map (specEntry fst names root.partition N))) := by
  have hN := hwf.small
  have hpos := hwf.pos
  cases fuel with
  | zero => omega
  | succ f =>
    have hcond : (fst 0).filetype % 2 = 1 := by
      have := hwf.root_dir
      unfold fstDir at this
      simpa using this
    have hlen : (fst 0).filelen = N := hwf.root_len
    rw [read_fst]
    simp only []
    rw [if_neg (by omega), if_pos hcond, hlen]
    have h1 : toS32 ((0 : Int) + 1) = ((1 : Nat) : Int) := by decide
    have h0 : toU32 (0 : Int) = 0 := by decide
    rw [h1, h0]
    have hloop := read_fst_loop_ok fst root.partition 1 N hN
      (fun e j => read_fst M fst names f e j) (specEntry fst names root.partition N)
      (fun c p hb hc hpp => by
        have hn := wf_next hwf c hc
        exact read_fst_entry hwf root.partition f c p (by omega) hc (by omega) hpp)
      (fun c hb hc => wf_next hwf c hc)
      (fun c hb hc => wf_inner hwf c hc)
      f 1 (root.withOffset 0) (le_refl _) (by omega) (by omega)
      (by cases root; rfl)
    rw [hloop]
    congr 2
    cases root
    rfl

/-- C28 (as stated) fails: from a table whose entry 1 has the type byte 2, `read_fst` creates
an entry whose flags are 2, that is `FLAG_RAW`: it is read through the raw path. -/
theorem C28_counterexample :
    (read_fst 128 rawTypeFst sampleNames 3 emptyRoot 0).map
        (fun r => (r.1, r.2.children.map DIR_ENTRY.flags)) = some (2, [2]) ∧
    (read_fst 128 rawTypeFst sampleNames 3 emptyRoot 0).map
        (fun r => r.2.children.map is_raw) = some [true] ∧
    FLAG_RAW = 2 := by
  refine ⟨?_, ?_, ?_⟩ <;> decide

/-- C28 (amended): `read_fst` copies the type byte of a table entry to the flags of the entry
it creates for it, unmasked. For every table and every parse that returns: each entry found
below the entry parsed into was there before or has the name and, as its flags, the type
byte of a table entry at an index above 0. On a well-formed table of `N` entries, parsed
from index 0, the entries created are, in pre-order, those of the indices `1 .. N-1`, each
with its name, its type byte as flags, its offset and its size. Hence, when no type byte has
the bit `FLAG_RAW` set, no entry below the partition directory is raw. -/
theorem C28_flags_are_type_bytes (M : Nat) (fst : Int → FST_ENTRY) (names : Nat → List Char)
    (fuel : Nat) (entry : DIR_ENTRY) (index r : Int) (e' : DIR_ENTRY)
    (h : read_fst M fst names fuel entry index = some (r, e')) :
    (∀ x ∈ preorderList e'.children, x ∈ preorderList entry.children ∨
      ∃ i : Int, 0 < i ∧ x.1 = names ((fst i).name_offset % 2 ^ 24) ∧
        x.2.1 = (fst i).filetype) ∧
    (∀ N, WellFormed M fst names N → index = 0 → N ≤ fuel →
      preorderList e'.children
        = preorderList entry.children ++ (List.range' 1 (N - 1)).map (fstInfo fst names) ∧
      ∀ k, k < N - 1 →
        ((preorderList e'.children).drop (preorderList entry.children).length)[k]?.map
          (fun x => x.2.1) = some (fst ((k + 1 : Nat) : Int)).filetype) ∧
    ((∀ i, (fst i).filetype / FLAG_RAW % 2 = 0) →
      (∀ x ∈ preorderList entry.children, x.2.1 / FLAG_RAW % 2 = 0) →
      ∀ x ∈ preorderList e'.children, x.2.1 / FLAG_RAW % 2 = 0) := by
  refine ⟨?_, ?_, ?_⟩
  · exact (read_fst_flags M fst names
      (fun x => x ∈ preorderList entry.children ∨
        ∃ i : Int, 0 < i ∧ x.1 = names ((fst i).name_offset % 2 ^ 24) ∧
          x.2.1 = (fst i).filetype)
      (fun i hi o s => Or.inr ⟨i, hi, rfl, rfl⟩) fuel entry index r e' h).2.2
      (fun x hx => Or.inl hx)
  · intro N hwf hidx hfuel
    subst hidx
    rw [read_fst_root_ok M N fst names entry hwf fuel hfuel] at h
    simp only [Option.some.injEq, Prod.mk.injEq] at h
    have hpre : preorderList e'.children
        = preorderList entry.children ++ (List.range' 1 (N - 1)).map (fstInfo fst names) := by
      rw [← h.2, children_withChildren, preorderList_append]
      have hs := preorder_spec hwf entry.partition N 0 1 hwf.pos hwf.root_dir (by omega)
        (by rw [hwf.root_len]; have := hwf.pos; omega) (by rw [hwf.root_len]; omega)
      rw [hwf.root_len] at hs
      rw [hs]
    refine ⟨hpre, ?_⟩
    intro k hk
    rw [hpre, List.drop_left]
    simp only [List.getElem?_map]
    rw [List.getElem?_range' 1 1 hk]
    simp only [Option.map_some', fstInfo]
    congr 3
    omega
  · intro hP
    exact (read_fst_flags M fst names (fun x => x.2.1 / FLAG_RAW % 2 = 0)
      (fun i _ _ _ => hP i) fuel entry index r e' h).2.2

/-- The sample table parses. -/
theorem sampleFst_parses :
    (read_fst 128 sampleFst sampleNames 5 emptyRoot 0).isSome = true := by
  decide

/-- No type byte of the sample table has the bit `FLAG_RAW` set. -/
theorem sampleFst_types (i : Int) : (sampleFst i).filetype / FLAG_RAW % 2 = 0 := by
  unfold sampleFst
  split_ifs <;> decide

theorem C28_flags_are_type_bytes_witness :
    ∃ r e', read_fst 128 sampleFst sampleNames 5 emptyRoot 0 = some (r, e') ∧
      preorderList e'.children = (List.range' 1 4).map (fstInfo sampleFst sampleNames) ∧
      (List.range' 1 4).map (fun (i : Nat) => (fstInfo sampleFst sampleNames i).2.1)
        = [0, 1, 0, 0] ∧
      ∀ x ∈ preorderList e'.children, x.2.1 / FLAG_RAW % 2 = 0 := by
  cases h : read_fst 128 sampleFst sampleNames 5 emptyRoot 0 with
  | none =>
    have h2 := sampleFst_parses
    rw [h] at h2
    cases h2
  | some re =>
    obtain ⟨r, e'⟩ := re
    have hc := C28_flags_are_type_bytes 128 sampleFst sampleNames 5 emptyRoot 0 r e' h
    exact ⟨r, e', rfl, (hc.2.1 5 sampleFst_wellFormed rfl (le_refl 5)).1, by decide,
      hc.2.2 sampleFst_types (fun x hx => by cases hx)⟩

/-! ## Mounting -/

@[simp] theorem _read_dotab (env : Env) (g : Globals) (ptr : Mem) (offset len : Nat) :
    (_read env g ptr offset len).2.2.dotab_device = g.dotab_device := by
  unfold _read
  simp only []
  split <;> rfl

@[simp] theorem _read_current (env : Env) (g : Globals) (ptr : Mem) (offset len : Nat) :
    (_read env g ptr offset len).2.2.current = g.current := by
  unfold _read
  simp only []
  split <;> rfl

@[simp] theorem rdc_dotab (env : Env) (g : Globals) (key : aeskey) (buf : Mem)
    (offset ofc len : Nat) :
    (read_and_decrypt_cluster env g key buf offset ofc len).2.2.dotab_device
      = g.dotab_device := by
  unfold read_and_decrypt_cluster
  simp only []
  split
  · rfl
  · split
    · exact _read_dotab env g buf offset _
    · exact _read_dotab env g buf offset _

@[simp] theorem rdc_current (env : Env) (g : Globals) (key : aeskey) (buf : Mem)
    (offset ofc len : Nat) :
    (read_and_decrypt_cluster env g key buf offset ofc len).2.2.current = g.current := by
  unfold read_and_decrypt_cluster
  simp only []
  split
  · rfl
  · split
    · exact _read_current env g buf offset _
    · exact _read_current env g buf offset _

/-- A cluster read into the drive buffer leaves the device number and the current
directory alone. -/
theorem decrypt_to_read_buffer_frame (env : Env) (g : Globals) (key : aeskey)
    (offset ofc len : Nat) : Frame g (decrypt_to_read_buffer env g key offset ofc len).2 := by
  unfold decrypt_to_read_buffer Frame
  simp

theorem frame_refl (g : Globals) : Frame g g := ⟨rfl, rfl⟩

theorem frame_trans {a b c : Globals} (h1 : Frame a b) (h2 : Frame b c) : Frame a c :=
  ⟨h2.1.trans h1.1, h2.2.trans h1.2⟩

theorem wdvd_frame (env : Env) (g : Globals) (count sector : Nat) :
    Frame g (WDVD_LowReadSectors env g count sector).2 := by
  unfold WDVD_LowReadSectors
  split <;> exact ⟨rfl, rfl⟩

theorem store_partition_frame (g : Globals) (n : Nat) (p : PARTITION) :
    Frame g (store_partition g n p) := ⟨rfl, rfl⟩

theorem read_title_key_frame (env : Env) (L : EsLayout) (g : Globals) (p : PARTITION) :
    Frame g (read_title_key env L g p).2.2 := by
  unfold read_title_key Frame
  simp only []
  split <;> simp

theorem read_partition_info_frame (env : Env) (L : EsLayout) (g : Globals) (p : PARTITION) :
    Frame g (read_partition_info env L g p).2.2 := by
  unfold read_partition_info Frame
  simp

theorem add_tmd_entry_frame (env : Env) (L : EsLayout) (g : Globals) (parent : DIR_ENTRY) :
    Frame g (add_tmd_entry env L g parent).2.2 := by
  unfold add_tmd_entry Frame
  simp only []
  split <;> simp

theorem read_appldr_size_frame (env : Env) (g : Globals) (e : DIR_ENTRY) (d : Nat)
    (key : aeskey) : Frame g (read_appldr_size env g e d key).2.2 := by
  unfold read_appldr_size
  simp only []
  split <;> exact decrypt_to_read_buffer_frame env g key _ _ _

theorem add_appldr_entry_frame (env : Env) (g : Globals) (e : DIR_ENTRY) (d : Nat)
    (key : aeskey) : Frame g (add_appldr_entry env g e d key).2.2 := by
  unfold add_appldr_entry
  exact read_appldr_size_frame env g _ d key

theorem read_dol_size_frame (env : Env) (g : Globals) (e : DIR_ENTRY) (d : Nat)
    (key : aeskey) : Frame g (read_dol_size env g e d key).2.2 := by
  unfold read_dol_size
  simp only []
  split <;> exact decrypt_to_read_buffer_frame env g key _ _ _

theorem add_dol_entry_frame (env : Env) (g : Globals) (e : DIR_ENTRY) (d : Nat)
    (key : aeskey) : Frame g (add_dol_entry env g e d key).2.2 := by
  unfold add_dol_entry
  exact read_dol_size_frame env g _ d key

theorem read_partition_loop_frame (env : Env) (key : aeskey) (fst_size : Nat) :
    ∀ (fuel : Nat) (g : Globals) (buf : Mem) (offset fst_offset : Nat) (ok : Bool) (buf' : Mem)
      (g' : Globals),
      read_partition_loop env key fst_size fuel g buf offset fst_offset = some (ok, buf', g') →
      Frame g g' := by
  intro fuel
  induction fuel with
  | zero =>
    intro g buf offset fst_offset ok buf' g' h
    unfold read_partition_loop at h
    split at h
    · cases h
    · simp only [Option.some.injEq, Prod.mk.injEq] at h
      rw [← h.2.2]
      exact frame_refl g
  | succ fuel ih =>
    intro g buf offset fst_offset ok buf' g' h
    unfold read_partition_loop at h
    split at h
    · simp only [] at h
      split at h
      · simp only [Option.some.injEq, Prod.mk.injEq] at h
        rw [← h.2.2]
        exact decrypt_to_read_buffer_frame env g key _ _ _
      · exact frame_trans (decrypt_to_read_buffer_frame env g key _ _ _) (ih _ _ _ _ _ _ _ h)
    · simp only [Option.some.injEq, Prod.mk.injEq] at h
      rw [← h.2.2]
      exact frame_refl g

theorem read_partition_frame (env : Env) (M fuel : Nat) (g : Globals) (partition : DIR_ENTRY)
    (d : Nat) (key : aeskey) (ok : Bool) (e' : DIR_ENTRY) (g' : Globals)
    (h : read_partition env M fuel g partition d key = some (ok, e', g')) : Frame g g' := by
  unfold read_partition at h
  simp only [] at h
  split at h
  · simp only [Option.some.injEq, Prod.mk.injEq] at h
    rw [← h.2.2]
    exact decrypt_to_read_buffer_frame env g key _ _ _
  · split at h
    · cases h
    · rename_i hl
      simp only [Option.some.injEq, Prod.mk.injEq] at h
      rw [← h.2.2]
      exact frame_trans (decrypt_to_read_buffer_frame env g key _ _ _)
        (read_partition_loop_frame env key _ _ _ _ _ _ _ _ _ hl)
    · rename_i hl
      split at h
      · cases h
      · simp only [Option.some.injEq, Prod.mk.injEq] at h
        rw [← h.2.2]
        exact frame_trans (decrypt_to_read_buffer_frame env g key _ _ _)
          (read_partition_loop_frame env key _ _ _ _ _ _ _ _ _ hl)

@[simp] theorem store_partition_dotab (g : Globals) (n : Nat) (p : PARTITION) :
    (store_partition g n p).dotab_device = g.dotab_device := rfl

@[simp] theorem store_partition_current (g : Globals) (n : Nat) (p : PARTITION) :
    (store_partition g n p).current = g.current := rfl

@[simp] theorem dtrb_dotab (env : Env) (g : Globals) (key : aeskey) (offset ofc len : Nat) :
    (decrypt_to_read_buffer env g key offset ofc len).2.dotab_device = g.dotab_device :=
  (decrypt_to_read_buffer_frame env g key offset ofc len).1

@[simp] theorem dtrb_current (env : Env) (g : Globals) (key : aeskey) (offset ofc len : Nat) :
    (decrypt_to_read_buffer env g key offset ofc len).2.current = g.current :=
  (decrypt_to_read_buffer_frame env g key offset ofc len).2

@[simp] theorem read_title_key_dotab (env : Env) (L : EsLayout) (g : Globals) (p : PARTITION) :
    (read_title_key env L g p).2.2.dotab_device = g.dotab_device :=
  (read_title_key_frame env L g p).1

@[simp] theorem read_title_key_current (env : Env) (L : EsLayout) (g : Globals)
    (p : PARTITION) : (read_title_key env L g p).2.2.current = g.current :=
  (read_title_key_frame env L g p).2

@[simp] theorem read_partition_info_dotab (env : Env) (L : EsLayout) (g : Globals)
    (p : PARTITION) : (read_partition_info env L g p).2.2.dotab_device = g.dotab_device :=
  (read_partition_info_frame env L g p).1

@[simp] theorem read_partition_info_current (env : Env) (L : EsLayout) (g : Globals)
    (p : PARTITION) : (read_partition_info env L g p).2.2.current = g.current :=
  (read_partition_info_frame env L g p).2

@[simp] theorem add_tmd_entry_dotab (env : Env) (L : EsLayout) (g : Globals)
    (e : DIR_ENTRY) : (add_tmd_entry env L g e).2.2.dotab_device = g.dotab_device :=
  (add_tmd_entry_frame env L g e).1

@[simp] theorem add_tmd_entry_current (env : Env) (L : EsLayout) (g : Globals)
    (e : DIR_ENTRY) : (add_tmd_entry env L g e).2.2.current = g.current :=
  (add_tmd_entry_frame env L g e).2

@[simp] theorem add_appldr_entry_dotab (env : Env) (g : Globals) (e : DIR_ENTRY) (d : Nat)
    (key : aeskey) : (add_appldr_entry env g e d key).2.2.dotab_device = g.dotab_device :=
  (add_appldr_entry_frame env g e d key).1

@[simp] theorem add_appldr_entry_current (env : Env) (g : Globals) (e : DIR_ENTRY) (d : Nat)
    (key : aeskey) : (add_appldr_entry env g e d key).2.2.current = g.current :=
  (add_appldr_entry_frame env g e d key).2

@[simp] theorem add_dol_entry_dotab (env : Env) (g : Globals) (e : DIR_ENTRY) (d : Nat)
    (key : aeskey) : (add_dol_entry env g e d key).2.2.dotab_device = g.dotab_device :=
  (add_dol_entry_frame env g e d key).1

@[simp] theorem add_dol_entry_current (env : Env) (g : Globals) (e : DIR_ENTRY) (d : Nat)
    (key : aeskey) : (add_dol_entry env g e d key).2.2.current = g.current :=
  (add_dol_entry_frame env g e d key).2

theorem flags_with_partition_dirs (root a b : DIR_ENTRY) :
    (with_partition_dirs root a b).flags = root.flags := by
  unfold with_partition_dirs
  cases root
  rfl

theorem add_dol_entry_if_frame (env : Env) (g : Globals) (e : DIR_ENTRY) (d : Nat)
    (p : PARTITION) : Frame g (add_dol_entry_if env g e d p).2.2 := by
  unfold add_dol_entry_if
  split
  · exact add_dol_entry_frame env g e d p.key
  · exact frame_refl g

@[simp] theorem add_dol_entry_if_dotab (env : Env) (g : Globals) (e : DIR_ENTRY) (d : Nat)
    (p : PARTITION) : (add_dol_entry_if env g e d p).2.2.dotab_device = g.dotab_device :=
  (add_dol_entry_if_frame env g e d p).1

@[simp] theorem add_dol_entry_if_current (env : Env) (g : Globals) (e : DIR_ENTRY) (d : Nat)
    (p : PARTITION) : (add_dol_entry_if env g e d p).2.2.current = g.current :=
  (add_dol_entry_if_frame env g e d p).2

theorem read_disc_partition_files_frame (env : Env) (M fuel : Nat)
    (root pe me : DIR_ENTRY) (g : Globals) (p : PARTITION) (d : Nat) (ok : Bool)
    (root' : DIR_ENTRY) (g' : Globals)
    (h : read_disc_partition_files env M fuel root pe me g p d = some (ok, root', g')) :
    Frame g g' ∧ root'.flags = root.flags := by
  unfold read_disc_partition_files at h
  simp only [] at h
  split at h
  · simp only [Option.some.injEq, Prod.mk.injEq] at h
    rw [← h.2.1, ← h.2.2]
    exact ⟨by simp [Frame], flags_with_partition_dirs _ _ _⟩
  · split at h
    · simp only [Option.some.injEq, Prod.mk.injEq] at h
      rw [← h.2.1, ← h.2.2]
      exact ⟨by simp [Frame], flags_with_partition_dirs _ _ _⟩
    · split at h
      · split at h
        · cases h
        · rename_i hp
          simp only [Option.some.injEq, Prod.mk.injEq] at h
          rw [← h.2.1, ← h.2.2]
          refine ⟨?_, flags_with_partition_dirs _ _ _⟩
          exact frame_trans (by simp [Frame]) (read_partition_frame env M fuel _ _ _ _ _ _ _ hp)
      · simp only [Option.some.injEq, Prod.mk.injEq] at h
        rw [← h.2.1, ← h.2.2]
        exact ⟨by simp [Frame], flags_with_partition_dirs _ _ _⟩

theorem read_disc_partition_meta_frame (env : Env) (L : EsLayout) (M fuel : Nat)
    (root pe me : DIR_ENTRY) (g : Globals) (n : Nat) (p : PARTITION) (ok : Bool)
    (root' : DIR_ENTRY) (g' : Globals)
    (h : read_disc_partition_meta env L M fuel root pe me g n p = some (ok, root', g')) :
    Frame g g' ∧ root'.flags = root.flags := by
  unfold read_disc_partition_meta at h
  simp only [] at h
  split at h
  · simp only [Option.some.injEq, Prod.mk.injEq] at h
    rw [← h.2.1, ← h.2.2]
    exact ⟨by simp [Frame], flags_with_partition_dirs _ _ _⟩
  · split at h
    · simp only [Option.some.injEq, Prod.mk.injEq] at h
      rw [← h.2.1, ← h.2.2]
      exact ⟨by simp [Frame], flags_with_partition_dirs _ _ _⟩
    · obtain ⟨h1, h2⟩ := read_disc_partition_files_frame env M fuel _ _ _ _ _ _ _ _ _ h
      exact ⟨frame_trans (by simp [Frame]) h1, h2⟩

/-- Reading one partition leaves the device number and the current directory alone, and
keeps the flags of the root. -/
theorem read_disc_partition_frame (env : Env) (L : EsLayout) (M fuel : Nat) (root : DIR_ENTRY)
    (g : Globals) (n : Nat) (entries : Mem) (idx : Nat) (ok : Bool) (root' : DIR_ENTRY)
    (g' : Globals)
    (h : read_disc_partition env L M fuel root g n entries idx = some (ok, root', g')) :
    Frame g g' ∧ root'.flags = root.flags := by
  unfold read_disc_partition at h
  simp only [] at h
  split at h
  · simp only [Option.some.injEq, Prod.mk.injEq] at h
    rw [← h.2.1, ← h.2.2]
    exact ⟨by simp [Frame], flags_with_partition_dirs _ _ _⟩
  · split at h
    · simp only [Option.some.injEq, Prod.mk.injEq] at h
      rw [← h.2.1, ← h.2.2]
      exact ⟨by simp [Frame], flags_with_partition_dirs _ _ _⟩
    · obtain ⟨h1, h2⟩ := read_disc_partition_meta_frame env L M fuel _ _ _ _ _ _ _ _ _ h
      exact ⟨frame_trans (by simp [Frame]) h1, h2⟩

theorem read_disc_partitions_frame (env : Env) (L : EsLayout) (M fuel : Nat) (entries : Mem) :
    ∀ (k idx : Nat) (root : DIR_ENTRY) (g : Globals) (n : Nat) (ok : Bool) (root' : DIR_ENTRY)
      (g' : Globals) (n' : Nat),
      read_disc_partitions env L M fuel entries k idx root g n = some (ok, root', g', n') →
      Frame g g' ∧ root'.flags = root.flags := by
  intro k
  induction k with
  | zero =>
    intro idx root g n ok root' g' n' h
    simp only [read_disc_partitions, Option.some.injEq, Prod.mk.injEq] at h
    rw [← h.2.1, ← h.2.2.1]
    exact ⟨frame_refl g, rfl⟩
  | succ k ih =>
    intro idx root g n ok root' g' n' h
    rw [read_disc_partitions] at h
    split at h
    · cases h
    · rename_i hp
      simp only [Option.some.injEq, Prod.mk.injEq] at h
      rw [← h.2.1, ← h.2.2.1]
      exact read_disc_partition_frame env L M fuel _ _ _ _ _ _ _ _ hp
    · rename_i hp
      obtain ⟨h1, h2⟩ := read_disc_partition_frame env L M fuel _ _ _ _ _ _ _ _ hp
      obtain ⟨h3, h4⟩ := ih _ _ _ _ _ _ _ _ h
      exact ⟨frame_trans h1 h3, h4.trans h2⟩

theorem read_disc_tables_frame (env : Env) (L : EsLayout) (M fuel : Nat) (tables : Mem) :
    ∀ (k idx : Nat) (root : DIR_ENTRY) (g : Globals) (n : Nat) (ok : Bool) (root' : DIR_ENTRY)
      (g' : Globals),
      read_disc_tables env L M fuel tables k idx root g n = some (ok, root', g') →
      Frame g g' ∧ root'.flags = root.flags := by
  intro k
  induction k with
  | zero =>
    intro idx root g n ok root' g' h
    simp only [read_disc_tables, Option.some.injEq, Prod.mk.injEq] at h
    rw [← h.2.1, ← h.2.2]
    exact ⟨frame_refl g, rfl⟩
  | succ k ih =>
    intro idx root g n ok root' g' h
    rw [read_disc_tables] at h
    simp only [] at h
    split at h
    · split at h
      · simp only [Option.some.injEq, Prod.mk.injEq] at h
        rw [← h.2.1, ← h.2.2]
        exact ⟨by simp [Frame], rfl⟩
      · split at h
        · cases h
        · rename_i hp
          simp only [Option.some.injEq, Prod.mk.injEq] at h
          rw [← h.2.1, ← h.2.2]
          obtain ⟨h1, h2⟩ := read_disc_partitions_frame env L M fuel _ _ _ _ _ _ _ _ _ _ hp
          exact ⟨frame_trans (by simp [Frame]) h1, h2⟩
        · rename_i hp
          obtain ⟨h1, h2⟩ := read_disc_partitions_frame env L M fuel _ _ _ _ _ _ _ _ _ _ hp
          obtain ⟨h3, h4⟩ := ih _ _ _ _ _ _ _ h
          exact ⟨frame_trans (frame_trans (by simp [Frame]) h1) h3, h4.trans h2⟩
    · exact ih _ _ _ _ _ _ _ h

/-- `read_disc` never touches the device number; when it succeeds the root is a directory
and the current directory is the root. -/
theorem read_disc_result (env : Env) (L : EsLayout) (M fuel : Nat) (g : Globals) (ok : Bool)
    (g' : Globals) (h : read_disc env L M fuel g = some (ok, g')) :
    g'.dotab_device = g.dotab_device ∧
    (ok = true → g'.current = some [] ∧ ∃ r, g'.root = some r ∧ is_dir r = true) := by
  unfold read_disc at h
  simp only [] at h
  split at h
  · simp only [Option.some.injEq, Prod.mk.injEq] at h
    rw [← h.1, ← h.2]
    exact ⟨(wdvd_frame env g 1 0).1, fun hc => by cases hc⟩
  · split at h
    · simp only [Option.some.injEq, Prod.mk.injEq] at h
      rw [← h.1, ← h.2]
      exact ⟨(wdvd_frame env g 1 0).1, fun hc => by cases hc⟩
    · split at h
      · simp only [Option.some.injEq, Prod.mk.injEq] at h
        rw [← h.1, ← h.2]
        exact ⟨((wdvd_frame env _ 1 128).1).trans (wdvd_frame env g 1 0).1,
          fun hc => by cases hc⟩
      · split at h
        · cases h
        · rename_i ok1 root1 g1 ht
          simp only [Option.some.injEq, Prod.mk.injEq] at h
          obtain ⟨hf, hflags⟩ := read_disc_tables_frame env L M fuel _ _ _ _ _ _ _ _ _ ht
          rw [← h.2]
          refine ⟨?_, fun _ => ⟨?_, root1, rfl, ?_⟩⟩
          · have h1 := hf.1
            simp only [] at h1 ⊢
            rw [h1]
            exact ((wdvd_frame env _ 1 128).1).trans (wdvd_frame env g 1 0).1
          · have h2 := hf.2
            simp only [] at h2 ⊢
            rw [h2]
          · unfold is_dir
            rw [hflags]
            decide

theorem unmount_fields (env : Env) (g : Globals) :
    (FST_Unmount env g).2.root = none ∧ (FST_Unmount env g).2.current = none ∧
    (FST_Unmount env g).2.partitions = [] ∧ (FST_Unmount env g).2.reads = g.reads ∧
    (-1 ≤ g.dotab_device → (FST_Unmount env g).2.dotab_device = -1) := by
  unfold FST_Unmount
  simp only []
  split
  · exact ⟨rfl, rfl, rfl, rfl, fun _ => rfl⟩
  · rename_i hd
    refine ⟨rfl, rfl, rfl, rfl, fun h => ?_⟩
    simp only [ge_iff_le, not_le] at hd
    show g.dotab_device = -1
    omega

/-- A disc whose magic word is wrong makes `read_disc` fail, whatever the fuel. -/
theorem read_disc_bad_magic (env : Env) (L : EsLayout) (M fuel : Nat) (g : Globals)
    (hread : env.readFails g.reads 1 0 = false)
    (hmagic : ¬ (env.disc 0x18 % 256 = 0x5d ∧ env.disc 0x19 % 256 = 0x1c ∧
      env.disc 0x1a % 256 = 0x9e ∧ env.disc 0x1b % 256 = 0xa3)) :
    ∃ g1, read_disc env L M fuel g = some (false, g1) := by
  have hm : magic_ok (WDVD_LowReadSectors env g 1 0).2.read_buffer = false := by
    unfold WDVD_LowReadSectors magic_ok load_u8
    rw [hread]
    simp [SECTOR_SIZE]
    intro h1 h2 h3 h4
    exact hmagic ⟨h1, h2, h3, h4⟩
  have hf : (WDVD_LowReadSectors env g 1 0).1 = false := by
    unfold WDVD_LowReadSectors
    rw [hread]
    rfl
  unfold read_disc
  simp only [hf, hm]
  exact ⟨_, rfl⟩

/-- C21: let `FST_Mount` get as far as `read_disc` (the read buffer is reserved) from a state
whose device number is -1 or that of a registered device. If the magic word of the disc
header is wrong, and more generally whenever `read_disc` fails, `FST_Mount` returns 0 and
leaves no device registered (`dotab_device = -1`), no root, no current directory and no
partition array. -/
theorem C21_failed_mount (env : Env) (m : MountEnv) (L : EsLayout) (M fuel ptr : Nat)
    (g : Globals) (hdev : -1 ≤ g.dotab_device)
    (hbuf : ptr ≠ 0 ∨ m.arena2Lo ≤ ROUNDDOWN32 ((m.arena2Hi + 2 ^ 32 - BUFFER_SIZE) % 2 ^ 32))
    (hfail : (env.readFails g.reads 1 0 = false ∧
        ¬ (env.disc 0x18 % 256 = 0x5d ∧ env.disc 0x19 % 256 = 0x1c ∧
          env.disc 0x1a % 256 = 0x9e ∧ env.disc 0x1b % 256 = 0xa3)) ∨
      ∃ g1, read_disc env L M fuel (FST_Unmount env g).2 = some (false, g1)) :
    ∃ p g', FST_Mount env m L M fuel ptr g = some (0, p, g') ∧ g'.dotab_device = -1 ∧
      g'.root = none ∧ g'.current = none ∧ g'.partitions = [] := by
  obtain ⟨hu1, hu2, hu3, hu4, hu5⟩ := unmount_fields env g
  have hg1 : ∃ g1, read_disc env L M fuel (FST_Unmount env g).2 = some (false, g1) := by
    rcases hfail with ⟨hread, hmagic⟩ | h
    · exact read_disc_bad_magic env L M fuel _ (by rw [hu4]; exact hread) hmagic
    · exact h
  obtain ⟨g1, hg1⟩ := hg1
  have hd1 : g1.dotab_device = -1 :=
    ((read_disc_result env L M fuel _ false g1 hg1).1).trans (hu5 hdev)
  obtain ⟨hv1, hv2, hv3, _, hv5⟩ := unmount_fields env g1
  unfold FST_Mount
  simp only []
  rw [if_neg (by
    rintro ⟨h0, hlt⟩
    rcases hbuf with hb | hb
    · exact hb h0
    · rw [if_pos h0] at hlt
      omega)]
  split
  · exact ⟨_, _, rfl, hu5 hdev, hu1, hu2, hu3⟩
  · rw [hg1]
    exact ⟨_, _, rfl, hv5 (by omega), hv1, hv2, hv3⟩

theorem C21_failed_mount_witness :
    ∃ p g', FST_Mount envZero sampleMountEnv sampleLayout 128 0 0 Globals.initial
        = some (0, p, g') ∧ g'.dotab_device = -1 ∧
      g'.root = none ∧ g'.current = none ∧ g'.partitions = [] :=
  C21_failed_mount envZero sampleMountEnv sampleLayout 128 0 0 Globals.initial (by decide)
    (Or.inr (by decide)) (Or.inl ⟨rfl, by decide⟩)

/-! ## The current directory -/

/-- A relative path resolves from the root as the same path after a separator does. -/
theorem relative_eq_absolute (M : Nat) (root : DIR_ENTRY) (p : List Char) (hne : p ≠ [])
    (hhead : p.head? ≠ some DIR_SEPARATOR) (hcolon : ':' ∉ p) :
    entry_from_path M root [] p = entry_from_path M root [] (DIR_SEPARATOR :: p) := by
  have hs : strchr p ':' = none := strchr_none_of_not_mem ':' p hcolon
  have hs2 : strchr (DIR_SEPARATOR :: p) ':' = none :=
    strchr_none_of_not_mem ':' _ (by
      simp only [List.mem_cons, not_or]
      exact ⟨by decide, hcolon⟩)
  have hsk : skipSeparators (DIR_SEPARATOR :: p) = p := by
    rw [skipSeparators_cons_sep]
    cases p with
    | nil => exact absurd rfl hne
    | cons x xs =>
      apply skipSeparators_cons_ne
      intro hx
      apply hhead
      rw [hx]
      rfl
  unfold entry_from_path entry_from_path_fuel invalid_drive_specifier afterDrive
  simp only [hs, hs2, if_true, Bool.false_eq_true, if_false, hhead, List.head?_cons, hsk, hne,
    entryAt, true_and]
  by_cases hdot : p = ['.']
  · simp only [hdot, if_true]
  · simp only [hdot, if_false]
    rw [walk_fuel_eq M (p.length + 1) ((DIR_SEPARATOR :: p).length + 1) [] root p (by omega)
      (by simp only [List.length_cons]; omega)]

@[simp] theorem _read_root (env : Env) (g : Globals) (ptr : Mem) (offset len : Nat) :
    (_read env g ptr offset len).2.2.root = g.root := by
  unfold _read
  simp only []
  split <;> rfl

@[simp] theorem rdc_root (env : Env) (g : Globals) (key : aeskey) (buf : Mem)
    (offset ofc len : Nat) :
    (read_and_decrypt_cluster env g key buf offset ofc len).2.2.root = g.root := by
  unfold read_and_decrypt_cluster
  simp only []
  split
  · rfl
  · split
    · exact _read_root env g buf offset _
    · exact _read_root env g buf offset _

/-- A read through a file handle leaves the tree and the current directory alone. -/
theorem read_keeps_tree (env : Env) (g : Globals) (file : FILE_STRUCT) (ptr : Mem) (len : Nat) :
    (_FST_read_r env g file ptr len).g.current = g.current ∧
    (_FST_read_r env g file ptr len).g.root = g.root := by
  unfold _FST_read_r
  simp only []
  repeat' split
  all_goals simp

/-- C27: `_FST_chdir_r` returns 0 exactly when the path resolves to a directory, -1 with
`ENOENT` when it does not resolve and -1 with `ENOTDIR` when it resolves to a file, and in
every case leaves the static `current` as it was. After a mount that returned a non-zero
identifier the current directory is the root, which is a directory, and reads leave both
alone; and from the root, a non-empty path that neither begins with a separator nor holds a
':' resolves as the same path after a separator. -/
theorem C27_chdir_never_moves (env : Env) (m : MountEnv) (L : EsLayout) (M fuel ptr : Nat)
    (g : Globals) (id p : Nat) (g' : Globals)
    (hmount : FST_Mount env m L M fuel ptr g = some (id, p, g')) (hid : id ≠ 0) :
    (∀ (root : DIR_ENTRY) (current : Ptr) (path : List Char),
      (_FST_chdir_r M root current path).2.2 = current ∧
      ((_FST_chdir_r M root current path).1 = 0 ↔
        ∃ q e, entry_from_path M root current path = some (q, e) ∧ is_dir e = true) ∧
      (entry_from_path M root current path = none →
        _FST_chdir_r M root current path = (-1, some ENOENT, current)) ∧
      (∀ q e, entry_from_path M root current path = some (q, e) → is_dir e = false →
        _FST_chdir_r M root current path = (-1, some ENOTDIR, current))) ∧
    (g'.current = some [] ∧ ∃ r, g'.root = some r ∧ is_dir r = true) ∧
    (∀ (env2 : Env) (file : FILE_STRUCT) (buf : Mem) (len : Nat),
      (_FST_read_r env2 g' file buf len).g.current = g'.current ∧
      (_FST_read_r env2 g' file buf len).g.root = g'.root) ∧
    (∀ (root : DIR_ENTRY) (path : List Char), path ≠ [] → path.head? ≠ some DIR_SEPARATOR →
      ':' ∉ path →
      entry_from_path M root [] path = entry_from_path M root [] (DIR_SEPARATOR :: path)) := by
  refine ⟨?_, ?_, fun env2 file buf len => read_keeps_tree env2 g' file buf len,
    fun root path h1 h2 h3 => relative_eq_absolute M root path h1 h2 h3⟩
  · intro root current path
    unfold _FST_chdir_r
    cases hres : entry_from_path M root current path with
    | none =>
      refine ⟨rfl, ⟨fun h => ?_, fun ⟨q, e, h1, _⟩ => ?_⟩, fun _ => rfl, fun q e h1 _ => ?_⟩
      · exact absurd h (show ¬ ((-1 : Int) = 0) by decide)
      · cases h1
      · cases h1
    | some qe =>
      obtain ⟨q, e⟩ := qe
      simp only []
      by_cases hd : is_dir e = true
      · rw [if_neg (by simp [hd])]
        refine ⟨rfl, ⟨fun _ => ⟨q, e, rfl, hd⟩, fun _ => rfl⟩, fun h => (by cases h),
          fun q2 e2 h1 h2 => ?_⟩
        simp only [Option.some.injEq, Prod.mk.injEq] at h1
        rw [← h1.2, hd] at h2
        cases h2
      · rw [if_pos (by simpa using hd)]
        refine ⟨rfl, ⟨fun h => ?_, fun ⟨q2, e2, h1, h2⟩ => ?_⟩, fun h => (by cases h),
          fun _ _ _ _ => rfl⟩
        · exact absurd h (show ¬ ((-1 : Int) = 0) by decide)
        · simp only [Option.some.injEq, Prod.mk.injEq] at h1
          rw [← h1.2] at h2
          exact absurd h2 hd
  · unfold FST_Mount at hmount
    simp only [] at hmount
    repeat' split at hmount
    all_goals first
      | (exact absurd rfl hid)
      | (simp only [Option.some.injEq, Prod.mk.injEq] at hmount; exact absurd hmount.1.symm hid)
      | (cases hmount; done)
      | skip
    all_goals
      rename_i g1 hrd _
      obtain ⟨hc, r, hr, hdir⟩ := (read_disc_result env L M fuel _ true g1 hrd).2 rfl
      simp only [Option.some.injEq, Prod.mk.injEq] at hmount
      rw [← hmount.2.2]
      exact ⟨hc, r, hr, hdir⟩

/-- The disc with only its magic word mounts with the disc identifier. -/
theorem mount_empty_disc_id :
    (FST_Mount envEmptyDisc sampleMountEnv sampleLayout 128 0 0 Globals.initial).map (·.1)
      = some 0x52534250 := by
  decide

theorem C27_chdir_never_moves_witness :
    ∃ p g', FST_Mount envEmptyDisc sampleMountEnv sampleLayout 128 0 0 Globals.initial
        = some (0x52534250, p, g') ∧ g'.current = some [] := by
  cases h : FST_Mount envEmptyDisc sampleMountEnv sampleLayout 128 0 0 Globals.initial with
  | none =>
    have h2 := mount_empty_disc_id
    rw [h] at h2
    cases h2
  | some r =>
    obtain ⟨id, p, g'⟩ := r
    have h2 := mount_empty_disc_id
    rw [h] at h2
    simp only [Option.map_some', Option.some.injEq] at h2
    subst h2
    exact ⟨p, g', rfl, (C27_chdir_never_moves envEmptyDisc sampleMountEnv sampleLayout 128 0 0
      Globals.initial _ p g' h (by decide)).2.1.1⟩
end Fst
